import Mathlib

/-!
Verification of the `nixutil` confined path resolver against its
natural-language specification.

The Python source (`nixutil/beneath.py`, `nixutil/recover_path.py`,
`nixutil/plat_util/linux.py`) is shallowly embedded below.  Filesystem
behaviour is abstracted as an *oracle*: each OS primitive (open / fstat /
readlink, plus the user-supplied audit callback) consults the oracle at the
current logical time and the time advances by one per call, so an arbitrary
(racy, adversarial) filesystem corresponds to a choice of oracle.  File
descriptors returned by `open` are allocated by a fresh counter, and open /
close bookkeeping is threaded through a state so that descriptor-leak
properties can be stated.  Loops are modelled with explicit fuel; a run that
returns `none` ran out of fuel, and every property is stated about completed
runs.  The text-string flavour of the resolver is modelled (the byte flavour
is identical up to the string type).
-/

/-- Errno values used by the library (plus a catch-all for any other code). -/
inductive Errno where
  | ENOENT | ENOTDIR | ELOOP | EXDEV | EAGAIN | EBADF | ENOTSUP
  | EMLINK | EFTYPE | EINVAL | ENOSYS | EINTR
  | other (n : Nat)
deriving DecidableEq, Repr

deriving instance DecidableEq for Except

/-- Result of `fstat`: the identity (device, inode) and the file-type bits the
resolver inspects (`S_ISDIR`, `S_ISLNK`). -/
structure FileStat where
  dev : Nat
  ino : Nat
  isDir : Bool
  isLnk : Bool
deriving DecidableEq, Repr

/-- `os.path.samestat`: same device and inode. -/
def samestat (a b : FileStat) : Bool :=
  a.dev == b.dev && a.ino == b.ino

/-! Open-flag bits, with the numeric values Linux uses; the model only ever
tests these bits, it never interprets them. -/

def O_RDONLY : Nat := 0
def O_NOCTTY : Nat := 0x100
def O_DIRECTORY : Nat := 0x10000
def O_NOFOLLOW : Nat := 0x20000
def O_PATH : Nat := 0x200000

/-- `DIR_OPEN_FLAGS = os.O_DIRECTORY | os.O_PATH` (the non-FreeBSD branch of
`beneath.py`, with `O_PATH` available). -/
def DIR_OPEN_FLAGS : Nat := O_DIRECTORY ||| O_PATH

/-- Events recorded by the model while the walker runs.  They exist only so
that temporal/order properties can be stated; they do not influence the
computation. -/
inductive Event where
  /-- a work item `(flags, queue-now-empty?)` was dequeued -/
  | deq (flags : Nat) (isLast : Bool)
  /-- the walker attempted to open an ordinary named component -/
  | nameAccess (name : String)
  /-- the stateless `..` branch opened `..` on a non-root cursor
      (escape-pending becomes true) -/
  | dotdotOpened
  /-- `_check_beneath` returned normally (escape check confirmed) -/
  | checkOk
  /-- the stateless `..` branch observed the cursor's identity to equal the
      root's and reset the cursor to the root descriptor (escape-pending is
      cleared without running the verifier) -/
  | rootReset
  /-- readlink on a component succeeded: a symlink was encountered -/
  | symlinkFound (target : String)
  /-- the symlink's target was split and prepended to the work queue -/
  | symlinkExpand (target : String)
deriving DecidableEq, Repr

/-- The filesystem / environment oracle.  Each primitive is scripted by
logical time, so any concurrent interference is expressible. -/
structure Oracle where
  /-- outcome of the `os.open` call made at time `t` (the model allocates the
      returned descriptor itself) -/
  openRes : Nat → Except Errno Unit
  /-- result of the `os.fstat` / `os.stat` call made at time `t` -/
  statRes : Nat → Except Errno FileStat
  /-- result of the `os.readlink` call made at time `t` -/
  readlinkRes : Nat → Except Errno String
  /-- outcome of the audit callback invoked at time `t` (`.error` models the
      callback raising) -/
  auditRes : Nat → Except Errno Unit

/-- Model state threaded through every embedded function. -/
structure WalkSt where
  time : Nat
  /-- next descriptor number to hand out -/
  nextFd : Nat
  /-- descriptors currently open that the model has allocated -/
  openFds : List Nat
  /-- set when `os.close` was called on a descriptor that is not open
      (a double close / close of a foreign descriptor) -/
  badClose : Bool
  log : List Event
deriving DecidableEq, Repr

/-- `os.open(...)`: consult the oracle; on success allocate a fresh fd. -/
def sys_open (or : Oracle) (st : WalkSt) : Except Errno Nat × WalkSt :=
  match or.openRes st.time with
  | .ok () =>
      (.ok st.nextFd,
        { st with time := st.time + 1, nextFd := st.nextFd + 1,
                  openFds := st.nextFd :: st.openFds })
  | .error e => (.error e, { st with time := st.time + 1 })

/-- `os.fstat` / `os.stat`. -/
def sys_fstat (or : Oracle) (st : WalkSt) : Except Errno FileStat × WalkSt :=
  (or.statRes st.time, { st with time := st.time + 1 })

/-- `os.readlink`. -/
def sys_readlink (or : Oracle) (st : WalkSt) : Except Errno String × WalkSt :=
  (or.readlinkRes st.time, { st with time := st.time + 1 })

/-- invoking the audit callback. -/
def sys_audit (or : Oracle) (st : WalkSt) : Except Errno Unit × WalkSt :=
  (or.auditRes st.time, { st with time := st.time + 1 })

/-- `os.close`: closing a descriptor that is not open records `badClose`. -/
def sys_close (fd : Nat) (st : WalkSt) : WalkSt :=
  if fd ∈ st.openFds then { st with openFds := st.openFds.erase fd }
  else { st with badClose := true }

/-- append an event to the log. -/
def logEv (e : Event) (st : WalkSt) : WalkSt :=
  { st with log := st.log ++ [e] }

/-- close a list of descriptors one by one (the order in which descriptors are
closed is unobservable in the model: `os.close` consults no oracle). -/
def closeAll : List Nat → WalkSt → WalkSt
  | [], st => st
  | fd :: rest, st => closeAll rest (sys_close fd st)

/-- `str.split(sep)` for a one-character separator, Python semantics
(`"".split(s) = [""]`, empty pieces kept), written structurally so that the
kernel can evaluate it. -/
def splitChars (sep : Char) : List Char → List (List Char)
  | [] => [[]]
  | c :: cs =>
    if c = sep then [] :: splitChars sep cs
    else
      match splitChars sep cs with
      | h :: t => (c :: h) :: t
      | [] => [[c]]

/-- `path.startswith(slash)` for the one-character separator `"/"`. -/
def starts_with_slash (p : String) : Bool :=
  p.data.head? == some '/'

/-- `path.endswith(slash)` for the one-character separator `"/"`. -/
def ends_with_slash (p : String) : Bool :=
  p.data.getLast? == some '/'

/-- the non-empty substrings between separators:
`list(filter(bool, path.split(slash)))`. -/
def split_parts (path : String) : List String :=
  ((splitChars '/' path.data).map String.mk).filter (· ≠ "")

/-- `_split_path` from `beneath.py` (text flavour, `slash = "/"`): decompose a
path into `(component, flags)` work items.  The generator is modelled as the
list of the pairs it yields; raising is modelled with `Except`. -/
def split_path (path : String) (flags : Nat) : Except Errno (List (String × Nat)) :=
  if path = "" then .error .ENOENT
  else
    let flags := if ends_with_slash path then flags ||| O_DIRECTORY else flags
    let parts := split_parts path
    let root : List (String × Nat) :=
      if starts_with_slash path then
        [("/", if parts ≠ [] then DIR_OPEN_FLAGS else flags)]
      else []
    .ok (root ++ parts.dropLast.map (fun p => (p, DIR_OPEN_FLAGS)) ++
         (match parts.getLast? with
          | some last => [(last, flags)]
          | none => []))

/-- the loop-detection test of `_check_beneath`:
`prev_stat is not None and os.path.samestat(cur_stat, prev_stat)`. -/
def prevMatches (prev : Option FileStat) (s : FileStat) : Bool :=
  match prev with
  | some p => samestat s p
  | none => false

/-- the `finally` of `_check_beneath`: `if cur_fd != orig_fd: os.close(cur_fd)`. -/
def finClose (cur orig : Nat) (st : WalkSt) : WalkSt :=
  if cur ≠ orig then sys_close cur st else st

/-- `_check_beneath` from `beneath.py`: rewind up the directory tree from the
cursor and make sure the walk did not escape the root.  `cur` is the cursor,
`orig` the descriptor the caller passed (never closed here), `dir_fd_stat` the
root identity, `prev` the stat of the previous level (`None` initially). -/
def _check_beneath (or : Oracle) (fuel : Nat) (cur orig : Nat)
    (dir_fd_stat : FileStat) (prev : Option FileStat) (st : WalkSt) :
    Option (Except Errno Unit × WalkSt) :=
  match fuel with
  | 0 => none
  | fuel + 1 =>
    match sys_fstat or st with
    | (.error e, st) => some (.error e, finClose cur orig st)
    | (.ok cur_stat, st) =>
      if samestat cur_stat dir_fd_stat then
        -- we found it: we did *not* escape
        some (.ok (), finClose cur orig st)
      else if prevMatches prev cur_stat then
        -- opening ".." brought us the same directory: we are at the real "/"
        some (.error .EXDEV, finClose cur orig st)
      else
        match sys_open or st with  -- os.open("..", DIR_OPEN_FLAGS, dir_fd=cur)
        | (.error e, st) => some (.error e, finClose cur orig st)
        | (.ok new_fd, st) =>
          let st := if cur ≠ orig then sys_close cur st else st
          _check_beneath or fuel new_fd orig dir_fd_stat (some cur_stat) st

/-- symlink budget: `max_symlinks = 0 if no_symlinks else 40`. -/
def max_symlinks (no_symlinks : Bool) : Nat :=
  if no_symlinks then 0 else 40

/-- Context shared by every iteration of the walk. -/
structure Ctx where
  or : Oracle
  dir_fd : Nat
  dir_fd_stat : FileStat
  mode : Nat
  remember_parents : Bool
  no_symlinks : Bool
  audit : Bool

/-- Result of one iteration body of the `while parts:` loop. -/
structure BodyOut where
  /-- `.error e`: the body raised; fields below hold the values the Python
      locals had at the raise -/
  res : Except Errno Unit
  cur_fd : Nat
  parent_fds : List Nat
  found_symlinks : Nat
  saw_parent_elem : Bool
  parts : List (String × Nat)
deriving Repr

/-- the tail of the symlink probe, after the audit callback has been
invoked: count the symlink, enforce the budget and `O_NOFOLLOW`, split the
target and hand the items back for prepending. -/
def handle_symlink_cont (flags found_symlinks msym : Nat) (target : String)
    (st : WalkSt) : Except Errno (List (String × Nat) × Nat) × WalkSt :=
  let found := found_symlinks + 1
  if flags &&& O_NOFOLLOW ≠ 0 ∨ found > msym then (.error .ELOOP, st)
  else
    match split_path target flags with
    | .error e => (.error e, st)
    | .ok items => (.ok (items, found), logEv (.symlinkExpand target) st)

/-- The except-clause of the symlink probe in `_open_beneath`
(`except OSError as ex:` after the component open failed with `ex`, or after
the Linux `O_PATH` symlink detection re-raised `ELOOP` into it).  Returns
either the error to propagate or `(work items to prepend, new symlink
count)`. -/
def handle_open_failure (or : Oracle) (audit : Bool) (ex : Errno) (flags : Nat)
    (found_symlinks msym : Nat) (st : WalkSt) :
    Except Errno (List (String × Nat) × Nat) × WalkSt :=
  -- On Linux `errno.EFTYPE` does not exist and the tuple holds `None` in its
  -- place; the model keeps the full four-errno set of the source.
  if ex ∉ [Errno.ELOOP, Errno.ENOTDIR, Errno.EMLINK, Errno.EFTYPE] then
    (.error ex, st)
  else
    match sys_readlink or st with  -- os.readlink(part, dir_fd=cur_fd)
    | (.error e2, st) =>
      if e2 = .EINVAL then
        -- not actually a symlink
        if ex = .ENOTDIR then (.error .ENOTDIR, st) else (.error .EAGAIN, st)
      else (.error e2, st)
    | (.ok target, st) =>
      let st := logEv (.symlinkFound target) st
      if audit then
        match sys_audit or st with
        | (.error e, st) => (.error e, st)
        | (.ok (), st) => handle_symlink_cont flags found_symlinks msym target st
      else handle_symlink_cont flags found_symlinks msym target st

/-- the common tail of the component-open failure path: run the symlink probe
and either propagate its error (leaving the cursor at `cur2`, the value the
Python local has at the raise) or prepend the expansion to the queue. -/
def after_open_failure (c : Ctx) (ex : Errno) (flags : Nat)
    (rest : List (String × Nat)) (cur2 : Nat) (parent_fds : List Nat)
    (found_symlinks : Nat) (saw : Bool) (st : WalkSt) : BodyOut × WalkSt :=
  match handle_open_failure c.or c.audit ex flags found_symlinks
      (max_symlinks c.no_symlinks) st with
  | (.error e, st) =>
    (⟨.error e, cur2, parent_fds, found_symlinks, saw, rest⟩, st)
  | (.ok (items, found), st) =>
    (⟨.ok (), cur2, parent_fds, found, saw, items ++ rest⟩, st)

/-- the successful-open exit of a component open: install the new descriptor
`f` as the cursor and, under `remember_parents`, push the old cursor onto the
parent stack (`parent_fds.append(old_fd)`). -/
def open_success (c : Ctx) (f cur_fd : Nat) (rest : List (String × Nat))
    (parent_fds : List Nat) (found_symlinks : Nat) (saw : Bool)
    (st : WalkSt) : BodyOut × WalkSt :=
  (⟨.ok (), f,
    (if c.remember_parents = true ∧ cur_fd ≠ c.dir_fd then cur_fd :: parent_fds
     else parent_fds),
    found_symlinks, saw, rest⟩, st)

/-- the Linux `O_PATH` probe after a component open succeeded with descriptor
`f`: `stat.S_ISLNK(os.stat(cur_fd).st_mode)`.  A symlink gets closed, the
cursor restored to `old_fd` and `ELOOP` raised (caught by the
`except OSError` around the open); a stat failure is caught there too, with
the new descriptor already installed as the cursor. -/
def open_path_check (c : Ctx) (f cur_fd : Nat) (flags : Nat)
    (rest : List (String × Nat)) (parent_fds : List Nat)
    (found_symlinks : Nat) (saw : Bool) :
    Except Errno FileStat → WalkSt → BodyOut × WalkSt
  | .ok s, st =>
    if s.isLnk = true then
      -- close it and raise ELOOP, which the `except OSError` below the
      -- open catches and routes into the symlink probe
      after_open_failure c .ELOOP flags rest cur_fd parent_fds
        found_symlinks saw (sys_close f st)
    else
      open_success c f cur_fd rest parent_fds found_symlinks saw st
  | .error e2, st =>
    after_open_failure c e2 flags rest f parent_fds found_symlinks saw st

/-- continuation of the component open once `os.open` returned descriptor
`f`: run the `O_PATH` symlink probe when `O_PATH` was requested without
`O_NOFOLLOW`/`O_DIRECTORY`, otherwise the open stands. -/
def open_ok_cont (c : Ctx) (f cur_fd : Nat) (flags : Nat)
    (rest : List (String × Nat)) (parent_fds : List Nat)
    (found_symlinks : Nat) (saw : Bool) (st : WalkSt) : BodyOut × WalkSt :=
  if flags &&& (O_PATH ||| O_NOFOLLOW ||| O_DIRECTORY) = O_PATH then
    let p := sys_fstat c.or st
    open_path_check c f cur_fd flags rest parent_fds found_symlinks saw p.1 p.2
  else
    open_success c f cur_fd rest parent_fds found_symlinks saw st

/-- The ordinary-name branch of the loop body, after the escape check has
already been handled: attempt to open `part` and deal with symlinks. -/
def open_component (c : Ctx) (part : String) (flags : Nat)
    (rest : List (String × Nat)) (cur_fd : Nat) (parent_fds : List Nat)
    (found_symlinks : Nat) (saw : Bool) (st : WalkSt) : BodyOut × WalkSt :=
  let st := logEv (.nameAccess part) st
  -- os.open(part, flags | O_NOCTTY | O_NOFOLLOW, mode=mode, dir_fd=cur_fd)
  match sys_open c.or st with
  | (.ok f, st) =>
    open_ok_cont c f cur_fd flags rest parent_fds found_symlinks saw st
  | (.error e, st) =>
    after_open_failure c e flags rest cur_fd parent_fds found_symlinks saw st

/-- the per-iteration `finally` of the walk loop:
`if old_fd not in (cur_fd, dir_fd) and old_fd not in parent_fds:
os.close(old_fd)`. -/
def iter_finally (c : Ctx) (old cur' : Nat) (parents' : List Nat)
    (st : WalkSt) : WalkSt :=
  if old ≠ cur' ∧ old ≠ c.dir_fd ∧ old ∉ parents' then sys_close old st else st

/-- One iteration body of the `while parts:` loop of `_open_beneath` (the
`try:` block guarded by the per-iteration `finally`), dispatching on the
component kind.  The parent stack is kept most-recently-pushed first. -/
def walk_body (c : Ctx) (fuel : Nat) (part : String) (flags : Nat)
    (rest : List (String × Nat)) (cur_fd : Nat) (parent_fds : List Nat)
    (found_symlinks : Nat) (saw : Bool) (st : WalkSt) :
    Option (BodyOut × WalkSt) :=
  if part = "/" then
    -- reset to the root, closing the whole parent stack (newest first)
    some (⟨.ok (), c.dir_fd, [], found_symlinks, saw, rest⟩, closeAll parent_fds st)
  else if part = ".." then
    if c.remember_parents then
      match parent_fds with
      | [] => some (⟨.ok (), c.dir_fd, [], found_symlinks, saw, rest⟩, st)
      | p :: ps =>
        if flags = DIR_OPEN_FLAGS then
          some (⟨.ok (), p, ps, found_symlinks, saw, rest⟩, st)
        else
          match sys_open c.or st with  -- os.open(".", flags, dir_fd=parent_fds[-1])
          | (.error e, st) =>
            some (⟨.error e, cur_fd, parent_fds, found_symlinks, saw, rest⟩, st)
          | (.ok f, st) =>
            some (⟨.ok (), f, ps, found_symlinks, saw, rest⟩, sys_close p st)
    else
      if cur_fd = c.dir_fd then
        some (⟨.ok (), c.dir_fd, parent_fds, found_symlinks, false, rest⟩, st)
      else
        match sys_fstat c.or st with
        | (.error e, st) =>
          some (⟨.error e, cur_fd, parent_fds, found_symlinks, saw, rest⟩, st)
        | (.ok s, st) =>
          if samestat s c.dir_fd_stat then
            -- we hit the root; stay there
            some (⟨.ok (), c.dir_fd, parent_fds, found_symlinks, false, rest⟩,
                  logEv .rootReset st)
          else
            match sys_open c.or st with  -- os.open("..", flags, dir_fd=cur_fd)
            | (.error e, st) =>
              some (⟨.error e, cur_fd, parent_fds, found_symlinks, saw, rest⟩, st)
            | (.ok f, st) =>
              some (⟨.ok (), f, parent_fds, found_symlinks, true, rest⟩,
                    logEv .dotdotOpened st)
  else if part = "." then
    if cur_fd ≠ c.dir_fd ∧ flags ≠ DIR_OPEN_FLAGS then
      match sys_open c.or st with  -- os.open(".", flags, dir_fd=cur_fd)
      | (.error e, st) =>
        some (⟨.error e, cur_fd, parent_fds, found_symlinks, saw, rest⟩, st)
      | (.ok f, st) =>
        some (⟨.ok (), f, parent_fds, found_symlinks, saw, rest⟩, st)
    else
      some (⟨.ok (), cur_fd, parent_fds, found_symlinks, saw, rest⟩, st)
  else
    if saw then
      -- check that we didn't escape *before* trying to open anything
      match _check_beneath c.or fuel cur_fd cur_fd c.dir_fd_stat none st with
      | none => none
      | some (.error e, st) =>
        some (⟨.error e, cur_fd, parent_fds, found_symlinks, saw, rest⟩, st)
      | some (.ok (), st) =>
        some (open_component c part flags rest cur_fd parent_fds found_symlinks
                false (logEv .checkOk st))
    else
      some (open_component c part flags rest cur_fd parent_fds found_symlinks
              saw st)

/-- Result of the whole `while parts:` loop, carrying the values the walker's
locals have when the loop stops (normally or by a raise). -/
structure LoopOut where
  res : Except Errno Unit
  cur_fd : Nat
  parent_fds : List Nat
  found_symlinks : Nat
  saw_parent_elem : Bool
deriving Repr

/-- The `while parts:` loop of `_open_beneath`: audit hook, body, and the
per-iteration `finally` that releases the previous cursor. -/
def walk_loop (c : Ctx) :
    Nat → List (String × Nat) → Nat → List Nat → Nat → Bool → WalkSt →
    Option (LoopOut × WalkSt)
  | 0, _, _, _, _, _, _ => none
  | _ + 1, [], cur_fd, parent_fds, found, saw, st =>
    some (⟨.ok (), cur_fd, parent_fds, found, saw⟩, st)
  | fuel + 1, (part, flags) :: rest, cur_fd, parent_fds, found, saw, st =>
    let st := logEv (.deq flags rest.isEmpty) st
    -- audit("before", cur_fd, part): outside the per-iteration try/finally
    match (if c.audit then sys_audit c.or st else (.ok (), st)) with
    | (.error e, st) => some (⟨.error e, cur_fd, parent_fds, found, saw⟩, st)
    | (.ok (), st) =>
      let old_fd := cur_fd
      match walk_body c (fuel + 1) part flags rest cur_fd parent_fds found saw st with
      | none => none
      | some (b, st) =>
        let st := iter_finally c old_fd b.cur_fd b.parent_fds st
        match b.res with
        | .error e =>
          some (⟨.error e, b.cur_fd, b.parent_fds, b.found_symlinks,
                 b.saw_parent_elem⟩, st)
        | .ok () =>
          walk_loop c fuel b.parts b.cur_fd b.parent_fds b.found_symlinks
            b.saw_parent_elem st

/-- Python `".." in parts` compares the *string* `".."` with the
`(component, flags)` tuples in the deque, which is never equal; the model
reproduces that faithfully. -/
def pyStrEqPair (_s : String) (_p : String × Nat) : Bool := false

/-- the `while parts:` loop of `_open_beneath` together with everything after
it: the trailing escape check, the `except BaseException` / `finally`
cleanup, and the final re-open of the root when the cursor still sits on it.
(`dir_fd` and the walk oracle are read off the context.) -/
def loop_tail (c : Ctx) (fuel : Nat) (parts : List (String × Nat))
    (st : WalkSt) : Option (Except Errno Nat × WalkSt) :=
  match walk_loop c fuel parts c.dir_fd [] 0 false st with
  | none => none
  | some (out, st) =>
    match out.res with
    | .error e =>
      -- except BaseException: close cur_fd if owned; finally: close the
      -- parent stack
      let st := if out.cur_fd ≠ c.dir_fd then sys_close out.cur_fd st else st
      some (.error e, closeAll out.parent_fds st)
    | .ok () =>
      match (if out.saw_parent_elem then
               _check_beneath c.or fuel out.cur_fd out.cur_fd c.dir_fd_stat
                 none st
             else some (.ok (), st)) with
      | none => none
      | some (.error e, st) =>
        let st := if out.cur_fd ≠ c.dir_fd then sys_close out.cur_fd st else st
        some (.error e, closeAll out.parent_fds st)
      | some (.ok (), st) =>
        let st := if out.saw_parent_elem then logEv .checkOk st else st
        let st := closeAll out.parent_fds st
        if out.cur_fd = c.dir_fd then
          -- os.open(".", flags=orig_flags | O_NOCTTY, dir_fd=dir_fd)
          match sys_open c.or st with
          | (.error e, st) => some (.error e, st)
          | (.ok f, st) => some (.ok f, st)
        else some (.ok out.cur_fd, st)

/-- `_open_beneath` from `beneath.py`. -/
def _open_beneath (or : Oracle) (fuel : Nat) (orig_path : String)
    (dir_fd : Nat) (orig_flags mode : Nat)
    (no_symlinks remember_parents audit : Bool) (st : WalkSt) :
    Option (Except Errno Nat × WalkSt) :=
  match sys_fstat or st with  -- dir_fd_stat = os.fstat(dir_fd)
  | (.error e, st) => some (.error e, st)
  | (.ok dir_fd_stat, st) =>
    if !dir_fd_stat.isDir then some (.error .ENOTDIR, st)
    else
      match split_path orig_path orig_flags with
      | .error e => some (.error e, st)
      | .ok parts =>
        -- `if no_symlinks and dotdot not in parts: remember_parents = False`
        let remember_parents :=
          if no_symlinks && !(parts.any (pyStrEqPair "..")) then false
          else remember_parents
        loop_tail ⟨or, dir_fd, dir_fd_stat, mode, remember_parents,
                   no_symlinks, audit⟩ fuel parts st

/-- `open_beneath` from `beneath.py`, with the platform fast path absent
(`_try_open_beneath is None`, as on every platform without `openat2`); the
walker below is exactly the code that runs then.  `dir_fd = none` models the
`dir_fd=None` call that captures the working directory once. -/
def open_beneath (or : Oracle) (fuel : Nat) (path : String) (flags mode : Nat)
    (dir_fd : Option Nat) (no_symlinks remember_parents audit : Bool)
    (st : WalkSt) : Option (Except Errno Nat × WalkSt) :=
  let flags := flags ||| O_NOCTTY
  match dir_fd with
  | some d =>
    _open_beneath or fuel path d flags mode no_symlinks remember_parents audit st
  | none =>
    match sys_open or st with  -- os.open(".", DIR_OPEN_FLAGS)
    | (.error e, st) => some (.error e, st)
    | (.ok d, st) =>
      match _open_beneath or fuel path d flags mode no_symlinks remember_parents
          audit st with
      | none => none
      | some (r, st) => some (r, sys_close d st)

/-- `try_recover_fd_path` from `plat_util/linux.py`, as a function of the
result of `os.readlink("/proc/self/fd/{fd}")`: on any OSError decline;
otherwise return the path only when it is absolute and does not end in
`" (deleted)"`, declining otherwise. -/
def try_recover_fd_path (readlinkProcFd : Except Errno String) : Option String :=
  match readlinkProcFd with
  | .error _ => none
  | .ok path =>
    if starts_with_slash path && !(" (deleted)".data.isSuffixOf path.data) then
      some path
    else none

/-- Static-filesystem interface for `recover_fd_path` (`recover_path.py`).
Descriptors inside the reverse walk only matter through their stat identity,
so the parent/scan primitives are indexed by `FileStat`; no claim concerns
races or descriptor bookkeeping in this routine, so they are not modelled. -/
structure RecFS where
  /-- `plat_util.try_recover_fd_path`, when the attribute exists -/
  platPresent : Bool
  plat : Int → Option String
  /-- `os.fstat(fd)` on the original descriptor -/
  fstatFd : Int → Except Errno FileStat
  /-- opening `..` from a directory and fstat-ing it -/
  parentOf : FileStat → Except Errno FileStat
  /-- scanning a directory: entries as `(name, stat-result)`; a stat error on
      an entry is skipped by the source -/
  entries : FileStat → List (String × Except Errno FileStat)
  /-- `os.stat("/")` -/
  rootStat : Except Errno FileStat

/-- `_recover_fname` (the `scandir` flavour): first entry that is a directory
with the same identity as the child; stat errors on entries are ignored;
`ENOENT` when nothing matches. -/
def _recover_fname (fs : RecFS) (parent_stat sub_stat : FileStat) :
    Except Errno String :=
  match (fs.entries parent_stat).find? (fun e =>
      match e.2 with
      | .ok s => s.isDir && samestat sub_stat s
      | .error _ => false) with
  | some e => .ok e.1
  | none => .error .ENOENT

/-- The reverse-walk loop of `recover_fd_path`. -/
def recover_loop (fs : RecFS) : Nat → FileStat → String →
    Option (Except Errno String)
  | 0, _, _ => none
  | fuel + 1, sub_stat, built_path =>
    match fs.parentOf sub_stat with
    | .error e => some (.error e)
    | .ok parent_stat =>
      if samestat sub_stat parent_stat then
        -- opening ".." returned the same directory; probably "/"
        match fs.rootStat with
        | .error e => some (.error e)
        | .ok root =>
          if samestat parent_stat root then some (.ok ("/" ++ built_path))
          else some (.error .ENOENT)
      else
        match _recover_fname fs parent_stat sub_stat with
        | .error e => some (.error e)
        | .ok fname =>
          recover_loop fs fuel parent_stat
            (if built_path = "" then fname else fname ++ "/" ++ built_path)

/-- `recover_fd_path` from `recover_path.py`. -/
def recover_fd_path (fs : RecFS) (fuel : Nat) (fd : Int) :
    Option (Except Errno String) :=
  if fd < 0 then some (.error .EBADF)
  else
    match (if fs.platPresent then fs.plat fd else none) with
    | some path => some (.ok path)
    | none =>
      match fs.fstatFd fd with
      | .error e => some (.error e)
      | .ok orig_stat =>
        if !orig_stat.isDir then some (.error .ENOTSUP)
        else recover_loop fs fuel orig_stat ""

/-! ### Properties of the path splitter -/

/-- the flags the final component is emitted with. -/
def final_flags (path : String) (flags : Nat) : Nat :=
  if ends_with_slash path then flags ||| O_DIRECTORY else flags

theorem split_path_ok (p : String) (f : Nat) (hp : p ≠ "") :
    split_path p f = .ok (
      (if starts_with_slash p then
        [("/", if split_parts p ≠ [] then DIR_OPEN_FLAGS else final_flags p f)]
       else []) ++
      (split_parts p).dropLast.map (fun q => (q, DIR_OPEN_FLAGS)) ++
      (match (split_parts p).getLast? with
       | some last => [(last, final_flags p f)]
       | none => [])) := by
  rw [split_path, if_neg hp]
  rfl

theorem split_path_ok_nil (p : String) (f : Nat) (hp : p ≠ "")
    (he : split_parts p = []) :
    split_path p f = .ok (if starts_with_slash p then [("/", final_flags p f)] else []) := by
  rw [split_path_ok p f hp, he]
  simp

theorem split_path_ok_concat (p : String) (f : Nat) (qs : List String)
    (q : String) (hp : p ≠ "") (he : split_parts p = qs ++ [q]) :
    split_path p f = .ok (
      (if starts_with_slash p then [("/", DIR_OPEN_FLAGS)] else []) ++
      qs.map (fun a => (a, DIR_OPEN_FLAGS)) ++ [(q, final_flags p f)]) := by
  rw [split_path_ok p f hp, he]
  simp [List.getLast?_concat]

theorem split_path_ne_empty (p : String) (f : Nat) (l : List (String × Nat))
    (h : split_path p f = .ok l) : p ≠ "" := by
  intro he
  rw [he, split_path] at h
  simp at h

/-- All work items a split emits, except possibly the last, carry
`DIR_OPEN_FLAGS`. -/
theorem split_path_dropLast_flags (p : String) (f : Nat)
    (l : List (String × Nat)) (h : split_path p f = .ok l) :
    ∀ x ∈ l.dropLast, x.2 = DIR_OPEN_FLAGS := by
  have hp : p ≠ "" := split_path_ne_empty p f l h
  rcases (split_parts p).eq_nil_or_concat with he | ⟨qs, q, he⟩
  · rw [split_path_ok_nil p f hp he] at h
    obtain rfl : _ = l := by injection h
    split <;> intro x hx <;> simp_all
  · rw [split_path_ok_concat p f qs q hp (by simpa using he)] at h
    obtain rfl : _ = l := by injection h
    rw [List.dropLast_concat]
    intro x hx
    rcases List.mem_append.1 hx with hx | hx
    · split at hx <;> simp_all
    · simp only [List.mem_map] at hx
      obtain ⟨a, _, rfl⟩ := hx
      rfl

/-- When a split is asked for `DIR_OPEN_FLAGS` as the final flags, every
emitted item carries `DIR_OPEN_FLAGS` (adding `O_DIRECTORY` changes
nothing: the set already asserts it). -/
theorem split_path_all_dir (p : String) (l : List (String × Nat))
    (h : split_path p DIR_OPEN_FLAGS = .ok l) :
    ∀ x ∈ l, x.2 = DIR_OPEN_FLAGS := by
  have hp : p ≠ "" := split_path_ne_empty p DIR_OPEN_FLAGS l h
  have hfin : final_flags p DIR_OPEN_FLAGS = DIR_OPEN_FLAGS := by
    rw [final_flags]; split <;> [decide; rfl]
  rcases (split_parts p).eq_nil_or_concat with he | ⟨qs, q, he⟩
  · rw [split_path_ok_nil p _ hp he] at h
    obtain rfl : _ = l := by injection h
    split <;> intro x hx <;> simp_all
  · rw [split_path_ok_concat p _ qs q hp (by simpa using he)] at h
    obtain rfl : _ = l := by injection h
    intro x hx
    rcases List.mem_append.1 hx with hx | hx
    · rcases List.mem_append.1 hx with hx | hx
      · split at hx <;> simp_all
      · simp only [List.mem_map] at hx
        obtain ⟨a, _, rfl⟩ := hx
        rfl
    · simp only [List.mem_singleton] at hx
      rw [hx, hfin]

/-- names of a flag-tagged list. -/
theorem map_fst_pair (c : Nat) (qs : List String) :
    List.map (Prod.fst ∘ fun a => (a, c)) qs = qs := by
  induction qs with
  | nil => rfl
  | cons a l ih => simp only [List.map_cons, ih, Function.comp_apply]

/-- C5: the path splitter raises `ENOENT` on the empty path; an absolute path
emits the root marker first, carrying `DIR_OPEN_FLAGS` when components follow
and otherwise the final flags; the emitted names are exactly the non-empty
substrings between separators (consecutive separators collapse); every
component but the last carries `DIR_OPEN_FLAGS`; and the last component
carries the final flags, augmented with `O_DIRECTORY` when the path ends with
`/` (`final_flags`). -/
theorem split_path_contract :
    (∀ f, split_path "" f = .error .ENOENT) ∧
    (∀ p f l, split_path p f = .ok l →
      l.map Prod.fst = (if starts_with_slash p then ["/"] else []) ++ split_parts p ∧
      (∀ x ∈ l.dropLast, x.2 = DIR_OPEN_FLAGS) ∧
      (starts_with_slash p = true →
        l.head? = some ("/",
          if split_parts p = [] then final_flags p f else DIR_OPEN_FLAGS)) ∧
      (∀ qs q, split_parts p = qs ++ [q] →
        l.getLast? = some (q, final_flags p f))) := by
  refine ⟨fun f => by rw [split_path]; rfl, fun p f l h => ?_⟩
  have hp : p ≠ "" := split_path_ne_empty p f l h
  refine ⟨?_, split_path_dropLast_flags p f l h, ?_, ?_⟩
  · rcases (split_parts p).eq_nil_or_concat with he | ⟨qs, q, he⟩
    · rw [split_path_ok_nil p f hp he] at h
      obtain rfl : _ = l := by injection h
      rw [he]
      split <;> simp
    · rw [split_path_ok_concat p f qs q hp (by simpa using he)] at h
      obtain rfl : _ = l := by injection h
      rw [show split_parts p = qs ++ [q] from by simpa using he]
      split <;> simp [map_fst_pair]
  · intro hs
    rcases (split_parts p).eq_nil_or_concat with he | ⟨qs, q, he⟩
    · rw [split_path_ok_nil p f hp he] at h
      obtain rfl : _ = l := by injection h
      rw [he, if_pos hs]
      simp
    · rw [split_path_ok_concat p f qs q hp (by simpa using he)] at h
      obtain rfl : _ = l := by injection h
      rw [if_pos hs]
      rw [show split_parts p = qs ++ [q] from by simpa using he]
      simp
  · intro qs q he
    rw [split_path_ok_concat p f qs q hp he] at h
    obtain rfl : _ = l := by injection h
    simp [List.getLast?_concat]

/-- C5 witness: the contract evaluated on the concrete path `"/a//b/"` with
final flags `0`. -/
theorem split_path_contract_witness :
    (starts_with_slash "/a//b/" = true →
      ([("/", DIR_OPEN_FLAGS), ("a", DIR_OPEN_FLAGS),
        ("b", O_DIRECTORY)] : List (String × Nat)).head? = some ("/",
          if split_parts "/a//b/" = [] then final_flags "/a//b/" 0
          else DIR_OPEN_FLAGS)) ∧
    ([("/", DIR_OPEN_FLAGS), ("a", DIR_OPEN_FLAGS),
        ("b", O_DIRECTORY)] : List (String × Nat)).getLast? =
      some ("b", final_flags "/a//b/" 0) := by
  have h := split_path_contract.2 "/a//b/" 0
    [("/", DIR_OPEN_FLAGS), ("a", DIR_OPEN_FLAGS), ("b", O_DIRECTORY)]
    (by decide)
  exact ⟨h.2.2.1, h.2.2.2 ["a"] "b" (by decide)⟩

/-! ### Characterization of the escape verifier

`_check_beneath` performs, per level, one `fstat` and (when it continues) one
`open("..")`; with the model's one-tick-per-primitive clock, level `k` of a
verifier started at time `t0` sees the stat scripted at `t0 + 2*k` and the
open scripted at `t0 + 2*k + 1`.  The predicates below describe, purely in
terms of the oracle, what "repeatedly replacing the cursor by the directory
opened via `..`" observes. -/

/-- the stat of the verifier's `k`-th level. -/
def chainStat (or : Oracle) (t0 k : Nat) : Except Errno FileStat :=
  or.statRes (t0 + 2 * k)

/-- the outcome of the `..` open leaving the verifier's `k`-th level. -/
def chainOpen (or : Oracle) (t0 k : Nat) : Except Errno Unit :=
  or.openRes (t0 + 2 * k + 1)

/-- the previous level's stat as the verifier tracks it (`prev0` before the
first level). -/
def prevAt (or : Oracle) (t0 : Nat) (prev0 : Option FileStat) : Nat → Option FileStat
  | 0 => prev0
  | k + 1 =>
    match chainStat or t0 k with
    | .ok s => some s
    | .error _ => none

/-- level `k` neither matches the root nor repeats its parent nor errors: the
verifier walks on. -/
def ContStep (or : Oracle) (root : FileStat) (prev0 : Option FileStat)
    (t0 k : Nat) : Prop :=
  ∃ s, chainStat or t0 k = .ok s ∧ samestat s root = false ∧
    prevMatches (prevAt or t0 prev0 k) s = false ∧
    chainOpen or t0 k = .ok ()

/-- the first `n` levels all walk on. -/
def ChainCont (or : Oracle) (root : FileStat) (prev0 : Option FileStat)
    (t0 n : Nat) : Prop :=
  ∀ k < n, ContStep or root prev0 t0 k

/-- walking upward reaches the root identity at level `n`. -/
def ContainedAt (or : Oracle) (root : FileStat) (prev0 : Option FileStat)
    (t0 n : Nat) : Prop :=
  ChainCont or root prev0 t0 n ∧
    ∃ s, chainStat or t0 n = .ok s ∧ samestat s root = true

/-- level `n` repeats its parent's identity without matching the root: the
real filesystem root was reached, i.e. the walk escaped. -/
def EscapedAt (or : Oracle) (root : FileStat) (prev0 : Option FileStat)
    (t0 n : Nat) : Prop :=
  ChainCont or root prev0 t0 n ∧
    ∃ s p, chainStat or t0 n = .ok s ∧ samestat s root = false ∧
      prevAt or t0 prev0 n = some p ∧ samestat s p = true

/-- the `fstat` of level `n` fails with `e` (all earlier levels walked on). -/
def FailStatAt (or : Oracle) (root : FileStat) (prev0 : Option FileStat)
    (t0 n : Nat) (e : Errno) : Prop :=
  ChainCont or root prev0 t0 n ∧ chainStat or t0 n = .error e

/-- the `..` open of level `n` fails with `e` (level `n` itself was neither
root nor a repeat). -/
def FailOpenAt (or : Oracle) (root : FileStat) (prev0 : Option FileStat)
    (t0 n : Nat) (e : Errno) : Prop :=
  ChainCont or root prev0 t0 n ∧
    ∃ s, chainStat or t0 n = .ok s ∧ samestat s root = false ∧
      prevMatches (prevAt or t0 prev0 n) s = false ∧
      chainOpen or t0 n = .error e

theorem chainStat_shift (or : Oracle) (t0 k : Nat) :
    chainStat or (t0 + 2) k = chainStat or t0 (k + 1) := by
  simp only [chainStat]
  congr 1
  omega

theorem chainOpen_shift (or : Oracle) (t0 k : Nat) :
    chainOpen or (t0 + 2) k = chainOpen or t0 (k + 1) := by
  simp only [chainOpen]
  congr 2
  omega

theorem prevAt_shift (or : Oracle) (t0 : Nat) (prev0 : Option FileStat)
    (s : FileStat) (hs : or.statRes t0 = .ok s) (k : Nat) :
    prevAt or (t0 + 2) (some s) k = prevAt or t0 prev0 (k + 1) := by
  cases k with
  | zero =>
    have h0 : chainStat or t0 0 = .ok s := hs
    simp [prevAt, h0]
  | succ k =>
    simp only [prevAt, chainStat_shift]

theorem ContStep_shift (or : Oracle) (root : FileStat) (prev0 : Option FileStat)
    (t0 : Nat) (s : FileStat) (hs : or.statRes t0 = .ok s) (k : Nat) :
    ContStep or root (some s) (t0 + 2) k ↔ ContStep or root prev0 t0 (k + 1) := by
  simp only [ContStep, chainStat_shift, chainOpen_shift,
    prevAt_shift or t0 prev0 s hs]

theorem ChainCont_shift (or : Oracle) (root : FileStat) (prev0 : Option FileStat)
    (t0 : Nat) (s : FileStat) (hs : or.statRes t0 = .ok s)
    (hroot : samestat s root = false)
    (hprev : (match prev0 with
              | some p => samestat s p
              | none => false) = false)
    (hopen : or.openRes (t0 + 1) = .ok ()) (n : Nat) :
    ChainCont or root (some s) (t0 + 2) n ↔ ChainCont or root prev0 t0 (n + 1) := by
  constructor
  · intro h k hk
    cases k with
    | zero => exact ⟨s, hs, hroot, hprev, hopen⟩
    | succ k =>
      exact (ContStep_shift or root prev0 t0 s hs k).mp (h k (by omega))
  · intro h k hk
    exact (ContStep_shift or root prev0 t0 s hs k).mpr (h (k + 1) (by omega))

theorem chainStat_zero (or : Oracle) (t0 : Nat) :
    chainStat or t0 0 = or.statRes t0 := rfl

theorem chainOpen_zero (or : Oracle) (t0 : Nat) :
    chainOpen or t0 0 = or.openRes (t0 + 1) := rfl

theorem prevAt_zero (or : Oracle) (t0 : Nat) (p : Option FileStat) :
    prevAt or t0 p 0 = p := rfl

theorem sys_close_time (fd : Nat) (st : WalkSt) :
    (sys_close fd st).time = st.time := by
  rw [sys_close]; split <;> rfl

theorem some_pair_eq {α β : Type} {a c : α} {b d : β}
    (h : some (a, b) = some (c, d)) : a = c ∧ b = d := by
  injection h with h1
  exact ⟨congrArg Prod.fst h1, congrArg Prod.snd h1⟩

theorem prevMatches_some (p s : FileStat) :
    prevMatches (some p) s = samestat s p := rfl

theorem time_if_close (P : Prop) [Decidable P] (cur : Nat) (st : WalkSt) :
    (if P then sys_close cur st else st).time = st.time := by
  split
  · rw [sys_close_time]
  · rfl

/-- C2: the escape verifier returns normally iff walking upward by `..`
reaches the root identity; a level that repeats its parent's identity before
the root is matched yields `EXDEV`; and an error from any of its primitives is
propagated unchanged (in particular it is returned as itself, never converted
into an `EXDEV` escape). -/
theorem check_beneath_spec (or : Oracle) (fuel : Nat) (cur orig : Nat)
    (root : FileStat) (prev : Option FileStat) (st : WalkSt)
    (res : Except Errno Unit) (st' : WalkSt)
    (h : _check_beneath or fuel cur orig root prev st = some (res, st')) :
    (res = .ok () ↔ ∃ n, ContainedAt or root prev st.time n) ∧
    (∀ n, EscapedAt or root prev st.time n → res = .error .EXDEV) ∧
    (∀ n e, FailStatAt or root prev st.time n e → res = .error e) ∧
    (∀ n e, FailOpenAt or root prev st.time n e → res = .error e) := by
  induction fuel generalizing cur prev st res st' with
  | zero => simp [_check_beneath] at h
  | succ fuel ih =>
    cases hstat : or.statRes st.time with
    | error e =>
      rw [_check_beneath] at h
      simp only [sys_fstat, hstat] at h
      obtain ⟨rfl, rfl⟩ := some_pair_eq h
      refine ⟨?_, ?_, ?_, ?_⟩
      · constructor
        · intro hc; cases hc
        · rintro ⟨n, hc, s, hs, -⟩
          cases n with
          | zero => rw [chainStat_zero, hstat] at hs; cases hs
          | succ m =>
            obtain ⟨s', hs', -, -, -⟩ := hc 0 (Nat.succ_pos m)
            rw [chainStat_zero, hstat] at hs'; cases hs'
      · rintro n ⟨hc, s, p, hs, -, -, -⟩
        cases n with
        | zero => rw [chainStat_zero, hstat] at hs; cases hs
        | succ m =>
          obtain ⟨s', hs', -, -, -⟩ := hc 0 (Nat.succ_pos m)
          rw [chainStat_zero, hstat] at hs'; cases hs'
      · rintro n e' ⟨hc, hs⟩
        cases n with
        | zero =>
          rw [chainStat_zero, hstat] at hs
          injection hs with hs; rw [hs]
        | succ m =>
          obtain ⟨s', hs', -, -, -⟩ := hc 0 (Nat.succ_pos m)
          rw [chainStat_zero, hstat] at hs'; cases hs'
      · rintro n e' ⟨hc, s, hs, -, -, -⟩
        cases n with
        | zero => rw [chainStat_zero, hstat] at hs; cases hs
        | succ m =>
          obtain ⟨s', hs', -, -, -⟩ := hc 0 (Nat.succ_pos m)
          rw [chainStat_zero, hstat] at hs'; cases hs'
    | ok s =>
      rw [_check_beneath] at h
      simp only [sys_fstat, hstat] at h
      by_cases hroot : samestat s root = true
      · rw [if_pos hroot] at h
        obtain ⟨rfl, rfl⟩ := some_pair_eq h
        refine ⟨?_, ?_, ?_, ?_⟩
        · exact iff_of_true rfl
            ⟨0, fun k hk => absurd hk (Nat.not_lt_zero k),
             s, by rw [chainStat_zero, hstat], hroot⟩
        · rintro n ⟨hc, s', p, hs', hr', -, -⟩
          cases n with
          | zero =>
            rw [chainStat_zero, hstat] at hs'
            injection hs' with hs'; subst hs'
            rw [hroot] at hr'; cases hr'
          | succ m =>
            obtain ⟨s'', hs'', hr'', -, -⟩ := hc 0 (Nat.succ_pos m)
            rw [chainStat_zero, hstat] at hs''
            injection hs'' with hs''; subst hs''
            rw [hroot] at hr''; cases hr''
        · rintro n e' ⟨hc, hs'⟩
          cases n with
          | zero => rw [chainStat_zero, hstat] at hs'; cases hs'
          | succ m =>
            obtain ⟨s'', hs'', hr'', -, -⟩ := hc 0 (Nat.succ_pos m)
            rw [chainStat_zero, hstat] at hs''
            injection hs'' with hs''; subst hs''
            rw [hroot] at hr''; cases hr''
        · rintro n e' ⟨hc, s', hs', hr', -, -⟩
          cases n with
          | zero =>
            rw [chainStat_zero, hstat] at hs'
            injection hs' with hs'; subst hs'
            rw [hroot] at hr'; cases hr'
          | succ m =>
            obtain ⟨s'', hs'', hr'', -, -⟩ := hc 0 (Nat.succ_pos m)
            rw [chainStat_zero, hstat] at hs''
            injection hs'' with hs''; subst hs''
            rw [hroot] at hr''; cases hr''
      · rw [if_neg hroot] at h
        rw [Bool.not_eq_true] at hroot
        by_cases hprev : prevMatches prev s = true
        · rw [if_pos hprev] at h
          obtain ⟨rfl, rfl⟩ := some_pair_eq h
          refine ⟨?_, fun _ _ => rfl, ?_, ?_⟩
          · constructor
            · intro hc; cases hc
            · rintro ⟨n, hc, s', hs', hr'⟩
              cases n with
              | zero =>
                rw [chainStat_zero, hstat] at hs'
                injection hs' with hs'; subst hs'
                rw [hroot] at hr'; cases hr'
              | succ m =>
                obtain ⟨s'', hs'', -, hp'', -⟩ := hc 0 (Nat.succ_pos m)
                rw [chainStat_zero, hstat] at hs''
                injection hs'' with hs''; subst hs''
                rw [prevAt_zero, hprev] at hp''; cases hp''
          · rintro n e' ⟨hc, hs'⟩
            cases n with
            | zero => rw [chainStat_zero, hstat] at hs'; cases hs'
            | succ m =>
              obtain ⟨s'', hs'', -, hp'', -⟩ := hc 0 (Nat.succ_pos m)
              rw [chainStat_zero, hstat] at hs''
              injection hs'' with hs''; subst hs''
              rw [prevAt_zero, hprev] at hp''; cases hp''
          · rintro n e' ⟨hc, s', hs', -, hp', -⟩
            cases n with
            | zero =>
              rw [chainStat_zero, hstat] at hs'
              injection hs' with hs'; subst hs'
              rw [prevAt_zero, hprev] at hp'; cases hp'
            | succ m =>
              obtain ⟨s'', hs'', -, hp'', -⟩ := hc 0 (Nat.succ_pos m)
              rw [chainStat_zero, hstat] at hs''
              injection hs'' with hs''; subst hs''
              rw [prevAt_zero, hprev] at hp''; cases hp''
        · rw [if_neg hprev] at h
          rw [Bool.not_eq_true] at hprev
          cases hopen : or.openRes (st.time + 1) with
          | error e =>
            simp only [sys_open, hopen] at h
            obtain ⟨rfl, rfl⟩ := some_pair_eq h
            refine ⟨?_, ?_, ?_, ?_⟩
            · constructor
              · intro hc; cases hc
              · rintro ⟨n, hc, s', hs', hr'⟩
                cases n with
                | zero =>
                  rw [chainStat_zero, hstat] at hs'
                  injection hs' with hs'; subst hs'
                  rw [hroot] at hr'; cases hr'
                | succ m =>
                  obtain ⟨s'', hs'', -, -, ho''⟩ := hc 0 (Nat.succ_pos m)
                  rw [chainOpen_zero, hopen] at ho''; cases ho''
            · rintro n ⟨hc, s', p, hs', -, hp', hsp'⟩
              cases n with
              | zero =>
                rw [chainStat_zero, hstat] at hs'
                injection hs' with hs'; subst hs'
                rw [prevAt_zero] at hp'
                rw [hp', prevMatches_some] at hprev
                rw [hprev] at hsp'; cases hsp'
              | succ m =>
                obtain ⟨s'', hs'', -, -, ho''⟩ := hc 0 (Nat.succ_pos m)
                rw [chainOpen_zero, hopen] at ho''; cases ho''
            · rintro n e' ⟨hc, hs'⟩
              cases n with
              | zero => rw [chainStat_zero, hstat] at hs'; cases hs'
              | succ m =>
                obtain ⟨s'', hs'', -, -, ho''⟩ := hc 0 (Nat.succ_pos m)
                rw [chainOpen_zero, hopen] at ho''; cases ho''
            · rintro n e' ⟨hc, s', hs', -, -, ho'⟩
              cases n with
              | zero =>
                rw [chainOpen_zero, hopen] at ho'
                injection ho' with ho'; rw [ho']
              | succ m =>
                obtain ⟨s'', hs'', -, -, ho''⟩ := hc 0 (Nat.succ_pos m)
                rw [chainOpen_zero, hopen] at ho''; cases ho''
          | ok u =>
            cases u
            simp only [sys_open, hopen] at h
            have hres := ih st.nextFd (some s) _ res st' h
            rw [time_if_close] at hres
            have e2 : st.time + 1 + 1 = st.time + 2 := rfl
            simp only [e2] at hres
            obtain ⟨h1, h2, h3, h4⟩ := hres
            have hnone : ¬ ContainedAt or root prev st.time 0 := by
              rintro ⟨-, s', hs', hr'⟩
              rw [chainStat_zero, hstat] at hs'
              injection hs' with hs'; subst hs'
              rw [hroot] at hr'; cases hr'
            refine ⟨?_, ?_, ?_, ?_⟩
            · rw [h1]
              constructor
              · rintro ⟨n, hn⟩
                refine ⟨n + 1,
                  (ChainCont_shift or root prev st.time s hstat hroot hprev hopen n).mp hn.1, ?_⟩
                obtain ⟨s', hs', hr'⟩ := hn.2
                exact ⟨s', by rw [← chainStat_shift]; exact hs', hr'⟩
              · rintro ⟨n, hn⟩
                cases n with
                | zero => exact absurd hn hnone
                | succ m =>
                  refine ⟨m,
                    (ChainCont_shift or root prev st.time s hstat hroot hprev hopen m).mpr hn.1, ?_⟩
                  obtain ⟨s', hs', hr'⟩ := hn.2
                  exact ⟨s', by rw [chainStat_shift]; exact hs', hr'⟩
            · rintro n ⟨hc, s', p, hs', hr', hp', hsp'⟩
              cases n with
              | zero =>
                rw [chainStat_zero, hstat] at hs'
                injection hs' with hs'; subst hs'
                rw [prevAt_zero] at hp'
                rw [hp', prevMatches_some] at hprev
                rw [hprev] at hsp'; cases hsp'
              | succ m =>
                refine h2 m ⟨?_, s', p, ?_, hr', ?_, hsp'⟩
                · exact (ChainCont_shift or root prev st.time s hstat hroot hprev hopen m).mpr hc
                · rw [chainStat_shift]; exact hs'
                · rw [prevAt_shift or st.time prev s hstat]; exact hp'
            · rintro n e' ⟨hc, hs'⟩
              cases n with
              | zero => rw [chainStat_zero, hstat] at hs'; cases hs'
              | succ m =>
                refine h3 m e' ⟨?_, ?_⟩
                · exact (ChainCont_shift or root prev st.time s hstat hroot hprev hopen m).mpr hc
                · rw [chainStat_shift]; exact hs'
            · rintro n e' ⟨hc, s', hs', hr', hp', ho'⟩
              cases n with
              | zero =>
                rw [chainOpen_zero, hopen] at ho'; cases ho'
              | succ m =>
                refine h4 m e' ⟨?_, s', ?_, hr', ?_, ?_⟩
                · exact (ChainCont_shift or root prev st.time s hstat hroot hprev hopen m).mpr hc
                · rw [chainStat_shift]; exact hs'
                · rw [prevAt_shift or st.time prev s hstat]; exact hp'
                · rw [chainOpen_shift]; exact ho'

/-- a two-level filesystem for exercising the verifier: the cursor's identity
differs from the root, its parent is the root. -/
def cbRoot : FileStat := ⟨1, 1, true, false⟩

def cbMid : FileStat := ⟨2, 2, true, false⟩

def cbOr : Oracle :=
  { openRes := fun _ => .ok (),
    statRes := fun t => if t = 0 then .ok cbMid else .ok cbRoot,
    readlinkRes := fun _ => .error .EINVAL,
    auditRes := fun _ => .ok () }

def cbSt : WalkSt := ⟨0, 10, [], false, []⟩

/-- C2 witness: the characterization applied to a concrete verifier run that
walks one level up and finds the root. -/
theorem check_beneath_spec_witness :
    ((Except.ok () : Except Errno Unit) = .ok () ↔
      ∃ n, ContainedAt cbOr cbRoot none cbSt.time n) ∧
    (∀ n, EscapedAt cbOr cbRoot none cbSt.time n →
      (Except.ok () : Except Errno Unit) = .error .EXDEV) ∧
    (∀ n e, FailStatAt cbOr cbRoot none cbSt.time n e →
      (Except.ok () : Except Errno Unit) = .error e) ∧
    (∀ n e, FailOpenAt cbOr cbRoot none cbSt.time n e →
      (Except.ok () : Except Errno Unit) = .error e) :=
  check_beneath_spec cbOr 5 7 7 cbRoot none cbSt (.ok ()) ⟨3, 11, [], false, []⟩ rfl

theorem handle_open_failure_race (or : Oracle) (audit : Bool) (ex : Errno)
    (flags found msym : Nat) (st : WalkSt)
    (hex : ex ∈ [Errno.ELOOP, Errno.ENOTDIR, Errno.EMLINK, Errno.EFTYPE])
    (hrl : or.readlinkRes st.time = .error .EINVAL) :
    (handle_open_failure or audit ex flags found msym st).1 =
      .error (if ex = .ENOTDIR then .ENOTDIR else .EAGAIN) := by
  rw [handle_open_failure, if_neg (by simp_all)]
  simp only [sys_readlink, hrl]
  by_cases hnd : ex = .ENOTDIR <;> simp [hnd]

/-- C6: when a component's open fails with one of the no-follow-on-symlink
errno variants (`ELOOP`, `ENOTDIR`, `EMLINK`, `EFTYPE`) but the subsequent
readlink of the same component fails with `EINVAL` (not a symlink), the
resolver re-raises the original error if it was `ENOTDIR` and otherwise
treats the contradiction as a race and fails with `EAGAIN`. -/
theorem after_open_failure_race (c : Ctx) (ex : Errno) (flags : Nat)
    (rest : List (String × Nat)) (cur2 : Nat) (parent_fds : List Nat)
    (found : Nat) (saw : Bool) (st : WalkSt)
    (hex : ex ∈ [Errno.ELOOP, Errno.ENOTDIR, Errno.EMLINK, Errno.EFTYPE])
    (hrl : c.or.readlinkRes st.time = .error .EINVAL) :
    (after_open_failure c ex flags rest cur2 parent_fds found saw st).1.res =
      .error (if ex = .ENOTDIR then .ENOTDIR else .EAGAIN) := by
  rw [after_open_failure]
  have hh := handle_open_failure_race c.or c.audit ex flags found
    (max_symlinks c.no_symlinks) st hex hrl
  rcases hr : handle_open_failure c.or c.audit ex flags found
      (max_symlinks c.no_symlinks) st with ⟨r, st2⟩
  rw [hr] at hh
  simp only at hh
  subst hh
  simp [hr]

theorem open_component_race (c : Ctx) (part : String) (flags : Nat)
    (rest : List (String × Nat)) (cur_fd : Nat) (parent_fds : List Nat)
    (found : Nat) (saw : Bool) (st : WalkSt) (e : Errno)
    (hopen : c.or.openRes st.time = .error e)
    (hex : e ∈ [Errno.ELOOP, Errno.ENOTDIR, Errno.EMLINK, Errno.EFTYPE])
    (hrl : c.or.readlinkRes (st.time + 1) = .error .EINVAL) :
    (open_component c part flags rest cur_fd parent_fds found saw st).1.res =
      .error (if e = .ENOTDIR then .ENOTDIR else .EAGAIN) := by
  rw [open_component]
  simp only [sys_open, logEv, hopen]
  exact after_open_failure_race c e flags rest cur_fd parent_fds found saw _
    hex hrl

def c6Or : Oracle :=
  { openRes := fun _ => .error .ELOOP,
    statRes := fun _ => .ok cbRoot,
    readlinkRes := fun _ => .error .EINVAL,
    auditRes := fun _ => .ok () }

def c6Ctx : Ctx := ⟨c6Or, 5, cbRoot, 0, false, false, false⟩

def c6St : WalkSt := ⟨0, 10, [], false, []⟩

/-- C6 witness: a concrete component open that fails with `ELOOP` while the
readlink probe reports `EINVAL` resolves to `EAGAIN`. -/
theorem open_component_race_witness :
    (open_component c6Ctx "x" 0 [] 5 [] 0 false c6St).1.res =
      .error (if Errno.ELOOP = .ENOTDIR then .ENOTDIR else .EAGAIN) :=
  open_component_race c6Ctx "x" 0 [] 5 [] 0 false c6St .ELOOP rfl (by decide) rfl

/-- C9 counterexample: with the direct Linux facility yielding the path of a
deleted file (readlink returns `"/x (deleted)"`), `try_recover_fd_path`
declines (returns `None`); in particular it does not return the stripped
pre-deletion path `"/x"`. -/
theorem try_recover_fd_path_deleted_cex :
    try_recover_fd_path (.ok "/x (deleted)") = none ∧
    try_recover_fd_path (.ok "/x (deleted)") ≠ some "/x" := by
  refine ⟨by decide, ?_⟩
  intro h
  rw [show try_recover_fd_path (.ok "/x (deleted)") = none from by decide] at h
  cases h

/-- C9 (amended): the Linux facility returns exactly the readlink results
that are absolute and do not end in `" (deleted)"`, unchanged; a deleted or
relative result makes it decline (return `None`, so the generic fallback
runs), rather than being stripped. -/
theorem try_recover_fd_path_spec (r : Except Errno String) (p : String) :
    try_recover_fd_path r = some p ↔
      r = .ok p ∧ starts_with_slash p = true ∧
        " (deleted)".data.isSuffixOf p.data = false := by
  cases r with
  | error e => simp [try_recover_fd_path]
  | ok q =>
    rw [try_recover_fd_path]
    constructor
    · intro h
      split at h
      · injection h with h
        subst h
        rename_i hcond
        rw [Bool.and_eq_true, Bool.not_eq_true'] at hcond
        exact ⟨rfl, hcond.1, hcond.2⟩
      · cases h
    · rintro ⟨he, h1, h2⟩
      injection he with he
      subst he
      rw [if_pos (by rw [h1, h2]; rfl)]

/-- C9 witness: the amended characterization applied to a live absolute path
and read off in the forward direction. -/
theorem try_recover_fd_path_spec_witness :
    try_recover_fd_path (.ok "/etc/passwd") = some "/etc/passwd" :=
  (try_recover_fd_path_spec (.ok "/etc/passwd") "/etc/passwd").mpr
    ⟨rfl, by decide, by decide⟩

/-- C8: `recover_fd_path` rejects every negative descriptor with `EBADF`
before consulting any platform facility (the first conjunct holds for every
`RecFS`, including ones whose facility would return a path), and fails with
`ENOTSUP` when no platform facility produces a path and the descriptor's stat
is not a directory (a pipe or socket). -/
theorem recover_fd_path_guards :
    (∀ (fs : RecFS) (fuel : Nat) (fd : Int), fd < 0 →
      recover_fd_path fs fuel fd = some (.error .EBADF)) ∧
    (∀ (fs : RecFS) (fuel : Nat) (fd : Int) (s : FileStat), ¬ fd < 0 →
      (if fs.platPresent then fs.plat fd else none) = none →
      fs.fstatFd fd = .ok s → s.isDir = false →
      recover_fd_path fs fuel fd = some (.error .ENOTSUP)) := by
  constructor
  · intro fs fuel fd hfd
    rw [recover_fd_path, if_pos hfd]
  · intro fs fuel fd s hfd hplat hstat hdir
    rw [recover_fd_path, if_neg hfd]
    rw [hplat, hstat]
    simp [hdir]

def c8Pipe : FileStat := ⟨3, 9, false, false⟩

/-- a platform whose direct facility would answer, to exhibit that the
negative-descriptor check wins. -/
def c8FSa : RecFS :=
  ⟨true, fun _ => some "/answer", fun _ => .ok cbRoot, fun _ => .ok cbRoot,
   fun _ => [], .ok cbRoot⟩

/-- a platform with no facility answer and a pipe behind the descriptor. -/
def c8FSb : RecFS :=
  ⟨true, fun _ => none, fun _ => .ok c8Pipe, fun _ => .ok cbRoot,
   fun _ => [], .ok cbRoot⟩

/-- C8 witness: both guards exercised on concrete inputs. -/
theorem recover_fd_path_guards_witness :
    recover_fd_path c8FSa 3 (-1) = some (.error .EBADF) ∧
    recover_fd_path c8FSb 3 4 = some (.error .ENOTSUP) :=
  ⟨recover_fd_path_guards.1 c8FSa 3 (-1) (by decide),
   recover_fd_path_guards.2 c8FSb 3 4 c8Pipe (by decide) rfl rfl rfl⟩

/-! ### Temporal properties of the walk log -/

/-- escape-pending tracking as the claim states it: only a verifier
confirmation clears a pending `..`-open. -/
def pendingStepStrict (p : Bool) (e : Event) : Bool :=
  match e with
  | .dotdotOpened => true
  | .checkOk => false
  | _ => p

/-- escape-pending tracking as the code behaves: a verifier confirmation or a
root-identity reset clears a pending `..`-open. -/
def pendingStep (p : Bool) (e : Event) : Bool :=
  match e with
  | .dotdotOpened => true
  | .checkOk => false
  | .rootReset => false
  | _ => p

def pendingAfter (l : List Event) (p : Bool) : Bool :=
  l.foldl pendingStep p

def pendingAfterStrict (l : List Event) (p : Bool) : Bool :=
  l.foldl pendingStepStrict p

/-- no ordinary-component access happens while a `..`-open is pending. -/
def noAccessPending : List Event → Bool → Bool
  | [], _ => true
  | e :: l, p =>
    (match e with
     | .nameAccess _ => !p
     | _ => true) && noAccessPending l (pendingStep p e)

/-- the same property with the strict (claim-as-stated) pending tracking. -/
def noAccessPendingStrict : List Event → Bool → Bool
  | [], _ => true
  | e :: l, p =>
    (match e with
     | .nameAccess _ => !p
     | _ => true) && noAccessPendingStrict l (pendingStepStrict p e)

def isFound : Event → Bool
  | .symlinkFound _ => true
  | _ => false

def isExpand : Event → Bool
  | .symlinkExpand _ => true
  | _ => false

def isCheckOk : Event → Bool
  | .checkOk => true
  | _ => false

def countEv (f : Event → Bool) (l : List Event) : Nat :=
  (l.filter f).length

/-- the sanity property of dequeued items: either the directory-open flag set
or the queue is now empty. -/
def deqOk : Event → Bool
  | .deq flags isLast => (flags == DIR_OPEN_FLAGS) || isLast
  | _ => true

theorem pendingAfter_append (l1 l2 : List Event) (p : Bool) :
    pendingAfter (l1 ++ l2) p = pendingAfter l2 (pendingAfter l1 p) :=
  List.foldl_append _ _ _ _

theorem pendingAfter_nil (p : Bool) : pendingAfter [] p = p := rfl

theorem pendingAfter_cons (e : Event) (l : List Event) (p : Bool) :
    pendingAfter (e :: l) p = pendingAfter l (pendingStep p e) := rfl

theorem noAccessPending_append (l1 l2 : List Event) (p : Bool) :
    noAccessPending (l1 ++ l2) p =
      (noAccessPending l1 p && noAccessPending l2 (pendingAfter l1 p)) := by
  induction l1 generalizing p with
  | nil => rfl
  | cons e l ih =>
    simp only [List.cons_append, noAccessPending, pendingAfter_cons,
      List.append_eq]
    rw [ih, Bool.and_assoc]

theorem countEv_append (f : Event → Bool) (l1 l2 : List Event) :
    countEv f (l1 ++ l2) = countEv f l1 + countEv f l2 := by
  simp [countEv, List.filter_append]

theorem all_append (f : Event → Bool) (l1 l2 : List Event) :
    (l1 ++ l2).all f = (l1.all f && l2.all f) := List.all_append

/-! ### Descriptor-ledger bookkeeping -/

theorem sys_close_spec (fd : Nat) (st : WalkSt) (h : fd ∈ st.openFds) :
    sys_close fd st = { st with openFds := st.openFds.erase fd } := by
  rw [sys_close, if_pos h]

theorem sys_close_count (fd : Nat) (st : WalkSt) (h : fd ∈ st.openFds) (b : Nat) :
    (sys_close fd st).openFds.count b =
      st.openFds.count b - (if b = fd then 1 else 0) := by
  rw [sys_close_spec fd st h]
  simp only [List.count_erase]
  congr 1
  by_cases hb : b = fd
  · simp [hb]
  · have hfb : ¬ fd = b := fun he => hb he.symm
    simp [hb, hfb]

theorem mem_of_count_pos {l : List Nat} {a : Nat} (h : 0 < l.count a) : a ∈ l :=
  List.count_pos_iff.mp h

theorem count_pos_of_mem {l : List Nat} {a : Nat} (h : a ∈ l) : 0 < l.count a :=
  List.count_pos_iff.mpr h

/-- effect of closing a whole (duplicate-free, all-open) list of
descriptors. -/
theorem closeAll_spec (l : List Nat) (st : WalkSt) (hnd : l.Nodup)
    (hmem : ∀ fd ∈ l, fd ∈ st.openFds) :
    (∀ b, (closeAll l st).openFds.count b =
      st.openFds.count b - (if b ∈ l then 1 else 0)) ∧
    (closeAll l st).badClose = st.badClose ∧
    (closeAll l st).time = st.time ∧
    (closeAll l st).nextFd = st.nextFd ∧
    (closeAll l st).log = st.log := by
  induction l generalizing st with
  | nil => simp [closeAll]
  | cons fd rest ih =>
    have hfd : fd ∈ st.openFds := hmem fd (by simp)
    have hnd' : rest.Nodup := (List.nodup_cons.mp hnd).2
    have hfdrest : fd ∉ rest := (List.nodup_cons.mp hnd).1
    have hmem' : ∀ g ∈ rest, g ∈ (sys_close fd st).openFds := by
      intro g hg
      have hg1 : 0 < st.openFds.count g := count_pos_of_mem (hmem g (by simp [hg]))
      have hgfd : g ≠ fd := fun he => hfdrest (he ▸ hg)
      apply mem_of_count_pos
      rw [sys_close_count fd st hfd g, if_neg hgfd]
      omega
    obtain ⟨hc, hb, ht, hn, hl⟩ := ih (sys_close fd st) hnd' hmem'
    rw [closeAll]
    refine ⟨?_, ?_, ?_, ?_, ?_⟩
    · intro b
      rw [hc b, sys_close_count fd st hfd b]
      by_cases h1 : b = fd
      · subst h1
        simp [hfdrest]
      · by_cases h2 : b ∈ rest <;> simp [h1, h2]
    · rw [hb, sys_close_spec fd st hfd]
    · rw [ht, sys_close_spec fd st hfd]
    · rw [hn, sys_close_spec fd st hfd]
    · rw [hl, sys_close_spec fd st hfd]

/-- The ownership/ledger invariant the walker's loop maintains: the open
descriptors are exactly a frozen base multiset plus the parent stack plus the
cursor when it is not the root descriptor; everything walker-owned is fresh
(at least `initNext`), duplicate-free, and no close has ever gone wrong. -/
structure WalkInv (c : Ctx) (base : Nat → Nat) (initNext : Nat)
    (cur : Nat) (parents : List Nat) (st : WalkSt) : Prop where
  counts : ∀ fd, st.openFds.count fd =
    base fd + (if fd ∈ parents then 1 else 0) +
    (if cur ≠ c.dir_fd ∧ fd = cur then 1 else 0)
  nodup : parents.Nodup
  cur_notin : cur ∉ parents
  dir_notin : c.dir_fd ∉ parents
  parents_ge : ∀ fd ∈ parents, initNext ≤ fd
  cur_ge : cur ≠ c.dir_fd → initNext ≤ cur
  base_lt : ∀ fd, base fd ≠ 0 → fd < initNext
  dir_lt : c.dir_fd < initNext
  next_ge : initNext ≤ st.nextFd
  wf : ∀ fd ∈ st.openFds, fd < st.nextFd
  bc : st.badClose = false

/-- `_check_beneath` is descriptor-neutral: it closes exactly what it opened
(plus the incoming cursor when that differs from the caller's descriptor),
never mis-closes, and logs nothing. -/
theorem check_beneath_state (or : Oracle) (fuel : Nat) (cur orig : Nat)
    (root : FileStat) (prev : Option FileStat) (st : WalkSt)
    (res : Except Errno Unit) (st' : WalkSt)
    (h : _check_beneath or fuel cur orig root prev st = some (res, st'))
    (hwf : ∀ fd ∈ st.openFds, fd < st.nextFd)
    (horig : orig < st.nextFd)
    (hcur : cur = orig ∨ cur ∈ st.openFds) :
    (if cur = orig then st'.openFds = st.openFds
     else st'.openFds = st.openFds.erase cur) ∧
    st'.badClose = st.badClose ∧ st'.log = st.log ∧
    st.nextFd ≤ st'.nextFd ∧ (∀ fd ∈ st'.openFds, fd < st'.nextFd) := by
  induction fuel generalizing cur prev st res st' with
  | zero => simp [_check_beneath] at h
  | succ fuel ih =>
    have hterm : ∀ st2 : WalkSt, st2.openFds = st.openFds →
        st2.badClose = st.badClose → st2.log = st.log →
        st2.nextFd = st.nextFd → st' = finClose cur orig st2 →
        (if cur = orig then st'.openFds = st.openFds
         else st'.openFds = st.openFds.erase cur) ∧
        st'.badClose = st.badClose ∧ st'.log = st.log ∧
        st.nextFd ≤ st'.nextFd ∧ (∀ fd ∈ st'.openFds, fd < st'.nextFd) := by
      intro st2 ho hb hl hn hst
      subst hst
      by_cases hco : cur = orig
      · have heq : finClose cur orig st2 = st2 := by
          rw [finClose, if_neg (by omega)]
        rw [heq, if_pos hco]
        refine ⟨ho, hb, hl, le_of_eq hn.symm, ?_⟩
        intro fd hfd
        rw [hn]
        exact hwf fd (ho ▸ hfd)
      · have hmem : cur ∈ st2.openFds := by
          rw [ho]; exact hcur.resolve_left hco
        have heq : finClose cur orig st2 =
            { st2 with openFds := st2.openFds.erase cur } := by
          rw [finClose, if_pos hco, sys_close_spec cur st2 hmem]
        rw [heq, if_neg hco]
        refine ⟨by rw [show ({ st2 with openFds := st2.openFds.erase cur } :
            WalkSt).openFds = st2.openFds.erase cur from rfl, ho], hb, hl,
          le_of_eq hn.symm, ?_⟩
        intro fd hfd
        rw [hn]
        exact hwf fd (ho ▸ List.mem_of_mem_erase hfd)
    rw [_check_beneath] at h
    cases hstat : or.statRes st.time with
    | error e =>
      simp only [sys_fstat, hstat] at h
      obtain ⟨rfl, hst⟩ := some_pair_eq h
      exact hterm { st with time := st.time + 1 } rfl rfl rfl rfl hst.symm
    | ok s =>
      simp only [sys_fstat, hstat] at h
      by_cases hroot : samestat s root = true
      · rw [if_pos hroot] at h
        obtain ⟨rfl, hst⟩ := some_pair_eq h
        exact hterm { st with time := st.time + 1 } rfl rfl rfl rfl hst.symm
      · rw [if_neg hroot] at h
        by_cases hprev : prevMatches prev s = true
        · rw [if_pos hprev] at h
          obtain ⟨rfl, hst⟩ := some_pair_eq h
          exact hterm { st with time := st.time + 1 } rfl rfl rfl rfl hst.symm
        · rw [if_neg hprev] at h
          cases hopen : or.openRes (st.time + 1) with
          | error e =>
            simp only [sys_open, hopen] at h
            obtain ⟨rfl, hst⟩ := some_pair_eq h
            exact hterm { st with time := st.time + 1 + 1 } rfl rfl rfl rfl hst.symm
          | ok u =>
            cases u
            simp only [sys_open, hopen] at h
            set stM : WalkSt :=
              { st with time := st.time + 1 + 1, nextFd := st.nextFd + 1,
                        openFds := st.nextFd :: st.openFds } with hstM
            have hcurlt : cur < st.nextFd := by
              rcases hcur with hc | hc
              · omega
              · exact hwf cur hc
            have hclose : (if cur ≠ orig then sys_close cur stM else stM).openFds =
                (if cur = orig then st.nextFd :: st.openFds
                 else st.nextFd :: st.openFds.erase cur) := by
              by_cases hco : cur = orig
              · rw [if_neg (by omega), if_pos hco]
              · rw [if_pos hco, if_neg hco]
                have hmem : cur ∈ stM.openFds := by
                  rcases hcur with hc | hc
                  · exact absurd hc hco
                  · exact List.mem_cons_of_mem _ hc
                rw [sys_close_spec cur stM hmem]
                show (st.nextFd :: st.openFds).erase cur = _
                rw [List.erase_cons_tail]
                simp only [beq_iff_eq]
                omega
            have hbc : (if cur ≠ orig then sys_close cur stM else stM).badClose =
                st.badClose := by
              by_cases hco : cur = orig
              · rw [if_neg (by omega)]
              · rw [if_pos hco]
                have hmem : cur ∈ stM.openFds := by
                  rcases hcur with hc | hc
                  · exact absurd hc hco
                  · exact List.mem_cons_of_mem _ hc
                rw [sys_close_spec cur stM hmem]
            have hlg : (if cur ≠ orig then sys_close cur stM else stM).log = st.log := by
              by_cases hco : cur = orig
              · rw [if_neg (by omega)]
              · rw [if_pos hco]
                have hmem : cur ∈ stM.openFds := by
                  rcases hcur with hc | hc
                  · exact absurd hc hco
                  · exact List.mem_cons_of_mem _ hc
                rw [sys_close_spec cur stM hmem]
            have hnf : (if cur ≠ orig then sys_close cur stM else stM).nextFd =
                st.nextFd + 1 := by
              by_cases hco : cur = orig
              · rw [if_neg (by omega)]
              · rw [if_pos hco]
                have hmem : cur ∈ stM.openFds := by
                  rcases hcur with hc | hc
                  · exact absurd hc hco
                  · exact List.mem_cons_of_mem _ hc
                rw [sys_close_spec cur stM hmem]
            have hwf2 : ∀ fd ∈ (if cur ≠ orig then sys_close cur stM else stM).openFds,
                fd < (if cur ≠ orig then sys_close cur stM else stM).nextFd := by
              rw [hclose, hnf]
              intro fd hfd
              by_cases hco : cur = orig
              · rw [if_pos hco] at hfd
                rcases List.mem_cons.mp hfd with rfl | hfd
                · omega
                · have := hwf fd hfd; omega
              · rw [if_neg hco] at hfd
                rcases List.mem_cons.mp hfd with rfl | hfd
                · omega
                · have := hwf fd (List.mem_of_mem_erase hfd); omega
            obtain ⟨h1, h2, h3, h4, h5⟩ := ih st.nextFd (some s) _ res st' h hwf2
              (by rw [hnf]; omega)
              (Or.inr (by rw [hclose]; split <;> exact List.mem_cons_self _ _))
            rw [if_neg (show ¬ st.nextFd = orig by omega)] at h1
            rw [hclose] at h1
            refine ⟨?_, by rw [h2, hbc], by rw [h3, hlg], by omega, h5⟩
            by_cases hco : cur = orig
            · rw [if_pos hco]
              rw [if_pos hco] at h1
              rw [h1, List.erase_cons_head]
            · rw [if_neg hco]
              rw [if_neg hco] at h1
              rw [h1, List.erase_cons_head]

/-- events the symlink handler may log are counting events only. -/
def neutralEv (e : Event) : Bool := isFound e || isExpand e

theorem pendingAfter_neutral (l : List Event) (h : l.all neutralEv = true)
    (p : Bool) : pendingAfter l p = p := by
  induction l generalizing p with
  | nil => rfl
  | cons e l ih =>
    rw [List.all_cons, Bool.and_eq_true] at h
    obtain ⟨h1, h2⟩ := h
    have hstep : pendingStep p e = p := by
      cases e <;> first | rfl | simp [neutralEv, isFound, isExpand] at h1
    rw [pendingAfter_cons, hstep]
    exact ih h2 _

theorem noAccessPending_neutral (l : List Event) (h : l.all neutralEv = true)
    (p : Bool) : noAccessPending l p = true := by
  induction l generalizing p with
  | nil => rfl
  | cons e l ih =>
    rw [List.all_cons, Bool.and_eq_true] at h
    obtain ⟨h1, h2⟩ := h
    rw [noAccessPending]
    · rw [Bool.true_and]
      exact ih h2 _
    · intro name he
      subst he
      simp [neutralEv, isFound, isExpand] at h1

theorem all_deqOk_neutral (l : List Event) (h : l.all neutralEv = true) :
    l.all deqOk = true := by
  induction l with
  | nil => rfl
  | cons e l ih =>
    rw [List.all_cons, Bool.and_eq_true] at h
    obtain ⟨h1, h2⟩ := h
    have hhead : deqOk e = true := by
      cases e <;> first | rfl | simp [neutralEv, isFound, isExpand] at h1
    rw [List.all_cons, hhead, Bool.true_and]
    exact ih h2


theorem handle_symlink_cont_spec (flags found msym : Nat) (target : String)
    (stB : WalkSt) :
    (handle_symlink_cont flags found msym target stB).2.openFds = stB.openFds ∧
    (handle_symlink_cont flags found msym target stB).2.badClose = stB.badClose ∧
    (handle_symlink_cont flags found msym target stB).2.nextFd = stB.nextFd ∧
    (handle_symlink_cont flags found msym target stB).2.time = stB.time ∧
    ∃ Δ, (handle_symlink_cont flags found msym target stB).2.log = stB.log ++ Δ ∧
      Δ.all neutralEv = true ∧ countEv isFound Δ = 0 ∧
      (∀ items found',
        (handle_symlink_cont flags found msym target stB).1 = .ok (items, found') →
        found' = found + 1 ∧ found + 1 ≤ msym ∧ countEv isExpand Δ = 1 ∧
        flags &&& O_NOFOLLOW = 0 ∧
        split_path target flags = .ok items) ∧
      (∀ e, (handle_symlink_cont flags found msym target stB).1 = .error e →
        countEv isExpand Δ = 0) ∧
      (found = msym →
        (handle_symlink_cont flags found msym target stB).1 = .error .ELOOP) := by
  rw [handle_symlink_cont]
  by_cases hloop : flags &&& O_NOFOLLOW ≠ 0 ∨ found + 1 > msym
  · rw [if_pos hloop]
    refine ⟨rfl, rfl, rfl, rfl, [], by simp, by simp, by simp [countEv],
      ?_, ?_, ?_⟩
    · intro items found' h
      cases h
    · intro e h
      simp [countEv]
    · intro hfm
      rfl
  · rw [if_neg hloop]
    rw [not_or] at hloop
    obtain ⟨hnf, hbud⟩ := hloop
    simp only [gt_iff_lt, Nat.not_lt] at hbud
    cases hsp : split_path target flags with
    | error e =>
      refine ⟨by simp, by simp, by simp, by simp, [], by simp, by simp,
        by simp [countEv], ?_, ?_, ?_⟩
      · intro items found' h
        cases h
      · intro e h
        simp [countEv]
      · intro hfm
        exfalso
        omega
    | ok items =>
      refine ⟨by simp [logEv], by simp [logEv], by simp [logEv], by simp [logEv],
        [Event.symlinkExpand target], by simp [logEv],
        by simp [neutralEv, isFound, isExpand],
        by simp [countEv, isFound], ?_, ?_, ?_⟩
      · intro items' found' h
        injection h with h
        have h1 : items = items' := congrArg Prod.fst h
        have h2 : found + 1 = found' := congrArg Prod.snd h
        refine ⟨h2.symm, by omega, by simp [countEv, isExpand], ?_, ?_⟩
        · by_cases hz : flags &&& O_NOFOLLOW = 0
          · exact hz
          · exact absurd (by omega : flags &&& O_NOFOLLOW ≠ 0) hnf
        · exact congrArg Except.ok h1
      · intro e h
        cases h
      · intro hfm
        exfalso
        omega

theorem countEv_cons (f : Event → Bool) (e : Event) (l : List Event) :
    countEv f (e :: l) = (if f e then 1 else 0) + countEv f l := by
  simp only [countEv, List.filter_cons]
  split <;> simp [Nat.add_comm]

theorem handle_open_failure_spec (or : Oracle) (audit : Bool) (ex : Errno)
    (flags found msym : Nat) (st : WalkSt) :
    (handle_open_failure or audit ex flags found msym st).2.openFds = st.openFds ∧
    (handle_open_failure or audit ex flags found msym st).2.badClose = st.badClose ∧
    (handle_open_failure or audit ex flags found msym st).2.nextFd = st.nextFd ∧
    ∃ Δ, (handle_open_failure or audit ex flags found msym st).2.log = st.log ++ Δ ∧
      Δ.all neutralEv = true ∧ countEv isFound Δ ≤ 1 ∧
      (∀ items found',
        (handle_open_failure or audit ex flags found msym st).1 = .ok (items, found') →
        found' = found + 1 ∧ found + 1 ≤ msym ∧ countEv isFound Δ = 1 ∧
        countEv isExpand Δ = 1 ∧ flags &&& O_NOFOLLOW = 0 ∧
        ∃ target, split_path target flags = .ok items) ∧
      (∀ e, (handle_open_failure or audit ex flags found msym st).1 = .error e →
        countEv isExpand Δ = 0) ∧
      (audit = false → found = msym → countEv isFound Δ = 1 →
        (handle_open_failure or audit ex flags found msym st).1 = .error .ELOOP) := by
  rw [handle_open_failure]
  by_cases hin : ex ∈ [Errno.ELOOP, Errno.ENOTDIR, Errno.EMLINK, Errno.EFTYPE]
  case neg =>
    rw [if_pos hin]
    refine ⟨rfl, rfl, rfl, [], by simp, by simp, by simp [countEv], ?_, ?_, ?_⟩
    · intro items found' h
      cases h
    · intro e h
      simp [countEv]
    · intro _ _ hc
      simp [countEv] at hc
  case pos =>
    rw [if_neg (by simp [hin])]
    cases hrl : or.readlinkRes st.time with
    | error e2 =>
      simp only [sys_readlink, hrl]
      by_cases he2 : e2 = Errno.EINVAL
      · rw [if_pos he2]
        by_cases hnd : ex = Errno.ENOTDIR
        · rw [if_pos hnd]
          refine ⟨rfl, rfl, rfl, [], by simp, by simp, by simp [countEv],
            ?_, ?_, ?_⟩
          · intro items found' h
            cases h
          · intro e h
            simp [countEv]
          · intro _ _ hc
            simp [countEv] at hc
        · rw [if_neg hnd]
          refine ⟨rfl, rfl, rfl, [], by simp, by simp, by simp [countEv],
            ?_, ?_, ?_⟩
          · intro items found' h
            cases h
          · intro e h
            simp [countEv]
          · intro _ _ hc
            simp [countEv] at hc
      · rw [if_neg he2]
        refine ⟨rfl, rfl, rfl, [], by simp, by simp, by simp [countEv],
          ?_, ?_, ?_⟩
        · intro items found' h
          cases h
        · intro e h
          simp [countEv]
        · intro _ _ hc
          simp [countEv] at hc
    | ok target =>
      simp only [sys_readlink, hrl, logEv]
      by_cases ha : audit
      · rw [if_pos ha]
        simp only [sys_audit]
        cases haud : or.auditRes (st.time + 1) with
        | error e =>
          refine ⟨rfl, rfl, rfl, [Event.symlinkFound target], rfl,
            by simp [neutralEv, isFound], by simp [countEv, isFound],
            ?_, ?_, ?_⟩
          · intro items found' h
            cases h
          · intro e h
            simp [countEv, isExpand]
          · intro hano _ _
            rw [hano] at ha
            cases ha
        | ok u =>
          cases u
          obtain ⟨hA, hB, hC, hT, Δc, hlog, hall, hcf, hokf, herrf, hloopf⟩ :=
            handle_symlink_cont_spec flags found msym target
              ({ st with time := st.time + 1 + 1, log := st.log ++ [Event.symlinkFound target] })
          refine ⟨by rw [hA], by rw [hB], by rw [hC],
            Event.symlinkFound target :: Δc, ?_, ?_, ?_, ?_, ?_, ?_⟩
          · rw [hlog]
            simp
          · simp only [List.all_cons, hall, Bool.and_true]
            simp [neutralEv, isFound]
          · rw [countEv_cons]
            simp [isFound, hcf]
          · intro items found' h
            obtain ⟨hf1, hf2, hf3, hf4, hf5⟩ := hokf items found' h
            refine ⟨hf1, hf2, ?_, ?_, hf4, target, hf5⟩
            · rw [countEv_cons]
              simp [isFound, hcf]
            · rw [countEv_cons, hf3]
              simp [isExpand]
          · intro e h
            rw [countEv_cons, herrf e h]
            simp [isExpand]
          · intro hano _ _
            rw [hano] at ha
            cases ha
      · rw [if_neg ha]
        obtain ⟨hA, hB, hC, hT, Δc, hlog, hall, hcf, hokf, herrf, hloopf⟩ :=
          handle_symlink_cont_spec flags found msym target
            ({ st with time := st.time + 1, log := st.log ++ [Event.symlinkFound target] })
        refine ⟨by rw [hA], by rw [hB], by rw [hC],
          Event.symlinkFound target :: Δc, ?_, ?_, ?_, ?_, ?_, ?_⟩
        · rw [hlog]
          simp
        · simp only [List.all_cons, hall, Bool.and_true]
          simp [neutralEv, isFound]
        · rw [countEv_cons]
          simp [isFound, hcf]
        · intro items found' h
          obtain ⟨hf1, hf2, hf3, hf4, hf5⟩ := hokf items found' h
          refine ⟨hf1, hf2, ?_, ?_, hf4, target, hf5⟩
          · rw [countEv_cons]
            simp [isFound, hcf]
          · rw [countEv_cons, hf3]
            simp [isExpand]
        · intro e h
          rw [countEv_cons, herrf e h]
          simp [isExpand]
        · intro _ hfm _
          exact hloopf hfm

/-- restoring the ledger invariant after the per-iteration `finally`: if the
ledger holds the new cursor/stack plus (at most) one leftover entry for the
old cursor, the conditional close restores the exact ownership shape. -/
theorem iter_finally_inv (c : Ctx) (base : Nat → Nat) (initNext : Nat)
    (cur cur' : Nat) (parents' : List Nat) (stA : WalkSt)
    (hcounts : ∀ fd, stA.openFds.count fd =
      base fd + (if fd ∈ parents' then 1 else 0) +
      (if cur' ≠ c.dir_fd ∧ fd = cur' then 1 else 0) +
      (if cur ≠ c.dir_fd ∧ cur ≠ cur' ∧ cur ∉ parents' ∧ fd = cur then 1 else 0))
    (hnodup : parents'.Nodup) (hcur'nin : cur' ∉ parents')
    (hdirnin : c.dir_fd ∉ parents')
    (hpge : ∀ fd ∈ parents', initNext ≤ fd)
    (hcge : cur' ≠ c.dir_fd → initNext ≤ cur')
    (hbase : ∀ fd, base fd ≠ 0 → fd < initNext)
    (hdir : c.dir_fd < initNext)
    (hnge : initNext ≤ stA.nextFd)
    (hwf : ∀ fd ∈ stA.openFds, fd < stA.nextFd)
    (hbc : stA.badClose = false) :
    WalkInv c base initNext cur' parents' (iter_finally c cur cur' parents' stA) := by
  rw [iter_finally]
  by_cases hcond : cur ≠ cur' ∧ cur ≠ c.dir_fd ∧ cur ∉ parents'
  · rw [if_pos hcond]
    obtain ⟨hc1, hc2, hc3⟩ := hcond
    have hmem : cur ∈ stA.openFds := by
      apply mem_of_count_pos
      rw [hcounts cur]
      simp [hc1, hc2, hc3]
    refine ⟨?_, hnodup, hcur'nin, hdirnin, hpge, hcge, hbase, hdir,
      by rw [sys_close_spec cur stA hmem]; exact hnge, ?_, ?_⟩
    · intro fd
      rw [sys_close_count cur stA hmem fd, hcounts fd]
      by_cases hf : fd = cur
      · subst hf
        simp [hc1, hc2, hc3]
      · simp [hf]
    · intro fd hfd
      rw [sys_close_spec cur stA hmem] at hfd ⊢
      exact hwf fd (List.mem_of_mem_erase hfd)
    · rw [sys_close_spec cur stA hmem]
      exact hbc
  · rw [if_neg hcond]
    have hzero : ∀ fd,
        (if cur ≠ c.dir_fd ∧ cur ≠ cur' ∧ cur ∉ parents' ∧ fd = cur then 1 else 0) = 0 := by
      intro fd
      rw [if_neg]
      rintro ⟨h1, h2, h3, -⟩
      exact hcond ⟨h2, h1, h3⟩
    refine ⟨?_, hnodup, hcur'nin, hdirnin, hpge, hcge, hbase, hdir, hnge, hwf, hbc⟩
    intro fd
    rw [hcounts fd, hzero fd, Nat.add_zero]

theorem count_cons_fd (f fd : Nat) (l : List Nat) :
    (f :: l).count fd = l.count fd + (if fd = f then 1 else 0) := by
  rw [List.count_cons]
  congr 1
  simp only [beq_iff_eq]
  by_cases h : fd = f
  · simp [h]
  · rw [if_neg h, if_neg (fun he => h he.symm)]

theorem noAccessPending_access_cons (n : String) (l : List Event) :
    noAccessPending (Event.nameAccess n :: l) false = noAccessPending l false := rfl

theorem pendingAfter_access_cons (n : String) (l : List Event) (p : Bool) :
    pendingAfter (Event.nameAccess n :: l) p = pendingAfter l p := rfl

theorem all_deqOk_access_cons (n : String) (l : List Event) :
    (Event.nameAccess n :: l).all deqOk = l.all deqOk := by
  rw [List.all_cons]
  rfl

theorem after_open_failure_spec (c : Ctx) (ex : Errno) (flags : Nat)
    (rest : List (String × Nat)) (cur2 : Nat) (parents : List Nat)
    (found : Nat) (saw : Bool) (stP : WalkSt) :
    (after_open_failure c ex flags rest cur2 parents found saw stP).1.cur_fd = cur2 ∧
    (after_open_failure c ex flags rest cur2 parents found saw stP).1.parent_fds = parents ∧
    (after_open_failure c ex flags rest cur2 parents found saw stP).1.saw_parent_elem = saw ∧
    (after_open_failure c ex flags rest cur2 parents found saw stP).2.openFds = stP.openFds ∧
    (after_open_failure c ex flags rest cur2 parents found saw stP).2.badClose = stP.badClose ∧
    (after_open_failure c ex flags rest cur2 parents found saw stP).2.nextFd = stP.nextFd ∧
    ∃ Δ, (after_open_failure c ex flags rest cur2 parents found saw stP).2.log =
        stP.log ++ Δ ∧
      Δ.all neutralEv = true ∧ countEv isFound Δ ≤ 1 ∧
      ((after_open_failure c ex flags rest cur2 parents found saw stP).1.res = .ok () →
        (after_open_failure c ex flags rest cur2 parents found saw stP).1.found_symlinks =
          found + countEv isFound Δ ∧
        (countEv isFound Δ = 1 →
          (after_open_failure c ex flags rest cur2 parents found saw stP).1.found_symlinks ≤
            max_symlinks c.no_symlinks) ∧
        countEv isExpand Δ = countEv isFound Δ ∧
        ∃ target items, split_path target flags = .ok items ∧
          (after_open_failure c ex flags rest cur2 parents found saw stP).1.parts =
            items ++ rest) ∧
      (∀ e, (after_open_failure c ex flags rest cur2 parents found saw stP).1.res = .error e →
        countEv isExpand Δ = 0) ∧
      (c.audit = false → found = max_symlinks c.no_symlinks → countEv isFound Δ = 1 →
        (after_open_failure c ex flags rest cur2 parents found saw stP).1.res =
          .error .ELOOP) := by
  rw [after_open_failure]
  obtain ⟨hA, hB, hC, Δh, hlog, hall, hcf, hokf, herrf, hloopf⟩ :=
    handle_open_failure_spec c.or c.audit ex flags found
      (max_symlinks c.no_symlinks) stP
  rcases hh : handle_open_failure c.or c.audit ex flags found
      (max_symlinks c.no_symlinks) stP with ⟨r, stH⟩
  rw [hh] at hA hB hC hlog hokf herrf hloopf
  simp only at hA hB hC hlog hokf herrf hloopf
  cases r with
  | error e' =>
    refine ⟨rfl, rfl, rfl, hA, hB, hC, Δh, hlog, hall, hcf, ?_, ?_, ?_⟩
    · intro hres
      cases hres
    · intro e'' hres
      exact herrf e' rfl
    · intro ha hfm hc1
      have h := hloopf ha hfm hc1
      injection h with h
      exact congrArg Except.error h
  | ok pr =>
    cases pr with
    | mk items found' =>
      obtain ⟨hf1, hf2, hf3, hf4, hf5, target, hf6⟩ := hokf items found' rfl
      refine ⟨rfl, rfl, rfl, hA, hB, hC, Δh, hlog, hall, hcf, ?_, ?_, ?_⟩
      · intro _
        refine ⟨?_, ?_, by omega, target, items, hf6, rfl⟩
        · show found' = found + countEv isFound Δh
          omega
        · intro _
          show found' ≤ max_symlinks c.no_symlinks
          omega
      · intro e'' hres
        cases hres
      · intro ha hfm hc1
        exfalso
        omega

/-- invariant preservation through a failure-handler exit followed by the
per-iteration `finally`. -/
theorem after_open_failure_inv (c : Ctx) (base : Nat → Nat) (initNext : Nat)
    (ex : Errno) (flags : Nat) (rest : List (String × Nat))
    (cur cur2 : Nat) (parents : List Nat) (found : Nat) (saw : Bool)
    (stP : WalkSt)
    (hcounts : ∀ fd, stP.openFds.count fd =
      base fd + (if fd ∈ parents then 1 else 0) +
      (if cur2 ≠ c.dir_fd ∧ fd = cur2 then 1 else 0) +
      (if cur ≠ c.dir_fd ∧ cur ≠ cur2 ∧ cur ∉ parents ∧ fd = cur then 1 else 0))
    (hnodup : parents.Nodup) (hc2nin : cur2 ∉ parents)
    (hdnin : c.dir_fd ∉ parents)
    (hpge : ∀ fd ∈ parents, initNext ≤ fd)
    (hc2ge : cur2 ≠ c.dir_fd → initNext ≤ cur2)
    (hbase : ∀ fd, base fd ≠ 0 → fd < initNext)
    (hdir : c.dir_fd < initNext)
    (hnge : initNext ≤ stP.nextFd)
    (hwf : ∀ fd ∈ stP.openFds, fd < stP.nextFd)
    (hbc : stP.badClose = false) :
    WalkInv c base initNext
      (after_open_failure c ex flags rest cur2 parents found saw stP).1.cur_fd
      (after_open_failure c ex flags rest cur2 parents found saw stP).1.parent_fds
      (iter_finally c cur
        (after_open_failure c ex flags rest cur2 parents found saw stP).1.cur_fd
        (after_open_failure c ex flags rest cur2 parents found saw stP).1.parent_fds
        (after_open_failure c ex flags rest cur2 parents found saw stP).2) := by
  obtain ⟨hcur2, hpar, hsaw, hO, hBC, hN, -⟩ :=
    after_open_failure_spec c ex flags rest cur2 parents found saw stP
  rw [hcur2, hpar]
  exact iter_finally_inv c base initNext cur cur2 parents _
    (by intro fd; rw [hO]; exact hcounts fd)
    hnodup hc2nin hdnin hpge hc2ge hbase hdir
    (by rw [hN]; exact hnge)
    (by intro fd hfd; rw [hN]; exact hwf fd (hO ▸ hfd))
    (by rw [hBC]; exact hbc)

/-- invariant preservation through the successful-open exit followed by the
per-iteration `finally`. -/
theorem open_success_inv (c : Ctx) (base : Nat → Nat) (initNext : Nat)
    (f cur : Nat) (rest : List (String × Nat)) (parents : List Nat)
    (found : Nat) (saw : Bool) (st : WalkSt)
    (hcounts : ∀ fd, st.openFds.count fd =
      base fd + (if fd ∈ parents then 1 else 0) +
      (if cur ≠ c.dir_fd ∧ fd = cur then 1 else 0) +
      (if fd = f then 1 else 0))
    (hnodup : parents.Nodup) (hcnin : cur ∉ parents)
    (hdnin : c.dir_fd ∉ parents)
    (hpge : ∀ fd ∈ parents, initNext ≤ fd)
    (hcge : cur ≠ c.dir_fd → initNext ≤ cur)
    (hbase : ∀ fd, base fd ≠ 0 → fd < initNext)
    (hdir : c.dir_fd < initNext)
    (hfnin : f ∉ parents) (hfcur : cur ≠ f) (hfdir : f ≠ c.dir_fd)
    (hfge : initNext ≤ f)
    (hnge : initNext ≤ st.nextFd)
    (hwf : ∀ fd ∈ st.openFds, fd < st.nextFd)
    (hbc : st.badClose = false) :
    WalkInv c base initNext
      (open_success c f cur rest parents found saw st).1.cur_fd
      (open_success c f cur rest parents found saw st).1.parent_fds
      (iter_finally c cur
        (open_success c f cur rest parents found saw st).1.cur_fd
        (open_success c f cur rest parents found saw st).1.parent_fds
        (open_success c f cur rest parents found saw st).2) := by
  simp only [open_success]
  by_cases hrem : c.remember_parents = true ∧ cur ≠ c.dir_fd
  · rw [if_pos hrem]
    refine iter_finally_inv c base initNext cur f (cur :: parents) st
      ?_ (List.nodup_cons.mpr ⟨hcnin, hnodup⟩) ?_ ?_ ?_ (fun _ => hfge)
      hbase hdir hnge hwf hbc
    · intro fd
      have h4 : (if cur ≠ c.dir_fd ∧ cur ≠ f ∧ cur ∉ cur :: parents ∧ fd = cur
          then 1 else 0) = 0 := by
        rw [if_neg]
        rintro ⟨-, -, h3, -⟩
        exact h3 (by simp)
      have hC : (if cur ≠ c.dir_fd ∧ fd = cur then 1 else 0) =
          (if fd = cur then 1 else 0) := by
        by_cases h : fd = cur
        · rw [if_pos ⟨hrem.2, h⟩, if_pos h]
        · rw [if_neg (fun hh => h hh.2), if_neg h]
      have hF : (if f ≠ c.dir_fd ∧ fd = f then 1 else 0) =
          (if fd = f then 1 else 0) := by
        by_cases h : fd = f
        · rw [if_pos ⟨hfdir, h⟩, if_pos h]
        · rw [if_neg (fun hh => h hh.2), if_neg h]
      have hM : (if fd ∈ cur :: parents then 1 else 0) =
          (if fd = cur then 1 else 0) + (if fd ∈ parents then 1 else 0) := by
        by_cases h1 : fd = cur
        · subst h1
          simp [hcnin]
        · by_cases h2 : fd ∈ parents <;> simp [h1, h2]
      rw [hcounts fd, h4, hC, hF, hM]
      ring
    · intro hmem
      rcases List.mem_cons.mp hmem with h | h
      · exact hfcur h.symm
      · exact hfnin h
    · intro hmem
      rcases List.mem_cons.mp hmem with h | h
      · exact hrem.2 h.symm
      · exact hdnin h
    · intro fd hfd
      rcases List.mem_cons.mp hfd with h | h
      · exact h ▸ hcge hrem.2
      · exact hpge fd h
  · rw [if_neg hrem]
    refine iter_finally_inv c base initNext cur f parents st
      ?_ hnodup hfnin hdnin hpge (fun _ => hfge) hbase hdir hnge hwf hbc
    intro fd
    have h4 : (if cur ≠ c.dir_fd ∧ cur ≠ f ∧ cur ∉ parents ∧ fd = cur
        then 1 else 0) = (if cur ≠ c.dir_fd ∧ fd = cur then 1 else 0) := by
      by_cases h : cur ≠ c.dir_fd ∧ fd = cur
      · rw [if_pos ⟨h.1, hfcur, hcnin, h.2⟩, if_pos h]
      · rw [if_neg (fun hh => h ⟨hh.1, hh.2.2.2⟩), if_neg h]
    have hF : (if f ≠ c.dir_fd ∧ fd = f then 1 else 0) =
        (if fd = f then 1 else 0) := by
      by_cases h : fd = f
      · rw [if_pos ⟨hfdir, h⟩, if_pos h]
      · rw [if_neg (fun hh => h hh.2), if_neg h]
    rw [hcounts fd, h4, hF]
    ring

theorem countFound_access_cons (n : String) (l : List Event) :
    countEv isFound (Event.nameAccess n :: l) = countEv isFound l := by
  rw [countEv_cons]
  simp [isFound]

theorem countExpand_access_cons (n : String) (l : List Event) :
    countEv isExpand (Event.nameAccess n :: l) = countEv isExpand l := by
  rw [countEv_cons]
  simp [isExpand]

theorem countFound_access_nil (n : String) :
    countEv isFound [Event.nameAccess n] = 0 := rfl

theorem countExpand_access_nil (n : String) :
    countEv isExpand [Event.nameAccess n] = 0 := rfl

set_option maxHeartbeats 1000000 in
/-- full characterization of one ordinary-component open: the walk invariant
survives the iteration `finally`, `saw_parent_elem` is untouched, the parent
stack only grows under `remember_parents`, the new log events are
well-formed, and at most one symlink is consumed from the budget. -/
theorem open_component_spec (c : Ctx) (base : Nat → Nat) (initNext : Nat)
    (part : String) (flags : Nat) (rest : List (String × Nat))
    (cur : Nat) (parents : List Nat) (found : Nat) (saw : Bool) (st : WalkSt)
    (hInv : WalkInv c base initNext cur parents st) :
    WalkInv c base initNext
      (open_component c part flags rest cur parents found saw st).1.cur_fd
      (open_component c part flags rest cur parents found saw st).1.parent_fds
      (iter_finally c cur
        (open_component c part flags rest cur parents found saw st).1.cur_fd
        (open_component c part flags rest cur parents found saw st).1.parent_fds
        (open_component c part flags rest cur parents found saw st).2) ∧
    (open_component c part flags rest cur parents found saw st).1.saw_parent_elem = saw ∧
    (c.remember_parents = false →
      (open_component c part flags rest cur parents found saw st).1.parent_fds = parents) ∧
    ∃ Δ, (open_component c part flags rest cur parents found saw st).2.log = st.log ++ Δ ∧
      (∀ p, pendingAfter Δ p = p) ∧
      noAccessPending Δ false = true ∧
      Δ.all deqOk = true ∧
      countEv isFound Δ ≤ 1 ∧
      ((open_component c part flags rest cur parents found saw st).1.res = .ok () →
        (open_component c part flags rest cur parents found saw st).1.found_symlinks =
          found + countEv isFound Δ ∧
        (countEv isFound Δ = 1 →
          (open_component c part flags rest cur parents found saw st).1.found_symlinks ≤
            max_symlinks c.no_symlinks) ∧
        countEv isExpand Δ = countEv isFound Δ ∧
        ((open_component c part flags rest cur parents found saw st).1.parts = rest ∨
          ∃ target items, split_path target flags = .ok items ∧
            (open_component c part flags rest cur parents found saw st).1.parts =
              items ++ rest)) ∧
      (∀ e, (open_component c part flags rest cur parents found saw st).1.res = .error e →
        countEv isExpand Δ = 0) ∧
      (c.audit = false → found = max_symlinks c.no_symlinks → countEv isFound Δ = 1 →
        (open_component c part flags rest cur parents found saw st).1.res =
          .error .ELOOP) := by
  obtain ⟨hcounts, hnodup, hcnin, hdnin, hpge, hcge, hbase, hdir, hnge, hwf, hbc⟩ := hInv
  have hcur_lt : cur < st.nextFd := by
    by_cases hcd : cur = c.dir_fd
    · omega
    · refine hwf cur (mem_of_count_pos ?_)
      rw [hcounts cur]
      simp [hcd]
  have hnd_ne_dir : st.nextFd ≠ c.dir_fd := by omega
  have hpar_lt : ∀ fd ∈ parents, fd < st.nextFd := by
    intro fd hfd
    refine hwf fd (mem_of_count_pos ?_)
    rw [hcounts fd]
    simp [hfd]
  have hnd_nin : st.nextFd ∉ parents := fun h => absurd (hpar_lt _ h) (lt_irrefl _)
  cases hop : c.or.openRes st.time with
  | error e =>
    have heq : open_component c part flags rest cur parents found saw st =
        after_open_failure c e flags rest cur parents found saw
          { st with log := st.log ++ [Event.nameAccess part],
                    time := st.time + 1 } := by
      rw [open_component]
      simp only [logEv, sys_open]
      rw [hop]
    rw [heq]
    obtain ⟨hcur2, hpar, hsaw, hO, hBC, hN, Δh, hlog, hall, hcf, hokf, herrf, hloopf⟩ :=
      after_open_failure_spec c e flags rest cur parents found saw
        { st with log := st.log ++ [Event.nameAccess part], time := st.time + 1 }
    refine ⟨?_, hsaw, fun _ => hpar, Event.nameAccess part :: Δh,
      ?_, ?_, ?_, ?_, ?_, ?_, ?_, ?_⟩
    · refine after_open_failure_inv c base initNext e flags rest cur cur parents found saw
        _ ?_ hnodup hcnin hdnin hpge hcge hbase hdir hnge hwf hbc
      intro fd
      show st.openFds.count fd = _
      rw [hcounts fd, if_neg (show ¬(cur ≠ c.dir_fd ∧ cur ≠ cur ∧ cur ∉ parents ∧ fd = cur)
        from fun h => h.2.1 rfl), Nat.add_zero]
    · rw [hlog]
      show (st.log ++ [Event.nameAccess part]) ++ Δh = _
      simp
    · intro p
      rw [pendingAfter_access_cons, pendingAfter_neutral Δh hall]
    · rw [noAccessPending_access_cons]
      exact noAccessPending_neutral Δh hall false
    · rw [all_deqOk_access_cons]
      exact all_deqOk_neutral Δh hall
    · rw [countFound_access_cons]
      exact hcf
    · intro hres
      obtain ⟨k1, k2, k3, target, items, hsp, hparts⟩ := hokf hres
      refine ⟨?_, ?_, ?_, Or.inr ⟨target, items, hsp, hparts⟩⟩
      · rw [countFound_access_cons]
        exact k1
      · intro h1
        rw [countFound_access_cons] at h1
        exact k2 h1
      · rw [countFound_access_cons, countExpand_access_cons]
        exact k3
    · intro e'' hres
      rw [countExpand_access_cons]
      exact herrf e'' hres
    · intro ha hfm hc1
      rw [countFound_access_cons] at hc1
      exact hloopf ha hfm hc1
  | ok u =>
    cases u
    have heq : open_component c part flags rest cur parents found saw st =
        open_ok_cont c st.nextFd cur flags rest parents found saw
          { st with log := st.log ++ [Event.nameAccess part],
                    time := st.time + 1, nextFd := st.nextFd + 1,
                    openFds := st.nextFd :: st.openFds } := by
      rw [open_component]
      simp only [logEv, sys_open]
      rw [hop]
    rw [heq]
    by_cases hpath : flags &&& (O_PATH ||| O_NOFOLLOW ||| O_DIRECTORY) = O_PATH
    · cases hstat : c.or.statRes (st.time + 1) with
      | ok s =>
        have heq2 : open_ok_cont c st.nextFd cur flags rest parents found saw
            { st with log := st.log ++ [Event.nameAccess part],
                      time := st.time + 1, nextFd := st.nextFd + 1,
                      openFds := st.nextFd :: st.openFds } =
            open_path_check c st.nextFd cur flags rest parents found saw (.ok s)
              { st with log := st.log ++ [Event.nameAccess part],
                        time := st.time + 2, nextFd := st.nextFd + 1,
                        openFds := st.nextFd :: st.openFds } := by
          rw [open_ok_cont, if_pos hpath]
          simp only [sys_fstat]
          rw [hstat]
        rw [heq2]
        by_cases hlnk : s.isLnk = true
        · have heq3 : open_path_check c st.nextFd cur flags rest parents found saw (.ok s)
              { st with log := st.log ++ [Event.nameAccess part],
                        time := st.time + 2, nextFd := st.nextFd + 1,
                        openFds := st.nextFd :: st.openFds } =
              after_open_failure c .ELOOP flags rest cur parents found saw
                { st with log := st.log ++ [Event.nameAccess part],
                          time := st.time + 2, nextFd := st.nextFd + 1 } := by
            rw [open_path_check, if_pos hlnk]
            congr 1
            rw [sys_close_spec _ _ (by simp)]
            simp [List.erase_cons_head]
          rw [heq3]
          obtain ⟨hcur2, hpar, hsaw, hO, hBC, hN, Δh, hlog, hall, hcf, hokf, herrf, hloopf⟩ :=
            after_open_failure_spec c .ELOOP flags rest cur parents found saw
              { st with log := st.log ++ [Event.nameAccess part],
                        time := st.time + 2, nextFd := st.nextFd + 1 }
          refine ⟨?_, hsaw, fun _ => hpar, Event.nameAccess part :: Δh,
            ?_, ?_, ?_, ?_, ?_, ?_, ?_, ?_⟩
          · refine after_open_failure_inv c base initNext .ELOOP flags rest cur cur parents
              found saw _ ?_ hnodup hcnin hdnin hpge hcge hbase hdir ?_ ?_ ?_
            · intro fd
              show st.openFds.count fd = _
              rw [hcounts fd, if_neg (show ¬(cur ≠ c.dir_fd ∧ cur ≠ cur ∧ cur ∉ parents ∧
                fd = cur) from fun h => h.2.1 rfl), Nat.add_zero]
            · show initNext ≤ st.nextFd + 1
              omega
            · intro fd hfd
              have := hwf fd hfd
              show fd < st.nextFd + 1
              omega
            · exact hbc
          · rw [hlog]
            show (st.log ++ [Event.nameAccess part]) ++ Δh = _
            simp
          · intro p
            rw [pendingAfter_access_cons, pendingAfter_neutral Δh hall]
          · rw [noAccessPending_access_cons]
            exact noAccessPending_neutral Δh hall false
          · rw [all_deqOk_access_cons]
            exact all_deqOk_neutral Δh hall
          · rw [countFound_access_cons]
            exact hcf
          · intro hres
            obtain ⟨k1, k2, k3, target, items, hsp, hparts⟩ := hokf hres
            refine ⟨?_, ?_, ?_, Or.inr ⟨target, items, hsp, hparts⟩⟩
            · rw [countFound_access_cons]
              exact k1
            · intro h1
              rw [countFound_access_cons] at h1
              exact k2 h1
            · rw [countFound_access_cons, countExpand_access_cons]
              exact k3
          · intro e'' hres
            rw [countExpand_access_cons]
            exact herrf e'' hres
          · intro ha hfm hc1
            rw [countFound_access_cons] at hc1
            exact hloopf ha hfm hc1
        · have heq3 : open_path_check c st.nextFd cur flags rest parents found saw (.ok s)
              { st with log := st.log ++ [Event.nameAccess part],
                        time := st.time + 2, nextFd := st.nextFd + 1,
                        openFds := st.nextFd :: st.openFds } =
              open_success c st.nextFd cur rest parents found saw
                { st with log := st.log ++ [Event.nameAccess part],
                          time := st.time + 2, nextFd := st.nextFd + 1,
                          openFds := st.nextFd :: st.openFds } := by
            rw [open_path_check, if_neg hlnk]
          rw [heq3]
          refine ⟨?_, rfl, ?_, [Event.nameAccess part],
            rfl, fun p => rfl, rfl, rfl, ?_, ?_, ?_, ?_⟩
          · refine open_success_inv c base initNext st.nextFd cur rest parents found saw
              _ ?_ hnodup hcnin hdnin hpge hcge hbase hdir hnd_nin (by omega)
              hnd_ne_dir hnge ?_ ?_ ?_
            · intro fd
              show (st.nextFd :: st.openFds).count fd = _
              rw [count_cons_fd, hcounts fd]
            · show initNext ≤ st.nextFd + 1
              omega
            · intro fd hfd
              show fd < st.nextFd + 1
              rcases List.mem_cons.mp hfd with h | h
              · omega
              · have := hwf fd h
                omega
            · exact hbc
          · intro hr
            simp [open_success, hr]
          · rw [countFound_access_nil]
            omega
          · intro _
            refine ⟨rfl, ?_, rfl, Or.inl rfl⟩
            intro h1
            rw [countFound_access_nil] at h1
            omega
          · intro e'' hres
            simp [open_success] at hres
          · intro ha hfm hc1
            rw [countFound_access_nil] at hc1
            omega
      | error e2 =>
        have heq2 : open_ok_cont c st.nextFd cur flags rest parents found saw
            { st with log := st.log ++ [Event.nameAccess part],
                      time := st.time + 1, nextFd := st.nextFd + 1,
                      openFds := st.nextFd :: st.openFds } =
            after_open_failure c e2 flags rest st.nextFd parents found saw
              { st with log := st.log ++ [Event.nameAccess part],
                        time := st.time + 2, nextFd := st.nextFd + 1,
                        openFds := st.nextFd :: st.openFds } := by
          rw [open_ok_cont, if_pos hpath]
          simp only [sys_fstat]
          rw [hstat]
          rw [open_path_check]
        rw [heq2]
        obtain ⟨hcur2, hpar, hsaw, hO, hBC, hN, Δh, hlog, hall, hcf, hokf, herrf, hloopf⟩ :=
          after_open_failure_spec c e2 flags rest st.nextFd parents found saw
            { st with log := st.log ++ [Event.nameAccess part],
                      time := st.time + 2, nextFd := st.nextFd + 1,
                      openFds := st.nextFd :: st.openFds }
        refine ⟨?_, hsaw, fun _ => hpar, Event.nameAccess part :: Δh,
          ?_, ?_, ?_, ?_, ?_, ?_, ?_, ?_⟩
        · refine after_open_failure_inv c base initNext e2 flags rest cur st.nextFd parents
            found saw _ ?_ hnodup hnd_nin hdnin hpge (fun _ => hnge) hbase hdir ?_ ?_ ?_
          · intro fd
            show (st.nextFd :: st.openFds).count fd = _
            have h3 : (if st.nextFd ≠ c.dir_fd ∧ fd = st.nextFd then 1 else 0) =
                (if fd = st.nextFd then 1 else 0) := by
              by_cases h : fd = st.nextFd
              · rw [if_pos ⟨hnd_ne_dir, h⟩, if_pos h]
              · rw [if_neg (fun hh => h hh.2), if_neg h]
            have h4 : (if cur ≠ c.dir_fd ∧ cur ≠ st.nextFd ∧ cur ∉ parents ∧ fd = cur
                then 1 else 0) = (if cur ≠ c.dir_fd ∧ fd = cur then 1 else 0) := by
              by_cases h : cur ≠ c.dir_fd ∧ fd = cur
              · rw [if_pos ⟨h.1, by omega, hcnin, h.2⟩, if_pos h]
              · rw [if_neg (fun hh => h ⟨hh.1, hh.2.2.2⟩), if_neg h]
            rw [count_cons_fd, hcounts fd, h3, h4]
            ring
          · show initNext ≤ st.nextFd + 1
            omega
          · intro fd hfd
            show fd < st.nextFd + 1
            rcases List.mem_cons.mp hfd with h | h
            · omega
            · have := hwf fd h
              omega
          · exact hbc
        · rw [hlog]
          show (st.log ++ [Event.nameAccess part]) ++ Δh = _
          simp
        · intro p
          rw [pendingAfter_access_cons, pendingAfter_neutral Δh hall]
        · rw [noAccessPending_access_cons]
          exact noAccessPending_neutral Δh hall false
        · rw [all_deqOk_access_cons]
          exact all_deqOk_neutral Δh hall
        · rw [countFound_access_cons]
          exact hcf
        · intro hres
          obtain ⟨k1, k2, k3, target, items, hsp, hparts⟩ := hokf hres
          refine ⟨?_, ?_, ?_, Or.inr ⟨target, items, hsp, hparts⟩⟩
          · rw [countFound_access_cons]
            exact k1
          · intro h1
            rw [countFound_access_cons] at h1
            exact k2 h1
          · rw [countFound_access_cons, countExpand_access_cons]
            exact k3
        · intro e'' hres
          rw [countExpand_access_cons]
          exact herrf e'' hres
        · intro ha hfm hc1
          rw [countFound_access_cons] at hc1
          exact hloopf ha hfm hc1
    · have heq2 : open_ok_cont c st.nextFd cur flags rest parents found saw
          { st with log := st.log ++ [Event.nameAccess part],
                    time := st.time + 1, nextFd := st.nextFd + 1,
                    openFds := st.nextFd :: st.openFds } =
          open_success c st.nextFd cur rest parents found saw
            { st with log := st.log ++ [Event.nameAccess part],
                      time := st.time + 1, nextFd := st.nextFd + 1,
                      openFds := st.nextFd :: st.openFds } := by
        rw [open_ok_cont, if_neg hpath]
      rw [heq2]
      refine ⟨?_, rfl, ?_, [Event.nameAccess part],
        rfl, fun p => rfl, rfl, rfl, ?_, ?_, ?_, ?_⟩
      · refine open_success_inv c base initNext st.nextFd cur rest parents found saw
          _ ?_ hnodup hcnin hdnin hpge hcge hbase hdir hnd_nin (by omega)
          hnd_ne_dir hnge ?_ ?_ ?_
        · intro fd
          show (st.nextFd :: st.openFds).count fd = _
          rw [count_cons_fd, hcounts fd]
        · show initNext ≤ st.nextFd + 1
          omega
        · intro fd hfd
          show fd < st.nextFd + 1
          rcases List.mem_cons.mp hfd with h | h
          · omega
          · have := hwf fd h
            omega
        · exact hbc
      · intro hr
        simp [open_success, hr]
      · rw [countFound_access_nil]
        omega
      · intro _
        refine ⟨rfl, ?_, rfl, Or.inl rfl⟩
        intro h1
        rw [countFound_access_nil] at h1
        omega
      · intro e'' hres
        simp [open_success] at hres
      · intro ha hfm hc1
        rw [countFound_access_nil] at hc1
        omega

theorem iter_finally_self (c : Ctx) (cur : Nat) (parents : List Nat)
    (st : WalkSt) : iter_finally c cur cur parents st = st := by
  rw [iter_finally, if_neg]
  rintro ⟨h, -, -⟩
  exact h rfl

theorem countEv_nil (f : Event → Bool) : countEv f [] = 0 := rfl

theorem countEv_cons_false (f : Event → Bool) (e : Event) (l : List Event)
    (h : f e = false) : countEv f (e :: l) = countEv f l := by
  rw [countEv_cons, h]
  simp

theorem noAccessPending_checkOk_cons (l : List Event) (p : Bool) :
    noAccessPending (Event.checkOk :: l) p = noAccessPending l false := rfl

theorem noAccessPending_rootReset_cons (l : List Event) (p : Bool) :
    noAccessPending (Event.rootReset :: l) p = noAccessPending l false := rfl

theorem noAccessPending_dotdot_cons (l : List Event) (p : Bool) :
    noAccessPending (Event.dotdotOpened :: l) p = noAccessPending l true := rfl

theorem noAccessPending_deq_cons (fl : Nat) (b : Bool) (l : List Event) (p : Bool) :
    noAccessPending (Event.deq fl b :: l) p = noAccessPending l p := rfl

theorem pendingAfter_checkOk_cons (l : List Event) (p : Bool) :
    pendingAfter (Event.checkOk :: l) p = pendingAfter l false := rfl

theorem pendingAfter_rootReset_cons (l : List Event) (p : Bool) :
    pendingAfter (Event.rootReset :: l) p = pendingAfter l false := rfl

theorem pendingAfter_dotdot_cons (l : List Event) (p : Bool) :
    pendingAfter (Event.dotdotOpened :: l) p = pendingAfter l true := rfl

theorem pendingAfter_deq_cons (fl : Nat) (b : Bool) (l : List Event) (p : Bool) :
    pendingAfter (Event.deq fl b :: l) p = pendingAfter l p := rfl

/-- counting form of pushing a freshly opened descriptor that becomes the
cursor. -/
theorem fresh_cursor_counts (c : Ctx) (base : Nat → Nat) (cur nf : Nat)
    (parents : List Nat) (l : List Nat)
    (hcnin : cur ∉ parents) (hcurnf : cur ≠ nf) (hnfdir : nf ≠ c.dir_fd)
    (hcounts : ∀ fd, l.count fd = base fd + (if fd ∈ parents then 1 else 0) +
      (if cur ≠ c.dir_fd ∧ fd = cur then 1 else 0)) :
    ∀ fd, (nf :: l).count fd = base fd + (if fd ∈ parents then 1 else 0) +
      (if nf ≠ c.dir_fd ∧ fd = nf then 1 else 0) +
      (if cur ≠ c.dir_fd ∧ cur ≠ nf ∧ cur ∉ parents ∧ fd = cur then 1 else 0) := by
  intro fd
  have h3 : (if nf ≠ c.dir_fd ∧ fd = nf then 1 else 0) =
      (if fd = nf then 1 else 0) := by
    by_cases hh : fd = nf
    · rw [if_pos ⟨hnfdir, hh⟩, if_pos hh]
    · rw [if_neg (fun hx => hh hx.2), if_neg hh]
  have h4 : (if cur ≠ c.dir_fd ∧ cur ≠ nf ∧ cur ∉ parents ∧ fd = cur then 1 else 0) =
      (if cur ≠ c.dir_fd ∧ fd = cur then 1 else 0) := by
    by_cases hh : cur ≠ c.dir_fd ∧ fd = cur
    · rw [if_pos ⟨hh.1, hcurnf, hcnin, hh.2⟩, if_pos hh]
    · rw [if_neg (fun hx => hh ⟨hx.1, hx.2.2.2⟩), if_neg hh]
  rw [count_cons_fd, hcounts fd, h3, h4]
  ring

set_option maxHeartbeats 1600000 in
/-- full characterization of one body of the walk loop: the invariant survives
the iteration `finally`; the parent stack stays empty without
`remember_parents`; `saw_parent_elem` respects the pending discipline; the
queue only changes by dequeuing or symlink expansion; and the logged events
follow the pending/budget accounting. -/
theorem walk_body_spec (c : Ctx) (base : Nat → Nat) (initNext : Nat)
    (fuel : Nat) (part : String) (flags : Nat) (rest : List (String × Nat))
    (cur : Nat) (parents : List Nat) (found : Nat) (saw : Bool) (st : WalkSt)
    (b : BodyOut) (st' : WalkSt)
    (h : walk_body c fuel part flags rest cur parents found saw st = some (b, st'))
    (hInv : WalkInv c base initNext cur parents st)
    (hS : saw = true → c.remember_parents = false ∧ parents = [] ∧ cur ≠ c.dir_fd ∧
      part ≠ "/")
    (hR : c.remember_parents = false → parents = [])
    (hNR : ∀ x ∈ rest, x.1 ≠ "/") :
    WalkInv c base initNext b.cur_fd b.parent_fds
      (iter_finally c cur b.cur_fd b.parent_fds st') ∧
    (c.remember_parents = false → b.parent_fds = []) ∧
    (b.res = .ok () → b.saw_parent_elem = true →
      c.remember_parents = false ∧ b.parent_fds = [] ∧ b.cur_fd ≠ c.dir_fd ∧
      ∀ x ∈ b.parts, x.1 ≠ "/") ∧
    (b.res = .ok () → b.parts = rest ∨ ∃ target items,
      split_path target flags = .ok items ∧ b.parts = items ++ rest) ∧
    ∃ Δ, st'.log = st.log ++ Δ ∧
      noAccessPending Δ saw = true ∧
      (b.res = .ok () → pendingAfter Δ saw = b.saw_parent_elem) ∧
      Δ.all deqOk = true ∧
      countEv isFound Δ ≤ 1 ∧
      (b.res = .ok () → b.found_symlinks = found + countEv isFound Δ ∧
        (countEv isFound Δ = 1 → b.found_symlinks ≤ max_symlinks c.no_symlinks) ∧
        countEv isExpand Δ = countEv isFound Δ) ∧
      (∀ e, b.res = .error e → countEv isExpand Δ = 0) ∧
      (c.audit = false → found = max_symlinks c.no_symlinks → countEv isFound Δ = 1 →
        b.res = .error .ELOOP) := by
  obtain ⟨hcounts, hnodup, hcnin, hdnin, hpge, hcge, hbase, hdir, hnge, hwf, hbc⟩ := hInv
  have hcur_lt : cur < st.nextFd := by
    by_cases hcd : cur = c.dir_fd
    · omega
    · refine hwf cur (mem_of_count_pos ?_)
      rw [hcounts cur]
      simp [hcd]
  have hnd_ne_dir : st.nextFd ≠ c.dir_fd := by omega
  have hpar_lt : ∀ fd ∈ parents, fd < st.nextFd := by
    intro fd hfd
    refine hwf fd (mem_of_count_pos ?_)
    rw [hcounts fd]
    simp [hfd]
  have hnd_nin : st.nextFd ∉ parents := fun hx => absurd (hpar_lt _ hx) (lt_irrefl _)
  by_cases hroot : part = "/"
  · -- the root branch: jump back to dir_fd, close the parent stack
    rw [walk_body.eq_def, if_pos hroot] at h
    have h3 := Option.some.inj h
    have hb : (⟨.ok (), c.dir_fd, [], found, saw, rest⟩ : BodyOut) = b :=
      congrArg Prod.fst h3
    have hst : closeAll parents st = st' := congrArg Prod.snd h3
    subst hb
    subst hst
    have hsawf : saw = false := by
      cases hsw : saw
      · rfl
      · exact absurd hroot (hS hsw).2.2.2
    subst hsawf
    obtain ⟨hcA, hcB, hcT, hcN, hcL⟩ := closeAll_spec parents st hnodup
      (fun fd hfd => mem_of_count_pos (by rw [hcounts fd]; simp [hfd]))
    refine ⟨?_, fun _ => rfl, ?_, fun _ => Or.inl rfl, [],
      by rw [hcL, List.append_nil], rfl, fun _ => rfl, rfl, by rw [countEv_nil]; omega,
      ?_, ?_, ?_⟩
    swap
    · intro _ hx
      cases hx
    · refine iter_finally_inv c base initNext cur c.dir_fd [] (closeAll parents st)
        ?_ List.nodup_nil (by simp) (by simp) (by simp)
        (fun hh => absurd rfl hh) hbase hdir
        (by rw [hcN]; exact hnge) ?_ (by rw [hcB]; exact hbc)
      · intro fd
        rw [hcA fd, hcounts fd]
        have e2 : (if c.dir_fd ≠ c.dir_fd ∧ fd = c.dir_fd then 1 else 0) = 0 :=
          if_neg (fun hh => hh.1 rfl)
        have e3 : (if cur ≠ c.dir_fd ∧ cur ≠ c.dir_fd ∧ cur ∉ ([] : List Nat) ∧
            fd = cur then 1 else 0) = (if cur ≠ c.dir_fd ∧ fd = cur then 1 else 0) := by
          by_cases hcd : cur ≠ c.dir_fd ∧ fd = cur
          · rw [if_pos ⟨hcd.1, hcd.1, by simp, hcd.2⟩, if_pos hcd]
          · rw [if_neg (fun hh => hcd ⟨hh.1, hh.2.2.2⟩), if_neg hcd]
        rw [e2, e3]
        have e1 : (if fd ∈ ([] : List Nat) then 1 else 0) = 0 := by simp
        rw [e1]
        by_cases hfp : fd ∈ parents <;> simp [hfp]
      · intro fd hfd
        have h1 := count_pos_of_mem hfd
        rw [hcA fd] at h1
        have h2 : 0 < st.openFds.count fd := by
          by_cases hfp : fd ∈ parents
          · rw [if_pos hfp] at h1
            omega
          · rw [if_neg hfp] at h1
            omega
        rw [hcN]
        exact hwf fd (mem_of_count_pos h2)
    · intro _
      exact ⟨rfl, fun h1 => by rw [countEv_nil] at h1; exact absurd h1 (by omega), rfl⟩
    · intro e he
      cases he
    · intro ha hfm hc1
      rw [countEv_nil] at hc1
      exact absurd hc1 (by omega)
  by_cases hdd : part = ".."
  · -- the `..` branch
    rw [walk_body.eq_def, if_neg hroot, if_pos hdd] at h
    by_cases hrem : c.remember_parents = true
    · -- remember_parents: pop the stack (or jump to the root)
      rw [if_pos hrem] at h
      have hsremf : ∀ hsw : saw = true, False := fun hsw => by
        have h1 := (hS hsw).1
        rw [h1] at hrem
        cases hrem
      cases parents with
      | nil =>
        have h3 := Option.some.inj h
        have hb : (⟨.ok (), c.dir_fd, [], found, saw, rest⟩ : BodyOut) = b :=
          congrArg Prod.fst h3
        have hst : st = st' := congrArg Prod.snd h3
        subst hb
        subst hst
        refine ⟨?_, fun _ => rfl, fun _ hx => absurd (hsremf hx) not_false,
          fun _ => Or.inl rfl, [],
          by rw [List.append_nil], rfl, fun _ => rfl, rfl,
          by rw [countEv_nil]; omega, ?_, ?_, ?_⟩
        · refine iter_finally_inv c base initNext cur c.dir_fd [] st
            ?_ List.nodup_nil (by simp) (by simp) (by simp)
            (fun hh => absurd rfl hh) hbase hdir hnge hwf hbc
          intro fd
          rw [hcounts fd]
          have e2 : (if c.dir_fd ≠ c.dir_fd ∧ fd = c.dir_fd then 1 else 0) = 0 :=
            if_neg (fun hh => hh.1 rfl)
          have e3 : (if cur ≠ c.dir_fd ∧ cur ≠ c.dir_fd ∧ cur ∉ ([] : List Nat) ∧
              fd = cur then 1 else 0) = (if cur ≠ c.dir_fd ∧ fd = cur then 1 else 0) := by
            by_cases hcd : cur ≠ c.dir_fd ∧ fd = cur
            · rw [if_pos ⟨hcd.1, hcd.1, by simp, hcd.2⟩, if_pos hcd]
            · rw [if_neg (fun hh => hcd ⟨hh.1, hh.2.2.2⟩), if_neg hcd]
          rw [e2, e3]
          ring
        · intro _
          exact ⟨rfl, fun h1 => by rw [countEv_nil] at h1; exact absurd h1 (by omega), rfl⟩
        · intro e he
          cases he
        · intro ha hfm hc1
          rw [countEv_nil] at hc1
          exact absurd hc1 (by omega)
      | cons p ps =>
        have hp_ne_dir : p ≠ c.dir_fd := fun hh => hdnin (hh ▸ List.mem_cons_self p ps)
        have hpnps : p ∉ ps := (List.nodup_cons.mp hnodup).1
        have hps_nodup : ps.Nodup := (List.nodup_cons.mp hnodup).2
        have hcnp : cur ≠ p := fun hh => hcnin (hh ▸ List.mem_cons_self p ps)
        have hcnps : cur ∉ ps := fun hh => hcnin (List.mem_cons_of_mem p hh)
        have hdnps : c.dir_fd ∉ ps := fun hh => hdnin (List.mem_cons_of_mem p hh)
        have hsplit : ∀ fd, (if fd ∈ p :: ps then 1 else 0) =
            (if fd = p then 1 else 0) + (if fd ∈ ps then 1 else 0) := by
          intro fd
          by_cases h1 : fd = p
          · subst h1
            simp [hpnps]
          · by_cases h2 : fd ∈ ps <;> simp [h1, h2]
        simp only at h
        by_cases hflags : flags = DIR_OPEN_FLAGS
        · rw [if_pos hflags] at h
          have h3 := Option.some.inj h
          have hb : (⟨.ok (), p, ps, found, saw, rest⟩ : BodyOut) = b :=
            congrArg Prod.fst h3
          have hst : st = st' := congrArg Prod.snd h3
          subst hb
          subst hst
          refine ⟨?_, ?_, fun _ hx => absurd (hsremf hx) not_false,
            fun _ => Or.inl rfl, [],
            by rw [List.append_nil], rfl, fun _ => rfl, rfl,
            by rw [countEv_nil]; omega, ?_, ?_, ?_⟩
          · refine iter_finally_inv c base initNext cur p ps st
              ?_ hps_nodup hpnps hdnps (fun fd hfd => hpge fd (List.mem_cons_of_mem p hfd))
              (fun _ => hpge p (List.mem_cons_self p ps)) hbase hdir hnge hwf hbc
            intro fd
            rw [hcounts fd, hsplit fd]
            have e2 : (if p ≠ c.dir_fd ∧ fd = p then 1 else 0) =
                (if fd = p then 1 else 0) := by
              by_cases hh : fd = p
              · rw [if_pos ⟨hp_ne_dir, hh⟩, if_pos hh]
              · rw [if_neg (fun hx => hh hx.2), if_neg hh]
            have e3 : (if cur ≠ c.dir_fd ∧ cur ≠ p ∧ cur ∉ ps ∧ fd = cur then 1 else 0) =
                (if cur ≠ c.dir_fd ∧ fd = cur then 1 else 0) := by
              by_cases hh : cur ≠ c.dir_fd ∧ fd = cur
              · rw [if_pos ⟨hh.1, hcnp, hcnps, hh.2⟩, if_pos hh]
              · rw [if_neg (fun hx => hh ⟨hx.1, hx.2.2.2⟩), if_neg hh]
            rw [e2, e3]
            ring
          · intro hr
            rw [hr] at hrem
            cases hrem
          · intro _
            exact ⟨rfl, fun h1 => by rw [countEv_nil] at h1; exact absurd h1 (by omega), rfl⟩
          · intro e he
            cases he
          · intro ha hfm hc1
            rw [countEv_nil] at hc1
            exact absurd hc1 (by omega)
        · rw [if_neg hflags] at h
          simp only [sys_open] at h
          cases hop : c.or.openRes st.time with
          | error e =>
            rw [hop] at h
            have h3 := Option.some.inj h
            have hb : (⟨.error e, cur, p :: ps, found, saw, rest⟩ : BodyOut) = b :=
              congrArg Prod.fst h3
            have hst : ({ st with time := st.time + 1 } : WalkSt) = st' :=
              congrArg Prod.snd h3
            subst hb
            subst hst
            refine ⟨?_, ?_, ?_, ?_, [],
              by rw [List.append_nil], rfl, ?_, rfl,
              by rw [countEv_nil]; omega, ?_,
              fun e' _ => countEv_nil _, ?_⟩
            · show WalkInv c base initNext cur (p :: ps)
                (iter_finally c cur cur (p :: ps) { st with time := st.time + 1 })
              rw [iter_finally_self]
              exact ⟨hcounts, hnodup, hcnin, hdnin, hpge, hcge, hbase, hdir,
                hnge, hwf, hbc⟩
            · intro hr
              rw [hr] at hrem
              cases hrem
            · intro hok
              cases hok
            · intro hok
              cases hok
            · intro hok
              cases hok
            · intro hok
              cases hok
            · intro ha hfm hc1
              rw [countEv_nil] at hc1
              exact absurd hc1 (by omega)
          | ok u =>
            cases u
            rw [hop] at h
            have hmem : p ∈ WalkSt.openFds
                { st with time := st.time + 1, nextFd := st.nextFd + 1,
                          openFds := st.nextFd :: st.openFds } := by
              show p ∈ st.nextFd :: st.openFds
              refine List.mem_cons_of_mem _ (mem_of_count_pos ?_)
              rw [hcounts p, hsplit p]
              simp
            have h3 := Option.some.inj h
            have hb : (⟨.ok (), st.nextFd, ps, found, saw, rest⟩ : BodyOut) = b :=
              congrArg Prod.fst h3
            have hst : sys_close p
                { st with time := st.time + 1, nextFd := st.nextFd + 1,
                          openFds := st.nextFd :: st.openFds } = st' :=
              congrArg Prod.snd h3
            subst hb
            subst hst
            refine ⟨?_, ?_, fun _ hx => absurd (hsremf hx) not_false,
              fun _ => Or.inl rfl, [], ?_, rfl, fun _ => rfl, rfl,
              by rw [countEv_nil]; omega, ?_, ?_, ?_⟩
            · refine iter_finally_inv c base initNext cur st.nextFd ps
                (sys_close p _) ?_ hps_nodup
                (fun hh => hnd_nin (List.mem_cons_of_mem p hh))
                hdnps (fun fd hfd => hpge fd (List.mem_cons_of_mem p hfd))
                (fun _ => hnge) hbase hdir ?_ ?_ ?_
              · intro fd
                rw [sys_close_count p _ hmem fd]
                show (st.nextFd :: st.openFds).count fd - _ = _
                rw [count_cons_fd, hcounts fd, hsplit fd]
                have e2 : (if st.nextFd ≠ c.dir_fd ∧ fd = st.nextFd then 1 else 0) =
                    (if fd = st.nextFd then 1 else 0) := by
                  by_cases hh : fd = st.nextFd
                  · rw [if_pos ⟨hnd_ne_dir, hh⟩, if_pos hh]
                  · rw [if_neg (fun hx => hh hx.2), if_neg hh]
                have e3 : (if cur ≠ c.dir_fd ∧ cur ≠ st.nextFd ∧ cur ∉ ps ∧ fd = cur
                    then 1 else 0) = (if cur ≠ c.dir_fd ∧ fd = cur then 1 else 0) := by
                  by_cases hh : cur ≠ c.dir_fd ∧ fd = cur
                  · rw [if_pos ⟨hh.1, by omega, hcnps, hh.2⟩, if_pos hh]
                  · rw [if_neg (fun hx => hh ⟨hx.1, hx.2.2.2⟩), if_neg hh]
                rw [e2, e3]
                omega
              · rw [sys_close_spec p _ hmem]
                show initNext ≤ st.nextFd + 1
                omega
              · intro fd hfd
                rw [sys_close_spec p _ hmem] at hfd
                have hfd2 := List.mem_of_mem_erase hfd
                rw [sys_close_spec p _ hmem]
                show fd < st.nextFd + 1
                rcases List.mem_cons.mp hfd2 with hh | hh
                · omega
                · have := hwf fd hh
                  omega
              · rw [sys_close_spec p _ hmem]
                exact hbc
            · intro hr
              rw [hr] at hrem
              cases hrem
            · rw [sys_close_spec p _ hmem]
              show st.log = st.log ++ []
              rw [List.append_nil]
            · intro _
              exact ⟨rfl, fun h1 => by rw [countEv_nil] at h1; exact absurd h1 (by omega),
                rfl⟩
            · intro e he
              cases he
            · intro ha hfm hc1
              rw [countEv_nil] at hc1
              exact absurd hc1 (by omega)
    · -- stateless `..`
      rw [if_neg hrem] at h
      have hremf : c.remember_parents = false := by
        cases hcr : c.remember_parents
        · rfl
        · exact absurd hcr hrem
      by_cases hcd : cur = c.dir_fd
      · rw [if_pos hcd] at h
        have h3 := Option.some.inj h
        have hb : (⟨.ok (), c.dir_fd, parents, found, false, rest⟩ : BodyOut) = b :=
          congrArg Prod.fst h3
        have hst : st = st' := congrArg Prod.snd h3
        subst hb
        subst hst
        have hsawf : saw = false := by
          cases hsw : saw
          · rfl
          · exact absurd hcd (hS hsw).2.2.1
        subst hsawf
        subst hcd
        refine ⟨?_, fun hr => hR hr, ?_, fun _ => Or.inl rfl, [],
          by rw [List.append_nil], rfl, fun _ => rfl, rfl,
          by rw [countEv_nil]; omega, ?_, ?_, ?_⟩
        swap
        · intro _ hx
          cases hx
        · show WalkInv c base initNext c.dir_fd parents
            (iter_finally c c.dir_fd c.dir_fd parents st)
          rw [iter_finally_self]
          exact ⟨hcounts, hnodup, hcnin, hdnin, hpge, hcge, hbase, hdir,
            hnge, hwf, hbc⟩
        · intro _
          exact ⟨rfl, fun h1 => by rw [countEv_nil] at h1; exact absurd h1 (by omega), rfl⟩
        · intro e he
          cases he
        · intro ha hfm hc1
          rw [countEv_nil] at hc1
          exact absurd hc1 (by omega)
      · rw [if_neg hcd] at h
        simp only [sys_fstat] at h
        cases hstat : c.or.statRes st.time with
        | error e =>
          rw [hstat] at h
          have h3 := Option.some.inj h
          have hb : (⟨.error e, cur, parents, found, saw, rest⟩ : BodyOut) = b :=
            congrArg Prod.fst h3
          have hst : ({ st with time := st.time + 1 } : WalkSt) = st' :=
            congrArg Prod.snd h3
          subst hb
          subst hst
          refine ⟨?_, fun hr => hR hr, ?_, ?_, [],
            by rw [List.append_nil], rfl, ?_, rfl,
            by rw [countEv_nil]; omega, ?_, fun e' _ => countEv_nil _, ?_⟩
          · show WalkInv c base initNext cur parents
              (iter_finally c cur cur parents { st with time := st.time + 1 })
            rw [iter_finally_self]
            exact ⟨hcounts, hnodup, hcnin, hdnin, hpge, hcge, hbase, hdir,
              hnge, hwf, hbc⟩
          · intro hok
            cases hok
          · intro hok
            cases hok
          · intro hok
            cases hok
          · intro hok
            cases hok
          · intro ha hfm hc1
            rw [countEv_nil] at hc1
            exact absurd hc1 (by omega)
        | ok s =>
          rw [hstat] at h
          simp only at h
          by_cases hsame : samestat s c.dir_fd_stat = true
          · rw [if_pos hsame] at h
            have h3 := Option.some.inj h
            have hb : (⟨.ok (), c.dir_fd, parents, found, false, rest⟩ : BodyOut) = b :=
              congrArg Prod.fst h3
            have hst : logEv .rootReset { st with time := st.time + 1 } = st' :=
              congrArg Prod.snd h3
            subst hb
            subst hst
            refine ⟨?_, fun hr => hR hr, ?_, fun _ => Or.inl rfl,
              [Event.rootReset], ?_, ?_, ?_, rfl, by decide, ?_, ?_, ?_⟩
            swap
            · intro _ hx
              cases hx
            · refine iter_finally_inv c base initNext cur c.dir_fd parents
                (logEv .rootReset { st with time := st.time + 1 })
                ?_ hnodup hdnin hdnin hpge
                (fun hh => absurd rfl hh) hbase hdir hnge hwf hbc
              intro fd
              show st.openFds.count fd = _
              rw [hcounts fd]
              have e2 : (if c.dir_fd ≠ c.dir_fd ∧ fd = c.dir_fd then 1 else 0) = 0 :=
                if_neg (fun hh => hh.1 rfl)
              have e3 : (if cur ≠ c.dir_fd ∧ cur ≠ c.dir_fd ∧ cur ∉ parents ∧
                  fd = cur then 1 else 0) =
                  (if cur ≠ c.dir_fd ∧ fd = cur then 1 else 0) := by
                by_cases hh : cur ≠ c.dir_fd ∧ fd = cur
                · rw [if_pos ⟨hh.1, hh.1, hcnin, hh.2⟩, if_pos hh]
                · rw [if_neg (fun hx => hh ⟨hx.1, hx.2.2.2⟩), if_neg hh]
              rw [e2, e3]
              ring
            · show st.log ++ [Event.rootReset] = st.log ++ [Event.rootReset]
              rfl
            · rw [noAccessPending_rootReset_cons]
              exact rfl
            · intro _
              rw [pendingAfter_rootReset_cons]
              rfl
            · intro _
              exact ⟨rfl, fun h1 => absurd h1 (by decide), rfl⟩
            · intro e he
              cases he
            · intro ha hfm hc1
              exact absurd hc1 (by decide)
          · rw [if_neg hsame] at h
            simp only [sys_open] at h
            cases hop : c.or.openRes (st.time + 1) with
            | error e =>
              rw [hop] at h
              have h3 := Option.some.inj h
              have hb : (⟨.error e, cur, parents, found, saw, rest⟩ : BodyOut) = b :=
                congrArg Prod.fst h3
              have hst : ({ st with time := st.time + 2 } : WalkSt) = st' :=
                congrArg Prod.snd h3
              subst hb
              subst hst
              refine ⟨?_, fun hr => hR hr, ?_, ?_, [],
                by rw [List.append_nil], rfl, ?_, rfl,
                by rw [countEv_nil]; omega, ?_, fun e' _ => countEv_nil _, ?_⟩
              · show WalkInv c base initNext cur parents
                  (iter_finally c cur cur parents { st with time := st.time + 2 })
                rw [iter_finally_self]
                exact ⟨hcounts, hnodup, hcnin, hdnin, hpge, hcge, hbase, hdir,
                  hnge, hwf, hbc⟩
              · intro hok
                cases hok
              · intro hok
                cases hok
              · intro hok
                cases hok
              · intro hok
                cases hok
              · intro ha hfm hc1
                rw [countEv_nil] at hc1
                exact absurd hc1 (by omega)
            | ok u =>
              cases u
              rw [hop] at h
              have h3 := Option.some.inj h
              have hb : (⟨.ok (), st.nextFd, parents, found, true, rest⟩ : BodyOut) = b :=
                congrArg Prod.fst h3
              have hst : logEv .dotdotOpened
                  { st with time := st.time + 2, nextFd := st.nextFd + 1,
                            openFds := st.nextFd :: st.openFds } = st' :=
                congrArg Prod.snd h3
              subst hb
              subst hst
              refine ⟨?_, fun hr => hR hr, ?_, fun _ => Or.inl rfl,
                [Event.dotdotOpened], ?_, ?_, ?_, rfl, by decide, ?_, ?_, ?_⟩
              · refine iter_finally_inv c base initNext cur st.nextFd parents
                  (logEv .dotdotOpened
                    { st with time := st.time + 2, nextFd := st.nextFd + 1,
                              openFds := st.nextFd :: st.openFds })
                  ?_ hnodup hnd_nin hdnin hpge (fun _ => hnge) hbase hdir ?_ ?_ ?_
                · intro fd
                  show (st.nextFd :: st.openFds).count fd = _
                  exact fresh_cursor_counts c base cur st.nextFd parents st.openFds
                    hcnin (by omega) hnd_ne_dir hcounts fd
                · show initNext ≤ st.nextFd + 1
                  omega
                · intro fd hfd
                  show fd < st.nextFd + 1
                  rcases List.mem_cons.mp hfd with hh | hh
                  · omega
                  · have := hwf fd hh
                    omega
                · exact hbc
              · intro _ _
                exact ⟨hremf, hR hremf, hnd_ne_dir, hNR⟩
              · show st.log ++ [Event.dotdotOpened] = st.log ++ [Event.dotdotOpened]
                rfl
              · rw [noAccessPending_dotdot_cons]
                exact rfl
              · intro _
                rw [pendingAfter_dotdot_cons]
                rfl
              · intro _
                exact ⟨rfl, fun h1 => absurd h1 (by decide), rfl⟩
              · intro e he
                cases he
              · intro ha hfm hc1
                exact absurd hc1 (by decide)
  by_cases hdot : part = "."
  · -- the `.` branch
    rw [walk_body.eq_def, if_neg hroot, if_neg hdd, if_pos hdot] at h
    by_cases hc2 : cur ≠ c.dir_fd ∧ flags ≠ DIR_OPEN_FLAGS
    · rw [if_pos hc2] at h
      simp only [sys_open] at h
      cases hop : c.or.openRes st.time with
      | error e =>
        rw [hop] at h
        have h3 := Option.some.inj h
        have hb : (⟨.error e, cur, parents, found, saw, rest⟩ : BodyOut) = b :=
          congrArg Prod.fst h3
        have hst : ({ st with time := st.time + 1 } : WalkSt) = st' :=
          congrArg Prod.snd h3
        subst hb
        subst hst
        refine ⟨?_, fun hr => hR hr, ?_, ?_, [],
          by rw [List.append_nil], rfl, ?_, rfl,
          by rw [countEv_nil]; omega, ?_, fun e' _ => countEv_nil _, ?_⟩
        · show WalkInv c base initNext cur parents
            (iter_finally c cur cur parents { st with time := st.time + 1 })
          rw [iter_finally_self]
          exact ⟨hcounts, hnodup, hcnin, hdnin, hpge, hcge, hbase, hdir,
            hnge, hwf, hbc⟩
        · intro hok
          cases hok
        · intro hok
          cases hok
        · intro hok
          cases hok
        · intro hok
          cases hok
        · intro ha hfm hc1
          rw [countEv_nil] at hc1
          exact absurd hc1 (by omega)
      | ok u =>
        cases u
        rw [hop] at h
        have h3 := Option.some.inj h
        have hb : (⟨.ok (), st.nextFd, parents, found, saw, rest⟩ : BodyOut) = b :=
          congrArg Prod.fst h3
        have hst :
            ({ st with time := st.time + 1, nextFd := st.nextFd + 1,
                       openFds := st.nextFd :: st.openFds } : WalkSt) = st' :=
          congrArg Prod.snd h3
        subst hb
        subst hst
        refine ⟨?_, fun hr => hR hr, ?_, fun _ => Or.inl rfl, [],
          by rw [List.append_nil], rfl, fun _ => rfl, rfl,
          by rw [countEv_nil]; omega, ?_, ?_, ?_⟩
        · refine iter_finally_inv c base initNext cur st.nextFd parents
            _ ?_ hnodup hnd_nin hdnin hpge (fun _ => hnge) hbase hdir ?_ ?_ ?_
          · intro fd
            show (st.nextFd :: st.openFds).count fd = _
            exact fresh_cursor_counts c base cur st.nextFd parents st.openFds
              hcnin (by omega) hnd_ne_dir hcounts fd
          · show initNext ≤ st.nextFd + 1
            omega
          · intro fd hfd
            show fd < st.nextFd + 1
            rcases List.mem_cons.mp hfd with hh | hh
            · omega
            · have := hwf fd hh
              omega
          · exact hbc
        · intro _ hx
          exact ⟨(hS hx).1, (hS hx).2.1, hnd_ne_dir, hNR⟩
        · intro _
          exact ⟨rfl, fun h1 => by rw [countEv_nil] at h1; exact absurd h1 (by omega), rfl⟩
        · intro e he
          cases he
        · intro ha hfm hc1
          rw [countEv_nil] at hc1
          exact absurd hc1 (by omega)
    · rw [if_neg hc2] at h
      have h3 := Option.some.inj h
      have hb : (⟨.ok (), cur, parents, found, saw, rest⟩ : BodyOut) = b :=
        congrArg Prod.fst h3
      have hst : st = st' := congrArg Prod.snd h3
      subst hb
      subst hst
      refine ⟨?_, fun hr => hR hr, ?_, fun _ => Or.inl rfl, [],
        by rw [List.append_nil], rfl, fun _ => rfl, rfl,
        by rw [countEv_nil]; omega, ?_, ?_, ?_⟩
      · show WalkInv c base initNext cur parents (iter_finally c cur cur parents st)
        rw [iter_finally_self]
        exact ⟨hcounts, hnodup, hcnin, hdnin, hpge, hcge, hbase, hdir,
          hnge, hwf, hbc⟩
      · intro _ hx
        exact ⟨(hS hx).1, (hS hx).2.1, (hS hx).2.2.1, hNR⟩
      · intro _
        exact ⟨rfl, fun h1 => by rw [countEv_nil] at h1; exact absurd h1 (by omega), rfl⟩
      · intro e he
        cases he
      · intro ha hfm hc1
        rw [countEv_nil] at hc1
        exact absurd hc1 (by omega)
  · -- ordinary-name branch
    rw [walk_body.eq_def, if_neg hroot, if_neg hdd, if_neg hdot] at h
    cases hsw : saw with
    | false =>
      subst hsw
      rw [if_neg Bool.false_ne_true] at h
      have h3 := Option.some.inj h
      have hb : (open_component c part flags rest cur parents found false st).1 = b :=
        congrArg Prod.fst h3
      have hst2 : (open_component c part flags rest cur parents found false st).2 = st' :=
        congrArg Prod.snd h3
      subst hb
      subst hst2
      obtain ⟨hoInv, hosaw, hopar, Δo, holog, hopend, honoacc, hodeq, hocf,
        hookf, hoerr, holoop⟩ :=
        open_component_spec c base initNext part flags rest cur parents found false st
          ⟨hcounts, hnodup, hcnin, hdnin, hpge, hcge, hbase, hdir, hnge, hwf, hbc⟩
      refine ⟨hoInv, ?_, ?_, ?_, Δo, holog, honoacc, ?_, hodeq, hocf, ?_, hoerr, holoop⟩
      · intro hr
        rw [hopar hr]
        exact hR hr
      · intro _ hx
        rw [hosaw] at hx
        cases hx
      · intro hok
        exact (hookf hok).2.2.2
      · intro _
        rw [hopend false, hosaw]
      · intro hok
        exact ⟨(hookf hok).1, (hookf hok).2.1, (hookf hok).2.2.1⟩
    | true =>
      obtain ⟨hrem0, hpar0, hcd0, hpart0⟩ := hS hsw
      subst hsw
      rw [if_pos rfl] at h
      cases hcb : _check_beneath c.or fuel cur cur c.dir_fd_stat none st with
      | none =>
        rw [hcb] at h
        simp at h
      | some r =>
        cases r with
        | mk cr st2 =>
          cases cr with
          | error e =>
            rw [hcb] at h
            obtain ⟨hcbO, hcbB, hcbL, hcbN, hcbW⟩ :=
              check_beneath_state c.or fuel cur cur c.dir_fd_stat none st
                (.error e) st2 hcb hwf hcur_lt (Or.inl rfl)
            rw [if_pos rfl] at hcbO
            have h3 := Option.some.inj h
            have hb : (⟨.error e, cur, parents, found, true, rest⟩ : BodyOut) = b :=
              congrArg Prod.fst h3
            have hst : st2 = st' := congrArg Prod.snd h3
            subst hb
            subst hst
            refine ⟨?_, fun hr => hR hr, ?_, ?_, [],
              by rw [hcbL, List.append_nil], rfl, ?_, rfl,
              by rw [countEv_nil]; omega, ?_, fun e' _ => countEv_nil _, ?_⟩
            · show WalkInv c base initNext cur parents
                (iter_finally c cur cur parents st2)
              rw [iter_finally_self]
              refine ⟨fun fd => by rw [hcbO]; exact hcounts fd, hnodup, hcnin,
                hdnin, hpge, hcge, hbase, hdir, le_trans hnge hcbN, hcbW,
                by rw [hcbB]; exact hbc⟩
            · intro hok
              cases hok
            · intro hok
              cases hok
            · intro hok
              cases hok
            · intro hok
              cases hok
            · intro ha hfm hc1
              rw [countEv_nil] at hc1
              exact absurd hc1 (by omega)
          | ok u =>
            cases u
            rw [hcb] at h
            obtain ⟨hcbO, hcbB, hcbL, hcbN, hcbW⟩ :=
              check_beneath_state c.or fuel cur cur c.dir_fd_stat none st
                (.ok ()) st2 hcb hwf hcur_lt (Or.inl rfl)
            rw [if_pos rfl] at hcbO
            have h3 := Option.some.inj h
            have hb : (open_component c part flags rest cur parents found false
                (logEv .checkOk st2)).1 = b :=
              congrArg Prod.fst h3
            have hst2 : (open_component c part flags rest cur parents found false
                (logEv .checkOk st2)).2 = st' :=
              congrArg Prod.snd h3
            subst hb
            subst hst2
            have hInv2 : WalkInv c base initNext cur parents (logEv .checkOk st2) := by
              refine ⟨?_, hnodup, hcnin, hdnin, hpge, hcge, hbase, hdir, ?_, ?_, ?_⟩
              · intro fd
                show st2.openFds.count fd = _
                rw [hcbO]
                exact hcounts fd
              · show initNext ≤ st2.nextFd
                exact le_trans hnge hcbN
              · intro fd hfd
                exact hcbW fd hfd
              · show st2.badClose = false
                rw [hcbB]
                exact hbc
            obtain ⟨hoInv, hosaw, hopar, Δo, holog, hopend, honoacc, hodeq, hocf,
              hookf, hoerr, holoop⟩ :=
              open_component_spec c base initNext part flags rest cur parents found false
                (logEv .checkOk st2) hInv2
            refine ⟨hoInv, ?_, ?_, ?_, Event.checkOk :: Δo, ?_, ?_, ?_, ?_, ?_, ?_, ?_, ?_⟩
            · intro hr
              rw [hopar hr]
              exact hR hr
            · intro _ hx
              rw [hosaw] at hx
              cases hx
            · intro hok
              exact (hookf hok).2.2.2
            · rw [holog]
              show (st2.log ++ [Event.checkOk]) ++ Δo = _
              rw [hcbL]
              simp
            · rw [noAccessPending_checkOk_cons]
              exact honoacc
            · intro _
              rw [pendingAfter_checkOk_cons, hopend false, hosaw]
            · rw [List.all_cons, show deqOk Event.checkOk = true from rfl, Bool.true_and]
              exact hodeq
            · rw [countEv_cons_false isFound Event.checkOk Δo rfl]
              exact hocf
            · intro hok
              refine ⟨?_, ?_, ?_⟩
              · rw [countEv_cons_false isFound Event.checkOk Δo rfl]
                exact (hookf hok).1
              · intro h1
                rw [countEv_cons_false isFound Event.checkOk Δo rfl] at h1
                exact (hookf hok).2.1 h1
              · rw [countEv_cons_false isFound Event.checkOk Δo rfl,
                  countEv_cons_false isExpand Event.checkOk Δo rfl]
                exact (hookf hok).2.2.1
            · intro e' he
              rw [countEv_cons_false isExpand Event.checkOk Δo rfl]
              exact hoerr e' he
            · intro ha hfm hc1
              rw [countEv_cons_false isFound Event.checkOk Δo rfl] at hc1
              exact holoop ha hfm hc1

theorem splitChars_no_sep (sep : Char) : ∀ (l : List Char),
    ∀ piece ∈ splitChars sep l, sep ∉ piece := by
  intro l
  induction l with
  | nil =>
    intro piece hp
    rw [splitChars] at hp
    simp at hp
    subst hp
    simp
  | cons c cs ih =>
    intro piece hp
    rw [splitChars] at hp
    by_cases hc : c = sep
    · rw [if_pos hc] at hp
      rcases List.mem_cons.mp hp with hh | hh
      · subst hh
        simp
      · exact ih piece hh
    · rw [if_neg hc] at hp
      cases hsc : splitChars sep cs with
      | nil =>
        rw [hsc] at hp
        simp at hp
        subst hp
        intro hmem
        simp at hmem
        exact hc hmem.symm
      | cons hh tt =>
        rw [hsc] at hp
        rcases List.mem_cons.mp hp with h1 | h1
        · subst h1
          intro hmem
          rcases List.mem_cons.mp hmem with h2 | h2
          · exact hc h2.symm
          · exact ih hh (hsc ▸ List.mem_cons_self hh tt) h2
        · exact ih piece (hsc ▸ List.mem_cons_of_mem hh h1)

theorem split_parts_ne_root (p : String) : ∀ q ∈ split_parts p, q ≠ "/" := by
  intro q hq
  rw [split_parts] at hq
  obtain ⟨hq1, -⟩ := List.mem_filter.mp hq
  obtain ⟨piece, hpc, rfl⟩ := List.mem_map.mp hq1
  intro heq
  have hdata : piece = "/".data := by
    have := congrArg String.data heq
    exact this
  have : '/' ∈ piece := by
    rw [hdata]
    simp [String.data]
  exact splitChars_no_sep '/' p.data piece hpc this

/-- in a split only the head item can be the root marker. -/
theorem split_path_root_tail (p : String) (f : Nat) (l : List (String × Nat))
    (h : split_path p f = .ok l) : ∀ x ∈ l.drop 1, x.1 ≠ "/" := by
  have hp := split_path_ne_empty p f l h
  rcases (split_parts p).eq_nil_or_concat with he | ⟨qs, q, he⟩
  · rw [split_path_ok_nil p f hp he] at h
    obtain rfl : _ = l := by injection h
    intro x hx
    split at hx <;> simp at hx
  · rw [split_path_ok_concat p f qs q hp (by simpa using he)] at h
    obtain rfl : _ = l := by injection h
    have hsp : split_parts p = qs ++ [q] := by simpa using he
    have hqs : ∀ y ∈ qs, y ∈ split_parts p := by
      intro y hy
      rw [hsp]
      exact List.mem_append_left _ hy
    have hq : q ∈ split_parts p := by
      rw [hsp]
      exact List.mem_append_right _ (List.mem_singleton_self q)
    intro x hx
    by_cases hsw : starts_with_slash p = true
    · rw [if_pos hsw] at hx
      have hre : ([("/", DIR_OPEN_FLAGS)] ++
          qs.map (fun a => (a, DIR_OPEN_FLAGS)) ++ [(q, final_flags p f)]).drop 1 =
          qs.map (fun a => (a, DIR_OPEN_FLAGS)) ++ [(q, final_flags p f)] := by
        simp
      rw [hre] at hx
      rcases List.mem_append.mp hx with hx1 | hx1
      · obtain ⟨a, ha, rfl⟩ := List.mem_map.mp hx1
        exact split_parts_ne_root p a (hqs a ha)
      · simp at hx1
        subst hx1
        exact split_parts_ne_root p q hq
    · rw [if_neg hsw] at hx
      have hx2 := List.mem_of_mem_drop hx
      simp only [List.nil_append] at hx2
      rcases List.mem_append.mp hx2 with hx1 | hx1
      · obtain ⟨a, ha, rfl⟩ := List.mem_map.mp hx1
        exact split_parts_ne_root p a (hqs a ha)
      · simp at hx1
        subst hx1
        exact split_parts_ne_root p q hq

theorem iter_finally_log (c : Ctx) (old cur' : Nat) (parents' : List Nat)
    (st : WalkSt) : (iter_finally c old cur' parents' st).log = st.log := by
  rw [iter_finally]
  split
  · rw [sys_close]
    split <;> rfl
  · rfl

set_option maxHeartbeats 1600000 in
/-- master induction over the walk loop: the descriptor invariant, the
parent-stack discipline, and the full event-log accounting (pending `..`
checks, dequeue sanity, symlink budget) survive any completed run of the
loop. -/
theorem walk_loop_spec (c : Ctx) (base : Nat → Nat) (initNext : Nat) :
    ∀ (fuel : Nat) (parts : List (String × Nat)) (cur : Nat) (parents : List Nat)
      (found : Nat) (saw : Bool) (st : WalkSt) (out : LoopOut) (st' : WalkSt),
    walk_loop c fuel parts cur parents found saw st = some (out, st') →
    WalkInv c base initNext cur parents st →
    (saw = true → c.remember_parents = false ∧ parents = [] ∧ cur ≠ c.dir_fd ∧
      ∀ x ∈ parts, x.1 ≠ "/") →
    (c.remember_parents = false → parents = []) →
    (∀ x ∈ parts.drop 1, x.1 ≠ "/") →
    (∀ x ∈ parts.dropLast, x.2 = DIR_OPEN_FLAGS) →
    found ≤ max_symlinks c.no_symlinks →
    WalkInv c base initNext out.cur_fd out.parent_fds st' ∧
    (c.remember_parents = false → out.parent_fds = []) ∧
    ∃ Δ, st'.log = st.log ++ Δ ∧
      noAccessPending Δ saw = true ∧
      (out.res = .ok () → pendingAfter Δ saw = out.saw_parent_elem) ∧
      Δ.all deqOk = true ∧
      found + countEv isFound Δ ≤ max_symlinks c.no_symlinks + 1 ∧
      found + countEv isExpand Δ ≤ max_symlinks c.no_symlinks ∧
      (out.res = .ok () → out.found_symlinks = found + countEv isFound Δ ∧
        out.found_symlinks ≤ max_symlinks c.no_symlinks) ∧
      (c.audit = false → found + countEv isFound Δ = max_symlinks c.no_symlinks + 1 →
        out.res = .error .ELOOP) := by
  intro fuel
  induction fuel with
  | zero =>
    intro parts cur parents found saw st out st' h
    rw [walk_loop] at h
    cases h
  | succ fuel ih =>
    intro parts cur parents found saw st out st' h hInv hS hR hNRT hQ hfound
    cases parts with
    | nil =>
      rw [walk_loop] at h
      have h3 := Option.some.inj h
      have hb : (⟨.ok (), cur, parents, found, saw⟩ : LoopOut) = out :=
        congrArg Prod.fst h3
      have hst : st = st' := congrArg Prod.snd h3
      subst hb
      subst hst
      refine ⟨hInv, hR, [], by rw [List.append_nil], rfl, fun _ => rfl, rfl,
        by rw [countEv_nil]; omega, by rw [countEv_nil]; omega,
        fun _ => ⟨rfl, hfound⟩, ?_⟩
      intro _ hsum
      rw [countEv_nil] at hsum
      exact absurd hsum (by omega)
    | cons hd rest =>
      cases hd with
      | mk part flags =>
        rw [walk_loop] at h
        simp only at h
        rcases hstep : (if c.audit then sys_audit c.or (logEv (.deq flags rest.isEmpty) st)
            else ((.ok (), logEv (.deq flags rest.isEmpty) st) :
              Except Errno Unit × WalkSt)) with ⟨r, stA⟩
        rw [hstep] at h
        have hA : stA.openFds = st.openFds ∧ stA.badClose = st.badClose ∧
            stA.nextFd = st.nextFd ∧
            stA.log = st.log ++ [Event.deq flags rest.isEmpty] := by
          by_cases haud : c.audit = true
          · rw [if_pos haud] at hstep
            have h4 : (sys_audit c.or (logEv (Event.deq flags rest.isEmpty) st)).2 = stA :=
              congrArg Prod.snd hstep
            rw [← h4]
            exact ⟨rfl, rfl, rfl, rfl⟩
          · rw [if_neg haud] at hstep
            have h4 : logEv (Event.deq flags rest.isEmpty) st = stA :=
              congrArg Prod.snd hstep
            rw [← h4]
            exact ⟨rfl, rfl, rfl, rfl⟩
        obtain ⟨hAO, hAB, hAN, hAL⟩ := hA
        have haud_err : ∀ e, r = .error e → c.audit = true := by
          intro e hre
          by_cases haud : c.audit = true
          · exact haud
          · rw [if_neg haud] at hstep
            have h4 : (Except.ok () : Except Errno Unit) = r :=
              congrArg Prod.fst hstep
            rw [hre] at h4
            cases h4
        obtain ⟨hcounts, hnodup, hcnin, hdnin, hpge, hcge, hbase, hdir, hnge,
          hwf, hbc⟩ := hInv
        have hInvA : WalkInv c base initNext cur parents stA := by
          refine ⟨?_, hnodup, hcnin, hdnin, hpge, hcge, hbase, hdir, ?_, ?_, ?_⟩
          · intro fd
            rw [hAO]
            exact hcounts fd
          · rw [hAN]
            exact hnge
          · intro fd hfd
            rw [hAN]
            exact hwf fd (hAO ▸ hfd)
          · rw [hAB]
            exact hbc
        have hdeq1 : deqOk (Event.deq flags rest.isEmpty) = true := by
          cases hrest : rest with
          | nil => simp [deqOk]
          | cons rh rt =>
            have hfl : flags = DIR_OPEN_FLAGS := by
              apply hQ (part, flags)
              rw [hrest, List.dropLast_cons₂]
              exact List.mem_cons_self _ _
            rw [hfl]
            simp [deqOk]
        cases r with
        | error e =>
          have haud := haud_err e rfl
          have h3 := Option.some.inj h
          have hb : (⟨.error e, cur, parents, found, saw⟩ : LoopOut) = out :=
            congrArg Prod.fst h3
          have hst : stA = st' := congrArg Prod.snd h3
          subst hb
          subst hst
          refine ⟨hInvA, hR, [Event.deq flags rest.isEmpty], hAL, ?_, ?_, ?_,
            ?_, ?_, ?_, ?_⟩
          · rw [noAccessPending_deq_cons]
            rfl
          · intro hok
            cases hok
          · rw [List.all_cons, hdeq1]
            rfl
          · rw [countEv_cons_false isFound (Event.deq flags rest.isEmpty) _ rfl, countEv_nil]
            omega
          · rw [countEv_cons_false isExpand (Event.deq flags rest.isEmpty) _ rfl, countEv_nil]
            omega
          · intro hok
            cases hok
          · intro ha _
            rw [ha] at haud
            cases haud
        | ok u =>
          cases u
          simp only at h
          cases hbody : walk_body c (fuel + 1) part flags rest cur parents found saw stA with
          | none =>
            rw [hbody] at h
            simp at h
          | some pr =>
            cases pr with
            | mk b stB =>
              rw [hbody] at h
              simp only at h
              obtain ⟨hbInv, hbR, hbS, hbParts, Δb, hbLog, hbNoacc, hbPend,
                hbDeq, hbCf, hbOkf, hbErrf, hbLoop⟩ :=
                walk_body_spec c base initNext (fuel + 1) part flags rest cur
                  parents found saw stA b stB hbody hInvA
                  (fun hsw => ⟨(hS hsw).1, (hS hsw).2.1, (hS hsw).2.2.1,
                    (hS hsw).2.2.2 (part, flags) (List.mem_cons_self _ _)⟩)
                  hR hNRT
              cases hres : b.res with
              | error e =>
                rw [hres] at h
                have h3 := Option.some.inj h
                have hb : (⟨.error e, b.cur_fd, b.parent_fds, b.found_symlinks,
                    b.saw_parent_elem⟩ : LoopOut) = out := congrArg Prod.fst h3
                have hst : iter_finally c cur b.cur_fd b.parent_fds stB = st' :=
                  congrArg Prod.snd h3
                subst hb
                subst hst
                refine ⟨hbInv, hbR, Event.deq flags rest.isEmpty :: Δb, ?_,
                  ?_, ?_, ?_, ?_, ?_, ?_, ?_⟩
                · rw [iter_finally_log, hbLog, hAL]
                  simp
                · rw [noAccessPending_deq_cons]
                  exact hbNoacc
                · intro hok
                  cases hok
                · rw [List.all_cons, hdeq1, Bool.true_and]
                  exact hbDeq
                · rw [countEv_cons_false isFound (Event.deq flags rest.isEmpty) _ rfl]
                  omega
                · rw [countEv_cons_false isExpand (Event.deq flags rest.isEmpty) _ rfl, hbErrf e hres]
                  omega
                · intro hok
                  cases hok
                · intro ha hsum
                  rw [countEv_cons_false isFound (Event.deq flags rest.isEmpty) _ rfl] at hsum
                  have h1 : countEv isFound Δb = 1 := by omega
                  have h2 : found = max_symlinks c.no_symlinks := by omega
                  have h5 := hbLoop ha h2 h1
                  rw [hres] at h5
                  exact h5
              | ok u2 =>
                cases u2
                rw [hres] at h
                obtain ⟨hf1, hf2, hf3⟩ := hbOkf hres
                have hfound2 : b.found_symlinks ≤ max_symlinks c.no_symlinks := by
                  rcases Nat.eq_zero_or_pos (countEv isFound Δb) with h0 | h1
                  · omega
                  · exact hf2 (by omega)
                have hNRT2 : ∀ x ∈ b.parts.drop 1, x.1 ≠ "/" := by
                  rcases hbParts hres with hp | ⟨target, items, hsp, hp⟩
                  · rw [hp]
                    intro x hx
                    exact hNRT x (List.mem_of_mem_drop hx)
                  · rw [hp]
                    intro x hx
                    cases items with
                    | nil =>
                      simp only [List.nil_append] at hx
                      exact hNRT x (List.mem_of_mem_drop hx)
                    | cons i0 ir =>
                      simp only [List.cons_append, List.drop_succ_cons,
                        List.drop_zero] at hx
                      rcases List.mem_append.mp hx with hx1 | hx1
                      · exact split_path_root_tail target flags _ hsp x hx1
                      · exact hNRT x hx1
                have hQ2 : ∀ x ∈ b.parts.dropLast, x.2 = DIR_OPEN_FLAGS := by
                  rcases hbParts hres with hp | ⟨target, items, hsp, hp⟩
                  · rw [hp]
                    intro x hx
                    cases hre : rest with
                    | nil =>
                      rw [hre] at hx
                      simp at hx
                    | cons rh rt =>
                      refine hQ x ?_
                      rw [hre] at hx
                      rw [hre, List.dropLast_cons₂]
                      exact List.mem_cons_of_mem _ hx
                  · rw [hp]
                    intro x hx
                    cases hre : rest with
                    | nil =>
                      rw [hre, List.append_nil] at hx
                      exact split_path_dropLast_flags target flags items hsp x hx
                    | cons rh rt =>
                      have hfl : flags = DIR_OPEN_FLAGS := by
                        apply hQ (part, flags)
                        rw [hre, List.dropLast_cons₂]
                        exact List.mem_cons_self _ _
                      rw [hre] at hx
                      rw [List.dropLast_append_of_ne_nil _ (List.cons_ne_nil rh rt)] at hx
                      rcases List.mem_append.mp hx with hx1 | hx1
                      · subst hfl
                        exact split_path_all_dir target items hsp x hx1
                      · refine hQ x ?_
                        rw [hre, List.dropLast_cons₂]
                        exact List.mem_cons_of_mem _ hx1
                obtain ⟨hrInv, hrR, Δr, hrLog, hrNoacc, hrPend, hrDeq, hrCf,
                  hrCx, hrOkf, hrLoop⟩ :=
                  ih b.parts b.cur_fd b.parent_fds b.found_symlinks
                    b.saw_parent_elem _ out st' h hbInv (hbS hres) hbR hNRT2 hQ2 hfound2
                refine ⟨hrInv, hrR, Event.deq flags rest.isEmpty :: (Δb ++ Δr),
                  ?_, ?_, ?_, ?_, ?_, ?_, ?_, ?_⟩
                · rw [hrLog, iter_finally_log, hbLog, hAL]
                  simp
                · rw [noAccessPending_deq_cons, noAccessPending_append, hbNoacc,
                    hbPend hres, Bool.true_and]
                  exact hrNoacc
                · intro hok
                  rw [pendingAfter_deq_cons, pendingAfter_append, hbPend hres]
                  exact hrPend hok
                · rw [List.all_cons, hdeq1, Bool.true_and, all_append, hbDeq,
                    Bool.true_and]
                  exact hrDeq
                · rw [countEv_cons_false isFound (Event.deq flags rest.isEmpty) _ rfl, countEv_append]
                  omega
                · rw [countEv_cons_false isExpand (Event.deq flags rest.isEmpty) _ rfl, countEv_append]
                  omega
                · intro hok
                  obtain ⟨hr1, hr2⟩ := hrOkf hok
                  refine ⟨?_, hr2⟩
                  rw [countEv_cons_false isFound (Event.deq flags rest.isEmpty) _ rfl, countEv_append]
                  omega
                · intro ha hsum
                  rw [countEv_cons_false isFound (Event.deq flags rest.isEmpty) _ rfl, countEv_append] at hsum
                  exact hrLoop ha (by omega)

/-- the `except BaseException` / `finally` cleanup of `_open_beneath`: close
the cursor when owned, then the whole parent stack; afterwards exactly the
baseline descriptors remain open. -/
theorem cleanup_spec (c : Ctx) (base : Nat → Nat) (initNext : Nat)
    (cur : Nat) (parents : List Nat) (stX : WalkSt)
    (hInv : WalkInv c base initNext cur parents stX) :
    (∀ b, (closeAll parents
      (if cur ≠ c.dir_fd then sys_close cur stX else stX)).openFds.count b = base b) ∧
    (closeAll parents
      (if cur ≠ c.dir_fd then sys_close cur stX else stX)).badClose = stX.badClose ∧
    (closeAll parents
      (if cur ≠ c.dir_fd then sys_close cur stX else stX)).log = stX.log ∧
    (closeAll parents
      (if cur ≠ c.dir_fd then sys_close cur stX else stX)).nextFd = stX.nextFd := by
  obtain ⟨hcounts, hnodup, hcnin, hdnin, hpge, hcge, hbase, hdir, hnge, hwf, hbc⟩ := hInv
  by_cases hcd : cur ≠ c.dir_fd
  · rw [if_pos hcd]
    have hmem : cur ∈ stX.openFds := by
      apply mem_of_count_pos
      rw [hcounts cur]
      simp [hcd]
    have hcnt2 : ∀ b, (sys_close cur stX).openFds.count b =
        base b + (if b ∈ parents then 1 else 0) := by
      intro b
      rw [sys_close_count cur stX hmem b, hcounts b]
      by_cases hb : b = cur
      · subst hb
        simp [hcd, hcnin]
      · simp [hb]
    obtain ⟨hcA, hcB, hcT, hcN, hcL⟩ := closeAll_spec parents (sys_close cur stX)
      hnodup (fun fd hfd => mem_of_count_pos (by rw [hcnt2 fd]; simp [hfd]))
    refine ⟨?_, ?_, ?_, ?_⟩
    · intro b
      rw [hcA b, hcnt2 b]
      by_cases hb : b ∈ parents <;> simp [hb]
    · rw [hcB, sys_close_spec cur stX hmem]
    · rw [hcL, sys_close_spec cur stX hmem]
    · rw [hcN, sys_close_spec cur stX hmem]
  · rw [if_neg hcd]
    have hcd2 : cur = c.dir_fd := by
      by_cases hh : cur = c.dir_fd
      · exact hh
      · exact absurd hh hcd
    have hcnt2 : ∀ b, stX.openFds.count b =
        base b + (if b ∈ parents then 1 else 0) := by
      intro b
      rw [hcounts b]
      have e1 : (if cur ≠ c.dir_fd ∧ b = cur then 1 else 0) = 0 :=
        if_neg (fun hh => hcd hh.1)
      rw [e1, Nat.add_zero]
    obtain ⟨hcA, hcB, hcT, hcN, hcL⟩ := closeAll_spec parents stX
      hnodup (fun fd hfd => mem_of_count_pos (by rw [hcnt2 fd]; simp [hfd]))
    refine ⟨?_, hcB, hcL, hcN⟩
    intro b
    rw [hcA b, hcnt2 b]
    by_cases hb : b ∈ parents <;> simp [hb]

/-- closing only the parent stack keeps the cursor open on top of the
baseline. -/
theorem closeAll_keep_spec (c : Ctx) (base : Nat → Nat) (initNext : Nat)
    (cur : Nat) (parents : List Nat) (stX : WalkSt)
    (hInv : WalkInv c base initNext cur parents stX) :
    (∀ b, (closeAll parents stX).openFds.count b =
      base b + (if cur ≠ c.dir_fd ∧ b = cur then 1 else 0)) ∧
    (closeAll parents stX).badClose = stX.badClose ∧
    (closeAll parents stX).log = stX.log ∧
    (closeAll parents stX).nextFd = stX.nextFd := by
  obtain ⟨hcounts, hnodup, hcnin, hdnin, hpge, hcge, hbase, hdir, hnge, hwf, hbc⟩ := hInv
  obtain ⟨hcA, hcB, hcT, hcN, hcL⟩ := closeAll_spec parents stX
    hnodup (fun fd hfd => mem_of_count_pos (by rw [hcounts fd]; simp [hfd]))
  refine ⟨?_, hcB, hcL, hcN⟩
  intro b
  rw [hcA b, hcounts b]
  by_cases hb : b ∈ parents
  · have hbc2 : ¬(cur ≠ c.dir_fd ∧ b = cur) := by
      rintro ⟨-, hh⟩
      exact hcnin (hh ▸ hb)
    rw [if_neg hbc2]
    simp [hb]
  · simp [hb]

/-- the tail of a successful walk with no pending check left to log: close
the parent stack, then either return the cursor or re-open the root. -/
theorem final_reopen_spec (c : Ctx) (base : Nat → Nat) (initNext : Nat)
    (outcur : Nat) (parents : List Nat) (st6 : WalkSt)
    (hInv6 : WalkInv c base initNext outcur parents st6)
    (res : Except Errno Nat) (st' : WalkSt)
    (h : (if outcur = c.dir_fd then
            match sys_open c.or (closeAll parents st6) with
            | (.error e, st) => some (.error e, st)
            | (.ok f, st) => some (.ok f, st)
          else some (.ok outcur, closeAll parents st6)) = some (res, st')) :
    st'.badClose = st6.badClose ∧ st'.log = st6.log ∧
    (∀ e, res = .error e → ∀ b, st'.openFds.count b = base b) ∧
    (∀ fd, res = .ok fd → (∀ b, st'.openFds.count b = base b +
      (if b = fd then 1 else 0)) ∧ initNext ≤ fd) := by
  obtain ⟨hK1, hK2, hK3, hK4⟩ := closeAll_keep_spec c base initNext outcur parents st6 hInv6
  have hnge6 : initNext ≤ st6.nextFd := hInv6.next_ge
  by_cases hcd : outcur = c.dir_fd
  · rw [if_pos hcd] at h
    simp only [sys_open] at h
    have hz : ∀ b, (closeAll parents st6).openFds.count b = base b := by
      intro b
      rw [hK1 b, if_neg (fun hh => hh.1 hcd), Nat.add_zero]
    cases hop : c.or.openRes (closeAll parents st6).time with
    | error e =>
      rw [hop] at h
      have h3 := Option.some.inj h
      have hr : (Except.error e : Except Errno Nat) = res := congrArg Prod.fst h3
      have hst : ({ closeAll parents st6 with
          time := (closeAll parents st6).time + 1 } : WalkSt) = st' :=
        congrArg Prod.snd h3
      subst hr
      subst hst
      refine ⟨hK2, hK3, fun e' _ b => hz b, ?_⟩
      intro fd hok
      cases hok
    | ok u =>
      cases u
      rw [hop] at h
      have h3 := Option.some.inj h
      have hr : (Except.ok (closeAll parents st6).nextFd : Except Errno Nat) = res :=
        congrArg Prod.fst h3
      have hst : ({ closeAll parents st6 with
          time := (closeAll parents st6).time + 1,
          nextFd := (closeAll parents st6).nextFd + 1,
          openFds := (closeAll parents st6).nextFd ::
            (closeAll parents st6).openFds } : WalkSt) = st' :=
        congrArg Prod.snd h3
      subst hr
      subst hst
      refine ⟨hK2, hK3, ?_, ?_⟩
      · intro e' he
        cases he
      · intro fd hok
        have hfd : (closeAll parents st6).nextFd = fd := by
          injection hok
        subst hfd
        refine ⟨?_, by rw [hK4]; exact hnge6⟩
        intro b
        show ((closeAll parents st6).nextFd :: (closeAll parents st6).openFds).count b = _
        rw [count_cons_fd, hz b]
  · rw [if_neg hcd] at h
    have h3 := Option.some.inj h
    have hr : (Except.ok outcur : Except Errno Nat) = res := congrArg Prod.fst h3
    have hst : closeAll parents st6 = st' := congrArg Prod.snd h3
    subst hr
    subst hst
    refine ⟨hK2, hK3, ?_, ?_⟩
    · intro e' he
      cases he
    · intro fd hok
      have hfd : outcur = fd := by injection hok
      subst hfd
      refine ⟨?_, hInv6.cur_ge hcd⟩
      intro b
      rw [hK1 b]
      congr 1
      by_cases hb : b = outcur
      · rw [if_pos ⟨hcd, hb⟩, if_pos hb]
      · rw [if_neg (fun hh => hb hh.2), if_neg hb]

set_option maxHeartbeats 1600000 in
/-- everything `_open_beneath` does from the walk loop onwards: descriptor
neutrality (net 0 on failure, net exactly the returned fresh descriptor on
success), no bad closes, and the event-log discipline of the walk. -/
theorem loop_tail_spec (c : Ctx) (fuel : Nat) (parts : List (String × Nat))
    (st : WalkSt) (res : Except Errno Nat) (st' : WalkSt)
    (h : loop_tail c fuel parts st = some (res, st'))
    (hwf : ∀ fd ∈ st.openFds, fd < st.nextFd)
    (hdirlt : c.dir_fd < st.nextFd)
    (hbc : st.badClose = false)
    (hNRT : ∀ x ∈ parts.drop 1, x.1 ≠ "/")
    (hQ : ∀ x ∈ parts.dropLast, x.2 = DIR_OPEN_FLAGS) :
    st'.badClose = false ∧
    (∀ e, res = .error e → ∀ b, st'.openFds.count b = st.openFds.count b) ∧
    (∀ fd, res = .ok fd → (∀ b, st'.openFds.count b = st.openFds.count b +
      (if b = fd then 1 else 0)) ∧ st.nextFd ≤ fd) ∧
    ∃ Δ, st'.log = st.log ++ Δ ∧
      noAccessPending Δ false = true ∧
      Δ.all deqOk = true ∧
      (∀ fd, res = .ok fd → pendingAfter Δ false = false) ∧
      countEv isFound Δ ≤ max_symlinks c.no_symlinks + 1 ∧
      countEv isExpand Δ ≤ max_symlinks c.no_symlinks ∧
      (c.audit = false → countEv isFound Δ = max_symlinks c.no_symlinks + 1 →
        res = .error .ELOOP) := by
  have hInv0 : WalkInv c (fun b => st.openFds.count b) st.nextFd c.dir_fd [] st := by
    refine ⟨?_, List.nodup_nil, by simp, by simp, by simp,
      fun hh => absurd rfl hh, ?_, hdirlt, le_refl _, hwf, hbc⟩
    · intro fd
      rw [if_neg (by simp : ¬ fd ∈ ([] : List Nat)),
        if_neg (fun hh : c.dir_fd ≠ c.dir_fd ∧ fd = c.dir_fd => hh.1 rfl),
        Nat.add_zero]
    · intro fd hfd
      exact hwf fd (mem_of_count_pos (Nat.pos_of_ne_zero hfd))
  rw [loop_tail] at h
  cases hloop : walk_loop c fuel parts c.dir_fd [] 0 false st with
  | none =>
    rw [hloop] at h
    simp at h
  | some pr =>
    cases pr with
    | mk out st2 =>
      rw [hloop] at h
      simp only at h
      obtain ⟨hLInv, hLR, Δl, hLlog, hLnoacc, hLpend, hLdeq, hLcf, hLcx,
        hLokf, hLloop⟩ :=
        walk_loop_spec c (fun b => st.openFds.count b) st.nextFd fuel parts
          c.dir_fd [] 0 false st out st2 hloop hInv0
          (fun hsw => absurd hsw Bool.false_ne_true) (fun _ => rfl) hNRT hQ
          (Nat.zero_le _)
      have hoc_lt : out.cur_fd < st2.nextFd := by
        by_cases hcd : out.cur_fd = c.dir_fd
        · calc out.cur_fd = c.dir_fd := hcd
            _ < st.nextFd := hdirlt
            _ ≤ st2.nextFd := hLInv.next_ge
        · refine hLInv.wf out.cur_fd (mem_of_count_pos ?_)
          rw [hLInv.counts out.cur_fd]
          simp [hcd]
      cases hres : out.res with
      | error e =>
        rw [hres] at h
        simp only at h
        have h3 := Option.some.inj h
        have hr : (Except.error e : Except Errno Nat) = res := congrArg Prod.fst h3
        have hst : closeAll out.parent_fds
            (if out.cur_fd ≠ c.dir_fd then sys_close out.cur_fd st2 else st2) = st' :=
          congrArg Prod.snd h3
        subst hr
        subst hst
        obtain ⟨hC1, hC2, hC3, hC4⟩ := cleanup_spec c _ st.nextFd out.cur_fd
          out.parent_fds st2 hLInv
        refine ⟨by rw [hC2]; exact hLInv.bc, fun e' _ b => hC1 b, ?_,
          Δl, by rw [hC3, hLlog], hLnoacc, hLdeq, ?_, by omega, by omega, ?_⟩
        · intro fd hok
          cases hok
        · intro fd hok
          cases hok
        · intro ha hcnt
          have h9 := hLloop ha (by omega)
          rw [hres] at h9
          injection h9 with h9
          rw [h9]
      | ok u =>
        cases u
        rw [hres] at h
        simp only at h
        cases hsaw : out.saw_parent_elem with
        | false =>
          have heq : (if out.saw_parent_elem = true then
              _check_beneath c.or fuel out.cur_fd out.cur_fd c.dir_fd_stat none st2
            else some (.ok (), st2)) = some (.ok (), st2) := by
            rw [hsaw]
            exact if_neg Bool.false_ne_true
          rw [heq] at h
          simp only at h
          have heq2 : (if out.saw_parent_elem = true then logEv Event.checkOk st2
              else st2) = st2 := by
            rw [hsaw]
            exact if_neg Bool.false_ne_true
          rw [heq2] at h
          obtain ⟨hF1, hF2, hF3, hF4⟩ := final_reopen_spec c _ st.nextFd
            out.cur_fd out.parent_fds st2 hLInv res st' h
          refine ⟨by rw [hF1]; exact hLInv.bc, hF3, hF4, Δl,
            by rw [hF2, hLlog], hLnoacc, hLdeq, ?_, by omega, by omega, ?_⟩
          · intro fd _
            rw [hLpend hres, hsaw]
          · intro ha hcnt
            have h9 := hLloop ha (by omega)
            rw [hres] at h9
            cases h9
        | true =>
          have heq : (if out.saw_parent_elem = true then
              _check_beneath c.or fuel out.cur_fd out.cur_fd c.dir_fd_stat none st2
            else some (.ok (), st2)) =
              _check_beneath c.or fuel out.cur_fd out.cur_fd c.dir_fd_stat none st2 := by
            rw [hsaw]
            exact if_pos rfl
          rw [heq] at h
          cases hcb : _check_beneath c.or fuel out.cur_fd out.cur_fd
              c.dir_fd_stat none st2 with
          | none =>
            rw [hcb] at h
            simp at h
          | some pr2 =>
            cases pr2 with
            | mk cr st4 =>
              rw [hcb] at h
              obtain ⟨hcbO, hcbB, hcbL, hcbN, hcbW⟩ :=
                check_beneath_state c.or fuel out.cur_fd out.cur_fd c.dir_fd_stat
                  none st2 cr st4 hcb hLInv.wf hoc_lt (Or.inl rfl)
              rw [if_pos rfl] at hcbO
              have hInv4 : WalkInv c (fun b => st.openFds.count b) st.nextFd
                  out.cur_fd out.parent_fds st4 := by
                refine ⟨fun fd => by rw [hcbO]; exact hLInv.counts fd,
                  hLInv.nodup, hLInv.cur_notin, hLInv.dir_notin,
                  hLInv.parents_ge, hLInv.cur_ge, hLInv.base_lt, hLInv.dir_lt,
                  le_trans hLInv.next_ge hcbN, hcbW, by rw [hcbB]; exact hLInv.bc⟩
              cases cr with
              | error e =>
                simp only at h
                have h3 := Option.some.inj h
                have hr : (Except.error e : Except Errno Nat) = res :=
                  congrArg Prod.fst h3
                have hst : closeAll out.parent_fds
                    (if out.cur_fd ≠ c.dir_fd then sys_close out.cur_fd st4
                     else st4) = st' := congrArg Prod.snd h3
                subst hr
                subst hst
                obtain ⟨hC1, hC2, hC3, hC4⟩ := cleanup_spec c _ st.nextFd
                  out.cur_fd out.parent_fds st4 hInv4
                refine ⟨by rw [hC2, hcbB]; exact hLInv.bc, fun e' _ b => hC1 b,
                  ?_, Δl, by rw [hC3, hcbL, hLlog], hLnoacc, hLdeq, ?_,
                  by omega, by omega, ?_⟩
                · intro fd hok
                  cases hok
                · intro fd hok
                  cases hok
                · intro ha hcnt
                  have h9 := hLloop ha (by omega)
                  rw [hres] at h9
                  cases h9
              | ok u2 =>
                cases u2
                simp only at h
                have heq2 : (if out.saw_parent_elem = true then
                    logEv Event.checkOk st4 else st4) = logEv Event.checkOk st4 := by
                  rw [hsaw]
                  exact if_pos rfl
                rw [heq2] at h
                have hInv6 : WalkInv c (fun b => st.openFds.count b) st.nextFd
                    out.cur_fd out.parent_fds (logEv Event.checkOk st4) :=
                  ⟨hInv4.counts, hInv4.nodup, hInv4.cur_notin, hInv4.dir_notin,
                   hInv4.parents_ge, hInv4.cur_ge, hInv4.base_lt, hInv4.dir_lt,
                   hInv4.next_ge, hInv4.wf, hInv4.bc⟩
                obtain ⟨hF1, hF2, hF3, hF4⟩ := final_reopen_spec c _ st.nextFd
                  out.cur_fd out.parent_fds (logEv Event.checkOk st4) hInv6 res st' h
                have hcfe : countEv isFound (Δl ++ [Event.checkOk]) =
                    countEv isFound Δl := by
                  rw [countEv_append]
                  rfl
                have hcxe : countEv isExpand (Δl ++ [Event.checkOk]) =
                    countEv isExpand Δl := by
                  rw [countEv_append]
                  rfl
                refine ⟨?_, hF3, hF4, Δl ++ [Event.checkOk], ?_, ?_, ?_, ?_,
                  ?_, ?_, ?_⟩
                · rw [hF1]
                  show st4.badClose = false
                  rw [hcbB]
                  exact hLInv.bc
                · rw [hF2]
                  show st4.log ++ [Event.checkOk] = _
                  rw [hcbL, hLlog]
                  simp
                · rw [noAccessPending_append, hLnoacc, Bool.true_and,
                    noAccessPending_checkOk_cons]
                  rfl
                · rw [all_append, hLdeq, Bool.true_and]
                  rfl
                · intro fd _
                  rw [pendingAfter_append, pendingAfter_checkOk_cons]
                  rfl
                · rw [hcfe]
                  omega
                · rw [hcxe]
                  omega
                · intro ha hcnt
                  rw [hcfe] at hcnt
                  have h9 := hLloop ha (by omega)
                  rw [hres] at h9
                  cases h9

/-- `_open_beneath`: descriptor neutrality and event-log discipline for the
whole walker body, from the initial `os.fstat(dir_fd)` on. -/
theorem open_beneath_inner_spec (or : Oracle) (fuel : Nat) (p : String)
    (dir_fd : Nat) (oflags mode : Nat) (ns rp audit : Bool)
    (st : WalkSt) (res : Except Errno Nat) (st' : WalkSt)
    (h : _open_beneath or fuel p dir_fd oflags mode ns rp audit st = some (res, st'))
    (hwf : ∀ fd ∈ st.openFds, fd < st.nextFd)
    (hdirlt : dir_fd < st.nextFd)
    (hbc : st.badClose = false) :
    st'.badClose = false ∧
    (∀ e, res = .error e → ∀ b, st'.openFds.count b = st.openFds.count b) ∧
    (∀ fd, res = .ok fd → (∀ b, st'.openFds.count b = st.openFds.count b +
      (if b = fd then 1 else 0)) ∧ st.nextFd ≤ fd) ∧
    ∃ Δ, st'.log = st.log ++ Δ ∧
      noAccessPending Δ false = true ∧
      Δ.all deqOk = true ∧
      (∀ fd, res = .ok fd → pendingAfter Δ false = false) ∧
      countEv isFound Δ ≤ max_symlinks ns + 1 ∧
      countEv isExpand Δ ≤ max_symlinks ns ∧
      (audit = false → countEv isFound Δ = max_symlinks ns + 1 →
        res = .error .ELOOP) := by
  rw [_open_beneath] at h
  simp only [sys_fstat] at h
  cases hds : or.statRes st.time with
  | error e =>
    rw [hds] at h
    have h3 := Option.some.inj h
    have hr : (Except.error e : Except Errno Nat) = res := congrArg Prod.fst h3
    have hst : ({ st with time := st.time + 1 } : WalkSt) = st' := congrArg Prod.snd h3
    subst hr
    subst hst
    refine ⟨hbc, fun e' _ b => rfl, ?_, [], by rw [List.append_nil], rfl, rfl,
      ?_, by rw [countEv_nil]; omega, by rw [countEv_nil]; omega, ?_⟩
    · intro fd hok
      cases hok
    · intro fd hok
      cases hok
    · intro _ hcnt
      rw [countEv_nil] at hcnt
      exact absurd hcnt (by omega)
  | ok ds =>
    rw [hds] at h
    simp only at h
    by_cases hnd : ds.isDir = true
    · rw [if_neg (show ¬((!ds.isDir) = true) from by simp [hnd])] at h
      cases hsp : split_path p oflags with
      | error e =>
        rw [hsp] at h
        have h3 := Option.some.inj h
        have hr : (Except.error e : Except Errno Nat) = res := congrArg Prod.fst h3
        have hst : ({ st with time := st.time + 1 } : WalkSt) = st' := congrArg Prod.snd h3
        subst hr
        subst hst
        refine ⟨hbc, fun e' _ b => rfl, ?_, [], by rw [List.append_nil], rfl, rfl,
          ?_, by rw [countEv_nil]; omega, by rw [countEv_nil]; omega, ?_⟩
        · intro fd hok
          cases hok
        · intro fd hok
          cases hok
        · intro _ hcnt
          rw [countEv_nil] at hcnt
          exact absurd hcnt (by omega)
      | ok parts =>
        rw [hsp] at h
        simp only at h
        obtain ⟨hT1, hT2, hT3, Δ, hT4, hT5, hT6, hT7, hT8, hT9, hT10⟩ :=
          loop_tail_spec _ fuel parts { st with time := st.time + 1 } res st' h
            hwf hdirlt hbc (split_path_root_tail p oflags parts hsp)
            (split_path_dropLast_flags p oflags parts hsp)
        exact ⟨hT1, hT2, hT3, Δ, hT4, hT5, hT6, hT7, hT8, hT9, hT10⟩
    · rw [if_pos (show (!ds.isDir) = true from by
        cases hb : ds.isDir
        · rfl
        · exact absurd hb hnd)] at h
      have h3 := Option.some.inj h
      have hr : (Except.error Errno.ENOTDIR : Except Errno Nat) = res :=
        congrArg Prod.fst h3
      have hst : ({ st with time := st.time + 1 } : WalkSt) = st' := congrArg Prod.snd h3
      subst hr
      subst hst
      refine ⟨hbc, fun e' _ b => rfl, ?_, [], by rw [List.append_nil], rfl, rfl,
        ?_, by rw [countEv_nil]; omega, by rw [countEv_nil]; omega, ?_⟩
      · intro fd hok
        cases hok
      · intro fd hok
        cases hok
      · intro _ hcnt
        rw [countEv_nil] at hcnt
        exact absurd hcnt (by omega)

/-- `open_beneath`: descriptor neutrality and event-log discipline including
the temporary working-directory descriptor taken when `dir_fd` is absent. -/
theorem open_beneath_spec (or : Oracle) (fuel : Nat) (path : String)
    (flags mode : Nat) (dfd : Option Nat) (ns rp audit : Bool)
    (st : WalkSt) (res : Except Errno Nat) (st' : WalkSt)
    (h : open_beneath or fuel path flags mode dfd ns rp audit st = some (res, st'))
    (hwf : ∀ fd ∈ st.openFds, fd < st.nextFd)
    (hdl : ∀ d, dfd = some d → d < st.nextFd)
    (hbc : st.badClose = false) :
    st'.badClose = false ∧
    (∀ e, res = .error e → ∀ b, st'.openFds.count b = st.openFds.count b) ∧
    (∀ fd, res = .ok fd → (∀ b, st'.openFds.count b = st.openFds.count b +
      (if b = fd then 1 else 0)) ∧ st.nextFd ≤ fd) ∧
    ∃ Δ, st'.log = st.log ++ Δ ∧
      noAccessPending Δ false = true ∧
      Δ.all deqOk = true ∧
      (∀ fd, res = .ok fd → pendingAfter Δ false = false) ∧
      countEv isFound Δ ≤ max_symlinks ns + 1 ∧
      countEv isExpand Δ ≤ max_symlinks ns ∧
      (audit = false → countEv isFound Δ = max_symlinks ns + 1 →
        res = .error .ELOOP) := by
  cases dfd with
  | some d =>
    rw [open_beneath] at h
    exact open_beneath_inner_spec or fuel path d _ mode ns rp audit st res st' h
      hwf (hdl d rfl) hbc
  | none =>
    rw [open_beneath] at h
    simp only [sys_open] at h
    cases hop : or.openRes st.time with
    | error e =>
      rw [hop] at h
      have h3 := Option.some.inj h
      have hr : (Except.error e : Except Errno Nat) = res := congrArg Prod.fst h3
      have hst : ({ st with time := st.time + 1 } : WalkSt) = st' := congrArg Prod.snd h3
      subst hr
      subst hst
      refine ⟨hbc, fun e' _ b => rfl, ?_, [], by rw [List.append_nil], rfl, rfl,
        ?_, by rw [countEv_nil]; omega, by rw [countEv_nil]; omega, ?_⟩
      · intro fd hok
        cases hok
      · intro fd hok
        cases hok
      · intro _ hcnt
        rw [countEv_nil] at hcnt
        exact absurd hcnt (by omega)
    | ok u =>
      cases u
      rw [hop] at h
      simp only at h
      cases hi : _open_beneath or fuel path st.nextFd (flags ||| O_NOCTTY) mode ns rp audit
          { st with time := st.time + 1, nextFd := st.nextFd + 1,
                    openFds := st.nextFd :: st.openFds } with
      | none =>
        rw [hi] at h
        simp at h
      | some pr =>
        cases pr with
        | mk r st2 =>
          rw [hi] at h
          have h3 := Option.some.inj h
          have hr : r = res := congrArg Prod.fst h3
          have hst : sys_close st.nextFd st2 = st' := congrArg Prod.snd h3
          subst hr
          subst hst
          obtain ⟨hI1, hI2, hI3, Δ, hI4, hI5, hI6, hI7, hI8, hI9, hI10⟩ :=
            open_beneath_inner_spec or fuel path st.nextFd (flags ||| O_NOCTTY) mode
              ns rp audit _ r st2 hi
              (by
                intro fd hfd
                show fd < st.nextFd + 1
                rcases List.mem_cons.mp hfd with hh | hh
                · omega
                · have := hwf fd hh
                  omega)
              (by show st.nextFd < st.nextFd + 1; omega) hbc
          have hmem : st.nextFd ∈ st2.openFds := by
            apply mem_of_count_pos
            cases hre : r with
            | error e =>
              rw [hI2 e hre st.nextFd]
              show 0 < (st.nextFd :: st.openFds).count st.nextFd
              rw [count_cons_fd]
              simp
            | ok fd =>
              rw [(hI3 fd hre).1 st.nextFd]
              have h9 : 0 < (st.nextFd :: st.openFds).count st.nextFd := by
                rw [count_cons_fd]
                simp
              have h10 : ((⟨st.time + 1, st.nextFd + 1, st.nextFd :: st.openFds,
                  st.badClose, st.log⟩ : WalkSt)).openFds.count st.nextFd =
                  (st.nextFd :: st.openFds).count st.nextFd := rfl
              omega
          refine ⟨?_, ?_, ?_, Δ, ?_, hI5, hI6, hI7, hI8, hI9, hI10⟩
          · rw [sys_close_spec _ _ hmem]
            exact hI1
          · intro e hre b
            rw [sys_close_count _ _ hmem b, hI2 e hre b]
            show (st.nextFd :: st.openFds).count b - _ = _
            rw [count_cons_fd]
            by_cases hb : b = st.nextFd <;> simp [hb]
          · intro fd hre
            obtain ⟨hc, hge⟩ := hI3 fd hre
            have hge2 : st.nextFd + 1 ≤ fd := hge
            refine ⟨?_, by omega⟩
            intro b
            rw [sys_close_count _ _ hmem b, hc b]
            show (st.nextFd :: st.openFds).count b + _ - _ = _
            rw [count_cons_fd]
            by_cases hb : b = st.nextFd
            · subst hb
              rw [if_neg (show ¬(st.nextFd = fd) from by omega), if_pos rfl]
              omega
            · rw [if_neg hb]
              omega
          · rw [sys_close_spec _ _ hmem]
            show st2.log = st.log ++ Δ
            exact hI4

/-! ### C10: `remember_parents` under `no_symlinks` -/

theorem any_pyStrEqPair (s : String) (l : List (String × Nat)) :
    l.any (pyStrEqPair s) = false := by
  induction l with
  | nil => rfl
  | cons a t ih =>
    rw [List.any_cons, ih]
    rfl

theorem _open_beneath_ns_rp (or : Oracle) (fuel : Nat) (p : String)
    (d f m : Nat) (rp rp' audit : Bool) (st : WalkSt) :
    _open_beneath or fuel p d f m true rp audit st =
      _open_beneath or fuel p d f m true rp' audit st := by
  rw [_open_beneath, _open_beneath]
  simp only [sys_fstat]
  cases or.statRes st.time with
  | error e => rfl
  | ok ds =>
    simp only
    by_cases hnd : (!ds.isDir) = true
    · rw [if_pos hnd, if_pos hnd]
    · rw [if_neg hnd, if_neg hnd]
      cases split_path p f with
      | error e => rfl
      | ok parts =>
        simp only
        rw [any_pyStrEqPair]
        rfl

/-- C10: when `no_symlinks` is set and the split path has no `..` component,
`remember_parents=true` and `remember_parents=false` give exactly the same
result and final state: the test `dotdot not in parts` compares the string
`".."` with `(component, flags)` tuples and is therefore always true, so the
parent-stack policy is silently disabled whenever `no_symlinks` holds. -/
theorem open_beneath_no_symlinks_remember (or : Oracle) (fuel : Nat)
    (path : String) (flags mode : Nat) (dfd : Option Nat) (rp rp' audit : Bool)
    (st : WalkSt)
    (hnodd : ∀ l, split_path path (flags ||| O_NOCTTY) = .ok l →
      ∀ x ∈ l, x.1 ≠ "..") :
    open_beneath or fuel path flags mode dfd true rp audit st =
      open_beneath or fuel path flags mode dfd true rp' audit st := by
  cases dfd with
  | some d =>
    rw [open_beneath, open_beneath]
    exact _open_beneath_ns_rp or fuel path d _ mode rp rp' audit st
  | none =>
    rw [open_beneath, open_beneath]
    simp only [sys_open]
    cases or.openRes st.time with
    | error e => rfl
    | ok u =>
      cases u
      simp only
      rw [_open_beneath_ns_rp or fuel path st.nextFd (flags ||| O_NOCTTY) mode
        rp rp' audit]

/-! ### C3, C4, C7, C1: top-level walker claims -/

/-- C3: no descriptor leak.  For any completed call (any oracle behaviour,
any options), the model never closes a descriptor it does not own
(`badClose` stays `false`); on failure the open-descriptor multiset is
exactly the caller's again; on success it is the caller's plus exactly the
returned descriptor, which is fresh; and the caller's root descriptor is
still open in either case. -/
theorem open_beneath_no_leak (or : Oracle) (fuel : Nat) (path : String)
    (flags mode : Nat) (dfd : Option Nat) (ns rp audit : Bool)
    (st : WalkSt) (res : Except Errno Nat) (st' : WalkSt)
    (h : open_beneath or fuel path flags mode dfd ns rp audit st = some (res, st'))
    (hwf : ∀ fd ∈ st.openFds, fd < st.nextFd)
    (hdl : ∀ d, dfd = some d → d < st.nextFd)
    (hbc : st.badClose = false) :
    st'.badClose = false ∧
    (∀ e, res = .error e → st'.openFds.Perm st.openFds) ∧
    (∀ fd, res = .ok fd → st'.openFds.Perm (fd :: st.openFds) ∧ fd ∉ st.openFds) ∧
    (∀ d, dfd = some d → d ∈ st.openFds → d ∈ st'.openFds) := by
  obtain ⟨hB, hE, hO, -⟩ :=
    open_beneath_spec or fuel path flags mode dfd ns rp audit st res st' h hwf hdl hbc
  refine ⟨hB, ?_, ?_, ?_⟩
  · intro e hre
    exact List.perm_iff_count.mpr (fun b => hE e hre b)
  · intro fd hre
    obtain ⟨hc, hge⟩ := hO fd hre
    refine ⟨List.perm_iff_count.mpr (fun b => by rw [hc b, count_cons_fd]), ?_⟩
    intro hmem
    exact absurd (hwf fd hmem) (by omega)
  · intro d hd hmem
    apply mem_of_count_pos
    have h1 := count_pos_of_mem hmem
    cases res with
    | error e =>
      rw [hE e rfl d]
      exact h1
    | ok fd =>
      rw [(hO fd rfl).1 d]
      omega

/-- C7: queue-flag discipline.  In any completed call started with an empty
log, every dequeued work item either carried the directory-open flag set or
was the last item in the queue at the time it was dequeued; only the final
component can carry the caller's specialized flags. -/
theorem open_beneath_queue_flags (or : Oracle) (fuel : Nat) (path : String)
    (flags mode : Nat) (dfd : Option Nat) (ns rp audit : Bool)
    (st : WalkSt) (res : Except Errno Nat) (st' : WalkSt)
    (h : open_beneath or fuel path flags mode dfd ns rp audit st = some (res, st'))
    (hwf : ∀ fd ∈ st.openFds, fd < st.nextFd)
    (hdl : ∀ d, dfd = some d → d < st.nextFd)
    (hbc : st.badClose = false)
    (hlog : st.log = []) :
    ∀ fl isLast, Event.deq fl isLast ∈ st'.log →
      fl = DIR_OPEN_FLAGS ∨ isLast = true := by
  obtain ⟨-, -, -, Δ, hL, -, hDeq, -⟩ :=
    open_beneath_spec or fuel path flags mode dfd ns rp audit st res st' h hwf hdl hbc
  intro fl isLast hmem
  rw [hL, hlog, List.nil_append] at hmem
  have h1 := List.all_eq_true.mp hDeq _ hmem
  rw [deqOk] at h1
  rcases Bool.or_eq_true_iff.mp h1 with h2 | h2
  · exact Or.inl (by simpa using h2)
  · exact Or.inr h2

/-- C4: the symlink budget.  The budget is `0` under `no_symlinks` and `40`
otherwise; in any completed call started with an empty log the number of
symlink expansions never exceeds the budget (in particular, under
`no_symlinks` no symlink is ever followed); with no audit hook, consuming
one symlink beyond the budget makes the call fail with `ELOOP` (the first
symlink when the budget is `0`, the 41st when it is `40`); and a component
probe that confirms a symlink while the component's flags include
`O_NOFOLLOW` raises `ELOOP` outright, regardless of the counter. -/
theorem open_beneath_symlink_budget (or : Oracle) (fuel : Nat) (path : String)
    (flags mode : Nat) (dfd : Option Nat) (ns rp audit : Bool)
    (st : WalkSt) (res : Except Errno Nat) (st' : WalkSt)
    (h : open_beneath or fuel path flags mode dfd ns rp audit st = some (res, st'))
    (hwf : ∀ fd ∈ st.openFds, fd < st.nextFd)
    (hdl : ∀ d, dfd = some d → d < st.nextFd)
    (hbc : st.badClose = false)
    (hlog : st.log = []) :
    max_symlinks true = 0 ∧ max_symlinks false = 40 ∧
    countEv isExpand st'.log ≤ max_symlinks ns ∧
    countEv isFound st'.log ≤ max_symlinks ns + 1 ∧
    (audit = false → countEv isFound st'.log = max_symlinks ns + 1 →
      res = .error .ELOOP) ∧
    (∀ fl found msym target stB, fl &&& O_NOFOLLOW ≠ 0 →
      (handle_symlink_cont fl found msym target stB).1 = .error .ELOOP) := by
  obtain ⟨-, -, -, Δ, hL, -, -, -, hCf, hCx, hLoop⟩ :=
    open_beneath_spec or fuel path flags mode dfd ns rp audit st res st' h hwf hdl hbc
  have hlg : st'.log = Δ := by rw [hL, hlog, List.nil_append]
  refine ⟨rfl, rfl, by rw [hlg]; exact hCx, by rw [hlg]; exact hCf, ?_, ?_⟩
  · intro ha hcnt
    rw [hlg] at hcnt
    exact hLoop ha hcnt
  · intro fl found msym target stB hnf
    rw [handle_symlink_cont, if_pos (Or.inl hnf)]

/-- C1 (amended): pending-check discipline of the stateless walk, as the code
implements it.  After a `..` is resolved by an actual `..`-open
(`dotdotOpened`), no ordinary named component is accessed until the pending
state is cleared — which happens either when the escape verifier confirms
containment (`checkOk`) *or* when a later `..` finds the cursor's identity
equal to the root's and resets to it (`rootReset`), a path on which the
verifier does not run; and a successful return implies the pending state was
cleared (the post-loop verifier run covers a queue that drained with the
check still pending). -/
theorem open_beneath_pending_check (or : Oracle) (fuel : Nat) (path : String)
    (flags mode : Nat) (dfd : Option Nat) (ns rp audit : Bool)
    (st : WalkSt) (res : Except Errno Nat) (st' : WalkSt)
    (h : open_beneath or fuel path flags mode dfd ns rp audit st = some (res, st'))
    (hrp : rp = false)
    (hwf : ∀ fd ∈ st.openFds, fd < st.nextFd)
    (hdl : ∀ d, dfd = some d → d < st.nextFd)
    (hbc : st.badClose = false)
    (hlog : st.log = []) :
    noAccessPending st'.log false = true ∧
    (∀ fd, res = .ok fd → pendingAfter st'.log false = false) := by
  obtain ⟨-, -, -, Δ, hL, hNo, -, hPend, -⟩ :=
    open_beneath_spec or fuel path flags mode dfd ns rp audit st res st' h hwf hdl hbc
  have hlg : st'.log = Δ := by rw [hL, hlog, List.nil_append]
  refine ⟨by rw [hlg]; exact hNo, ?_⟩
  intro fd hre
  rw [hlg]
  exact hPend fd hre

/-! ### Concrete runs witnessing the top-level walker claims -/

def wRoot : FileStat := ⟨1, 1, true, false⟩

def wOther : FileStat := ⟨2, 2, true, false⟩

def wOr : Oracle :=
  { openRes := fun _ => .ok (),
    statRes := fun t => if t = 4 then .ok wRoot else
      if t = 0 then .ok wRoot else .ok wOther,
    readlinkRes := fun _ => .error .EINVAL,
    auditRes := fun _ => .ok () }

def wSt : WalkSt := ⟨0, 10, [5], false, []⟩

def wStOut : WalkSt :=
  ⟨2, 11, [10, 5], false, [Event.deq O_NOCTTY true, Event.nameAccess "a"]⟩

def wCexSt : WalkSt := ⟨6, 13, [12, 5], false,
  [Event.deq DIR_OPEN_FLAGS false, Event.nameAccess "a",
   Event.deq DIR_OPEN_FLAGS false, Event.dotdotOpened,
   Event.deq DIR_OPEN_FLAGS false, Event.rootReset,
   Event.deq O_NOCTTY true, Event.nameAccess "b"]⟩

/-- C3 witness: a concrete successful walk of `"a"` from root descriptor 5
returns the fresh descriptor 10, leaves no leak (final ledger is the
caller's plus exactly the returned descriptor) and keeps the root open. -/
theorem open_beneath_no_leak_witness :
    (open_beneath wOr 6 "a" 0 0 (some 5) false false false wSt =
      some (.ok 10, wStOut)) ∧
    wStOut.badClose = false ∧ wStOut.openFds.Perm (10 :: wSt.openFds) ∧
    (10 : Nat) ∉ wSt.openFds ∧ (5 : Nat) ∈ wStOut.openFds := by
  have hrun : open_beneath wOr 6 "a" 0 0 (some 5) false false false wSt =
      some (.ok 10, wStOut) := by decide
  obtain ⟨c1, c2, c3, c4⟩ := open_beneath_no_leak wOr 6 "a" 0 0 (some 5)
    false false false wSt (.ok 10) wStOut hrun (by decide)
    (fun d hd => by injection hd with hh; rw [← hh]; decide) (by decide)
  exact ⟨hrun, c1, (c3 10 rfl).1, (c3 10 rfl).2, c4 5 rfl (by decide)⟩

/-- C7 witness: in the concrete run of `"a"` the dequeued work item
`(O_NOCTTY, isLast := true)` satisfies the flag discipline. -/
theorem open_beneath_queue_flags_witness :
    O_NOCTTY = DIR_OPEN_FLAGS ∨ true = true :=
  open_beneath_queue_flags wOr 6 "a" 0 0 (some 5) false false false wSt
    (.ok 10) wStOut (by decide) (by decide)
    (fun d hd => by injection hd with hh; rw [← hh]; decide) (by decide) rfl
    O_NOCTTY true (by decide)

/-- C4 witness: the budget values, the expansion bound on the concrete run of
`"a"`, and the `O_NOFOLLOW` short-circuit evaluated at a concrete probe. -/
theorem open_beneath_symlink_budget_witness :
    max_symlinks true = 0 ∧ max_symlinks false = 40 ∧
    countEv isExpand wStOut.log ≤ max_symlinks false ∧
    (handle_symlink_cont O_NOFOLLOW 0 40 "t" wSt).1 = .error .ELOOP := by
  obtain ⟨c1, c2, c3, c4, c5, c6⟩ := open_beneath_symlink_budget wOr 6 "a" 0 0
    (some 5) false false false wSt (.ok 10) wStOut (by decide) (by decide)
    (fun d hd => by injection hd with hh; rw [← hh]; decide) (by decide) rfl
  exact ⟨c1, c2, c3, c6 O_NOFOLLOW 0 40 "t" wSt (by decide)⟩

/-- C1 witness: the concrete successful run of `"a"` keeps the pending-check
discipline (no access with a pending `..`, nothing pending at return). -/
theorem open_beneath_pending_check_witness :
    noAccessPending wStOut.log false = true ∧
    pendingAfter wStOut.log false = false := by
  obtain ⟨c1, c2⟩ := open_beneath_pending_check wOr 6 "a" 0 0 (some 5)
    false false false wSt (.ok 10) wStOut (by decide) rfl (by decide)
    (fun d hd => by injection hd with hh; rw [← hh]; decide) (by decide) rfl
  exact ⟨c1, c2 10 rfl⟩

/-- C1 counterexample to the claim as stated: on `"a/../../b"` with a racing
filesystem the second `..` finds the cursor's identity equal to the root's
and resets to it (`rootReset`), clearing `saw_parent_elem` *without ever
running the escape verifier* (no `checkOk` event is logged in the whole
successful run); the ordinary component `"b"` is then opened.  Under the
claim's reading — only the verifier may clear the pending state — the
no-access-while-pending property is violated on this run. -/
theorem open_beneath_pending_check_cex :
    open_beneath wOr 9 "a/../../b" 0 0 (some 5) false false false wSt =
      some (.ok 12, wCexSt) ∧
    countEv isCheckOk wCexSt.log = 0 ∧
    Event.dotdotOpened ∈ wCexSt.log ∧
    Event.nameAccess "b" ∈ wCexSt.log ∧
    noAccessPendingStrict wCexSt.log false = false := by
  refine ⟨by decide, by decide, by decide, by decide, by decide⟩

/-- C10 witness: with `no_symlinks` set, both parent-stack policies produce
the identical run on the concrete walk of `"a"`. -/
theorem open_beneath_no_symlinks_remember_witness :
    open_beneath wOr 6 "a" 0 0 (some 5) true true false wSt =
      open_beneath wOr 6 "a" 0 0 (some 5) true false false wSt :=
  open_beneath_no_symlinks_remember wOr 6 "a" 0 0 (some 5) true false false wSt
    (by
      intro l hl x hx
      rw [show split_path "a" (0 ||| O_NOCTTY) = .ok [("a", O_NOCTTY)] from
        by decide] at hl
      injection hl with hl
      subst hl
      simp at hx
      subst hx
      decide)
